import Mathlib

/-!
# LSM-tree set store

A shallow embedding of the Go packages `bloom_filter`, `sstable` and `lsm_tree`.

Conventions of the embedding.

* A Go `string` is a sequence of bytes compared byte-wise: `Key := List (Fin 256)` with the
  lexicographic order.
* A Go `map[string]struct{}` is a list of keys: insertion appends a key that is not yet there,
  `delete` erases it, `len` is the length, `range` walks the list.
* The index file of a run is the list of its 16-byte entries (`meta`), so the file offset
  `16 * i` is the list position `i`; the data file is the list of its bytes.  A file position is
  the suffix of the file that a fresh buffered reader would see.
* File creation and file writes succeed and buffered writers are flushed; reads and seeks fail
  exactly where the operating system makes them fail (negative seek offset, end of file).
* Loops that are not structurally bounded carry a fuel argument; the entry points supply it and
  `Err.outOfFuel` is returned only if the Go loop would have run longer than that.
* Go `int`/`int64` values are mathematical integers: no run is large enough to overflow them.
* An error is named by the innermost sentinel of its chain; the wrapping that the callers add
  with `fmt.Errorf` is left out.
* `container/heap` is taken by its contract: `heap.Pop` returns the least item under `Less`.
  `sort.Slice` and `sort.SliceStable` are the stable insertion sort by key.
-/

/-- One byte of a Go string. -/
abbrev Byte := Fin 256

/-- A Go `string`: bytes, ordered lexicographically byte by byte. -/
abbrev Key := List Byte

/-- The failures the embedded functions can report. -/
inductive Err where
  /-- Go `ErrFileSeeking`: `Seek` to a negative offset. -/
  | fileSeeking
  /-- Go `io.EOF`, returned unwrapped by `metaFromBytes`. -/
  | eof
  /-- Go `ErrReadingFromFile`: the data file ended inside a record. -/
  | readingFromFile
  /-- The error of `LSMTree.SearchRange` for `keyL > keyR`. -/
  | invalidKeyRange
  /-- The error of `sstable.New` for a wrong number of input tables. -/
  | tablesNumber
  /-- A Go run-time fault: index out of range or negative `make` length. -/
  | runtimePanic
  /-- The loop bound of the embedding was exhausted (the Go loop is still running). -/
  | outOfFuel
deriving DecidableEq, Repr

/-- The constants of package `common` and the floating-point function
`getOptimalHashFuncsNumber`, taken as parameters. -/
structure Params where
  /-- Go `common.FirstLevelSize`. -/
  FirstLevelSize : Nat
  /-- Go `common.MaxLevelSize`. -/
  MaxLevelSize : Nat
  /-- Go `getOptimalHashFuncsNumber`: `int(math.Ceil(bitsNumber / float64(n) * math.Ln2))`. -/
  getOptimalHashFuncsNumber : Nat → Nat

/-! ## Go maps used as sets -/

/-- Go `m[s] = struct{}{}`. -/
def mapSet (m : List Key) (s : Key) : List Key :=
  if s ∈ m then m else m ++ [s]

/-- Go `delete(m, s)`. -/
def mapDelete (m : List Key) (s : Key) : List Key :=
  m.erase s

/-! ## Package bloom_filter -/

namespace bloom_filter

/-- The constant `bitsNumber`. -/
def bitsNumber : Nat := 500000

/-- What `fnv.New64a()` computes after `Reset`, `Write(element)`, `Sum64()`: 64-bit FNV-1a. -/
def fnv64a (element : List Byte) : Nat :=
  element.foldl (fun h b => ((h ^^^ b.val) * 1099511628211) % 2 ^ 64) 14695981039346656037

/-- Go `indexFromHash`. -/
def indexFromHash (hash : Nat) : Nat :=
  hash % bitsNumber

/-- Go `bloomFilter`: the hash objects and the bit set (the list of the positions set). -/
structure bloomFilter where
  /-- The `hashFuncs` slice. -/
  hashFuncs : List (List Byte → Nat)
  /-- The bit set, given by the positions that are set. -/
  filter : List Nat

/-- Go `New`, with `k` the value of `getOptimalHashFuncsNumber(elementsNumber)`, for
`elementsNumber ≥ 1`. At `elementsNumber = 0` the Go function panics: `k` is the conversion of
`+Inf` to `int` and `make` fails. `sstable.New` reports that case as `Err.runtimePanic`;
`NewFromMap` is called by `flushRAMComponent` alone, with `FirstLevelSize` the number of keys of
the memory component, which is at least 1 at a flush. -/
def New (getOptimalHashFuncsNumber : Nat → Nat) (elementsNumber : Nat) : bloomFilter :=
  let k := getOptimalHashFuncsNumber elementsNumber
  { hashFuncs := List.replicate k fnv64a, filter := [] }

/-- Go `bloomFilter.Add`: every hash object sets its bit. -/
def bloomFilter.Add (b : bloomFilter) (element : List Byte) : bloomFilter :=
  { b with filter := b.hashFuncs.foldl (fun f h => indexFromHash (h element) :: f) b.filter }

/-- Go `bloomFilter.CheckContains`: false at the first hash object whose bit is unset. -/
def bloomFilter.CheckContains (b : bloomFilter) (element : List Byte) : Bool :=
  b.hashFuncs.all (fun h => decide (indexFromHash (h element) ∈ b.filter))

end bloom_filter

/-! ## Package sstable -/

namespace sstable

/-- Go `SearchResult`. -/
inductive SearchResult where
  | SearchResultNotFound
  | SearchResultFound
  | SearchResultRemoved
deriving DecidableEq, Repr

/-- Go `TableElement`. -/
structure TableElement where
  /-- The key. -/
  Value : Key
  /-- The tombstone flag. -/
  IsTombstone : Bool
deriving DecidableEq, Repr

/-- Go `meta`: one entry of the index file. -/
structure meta where
  /-- Byte offset of the record in the data file. -/
  offset : Int
  /-- Length of the key in bytes. -/
  length : Int
deriving DecidableEq, Repr

/-- Go `SSTable`. `tag` is the integer that names the two files. -/
structure SSTable where
  /-- The value of `fileCnt` in the two file paths. -/
  tag : Nat
  /-- Content of the index file, one item per 16-byte entry. -/
  metaFile : List meta
  /-- Content of the data file. -/
  dataFile : List Byte
  /-- The field `size`. -/
  size : Nat
  /-- The field `bloomFilter`. -/
  bloomFilter : bloom_filter.bloomFilter

/-- Go `TableElement.toBytes`. -/
def TableElement.toBytes (e : TableElement) : List Byte :=
  e.Value ++ [if e.IsTombstone then 1 else 0]

/-- Go `metaFromBytes` on a reader positioned at an entry boundary. -/
def metaFromBytes (reader : List meta) : Except Err (meta × List meta) :=
  match reader with
  | [] => .error .eof
  | m :: rest => .ok (m, rest)

/-- Go `setMetaFileOffset`: seek the index file to `elementIdx * 16`. -/
def setMetaFileOffset (file : List meta) (elementIdx : Int) : Except Err (List meta) :=
  if elementIdx < 0 then .error .fileSeeking else .ok (file.drop elementIdx.toNat)

/-- Go `tableElementFromBytes`. -/
def tableElementFromBytes (reader : List Byte) (valueLength : Int) :
    Except Err (TableElement × List Byte) :=
  if valueLength < 0 then .error .runtimePanic
  else if reader.length < valueLength.toNat then .error .readingFromFile
  else
    match reader.drop valueLength.toNat with
    | [] => .error .readingFromFile
    | tombstoneByte :: rest =>
      .ok ({ Value := reader.take valueLength.toNat, IsTombstone := tombstoneByte == 1 }, rest)

/-- Go `setDataFileOffset`: returns the entry read and the positions of the two files. The
position of the index file is the one asked for when `setCorrectMetaOffset` holds. -/
def setDataFileOffset (metaFile : List meta) (dataFile : List Byte) (elementIdx : Int)
    (setCorrectMetaOffset : Bool) : Except Err (meta × List meta × List Byte) :=
  match setMetaFileOffset metaFile elementIdx with
  | .error e => .error e
  | .ok metaReader =>
    match metaFromBytes metaReader with
    | .error e => .error e
    | .ok (elementMeta, metaRest) =>
      if elementMeta.offset < 0 then .error .fileSeeking
      else
        let dataPos := dataFile.drop elementMeta.offset.toNat
        if setCorrectMetaOffset then .ok (elementMeta, metaReader, dataPos)
        else .ok (elementMeta, metaRest, dataPos)

/-- Go `tableElementFromFileRandom`. -/
def tableElementFromFileRandom (metaFile : List meta) (dataFile : List Byte) (elementIdx : Int) :
    Except Err TableElement :=
  match setDataFileOffset metaFile dataFile elementIdx false with
  | .error e => .error e
  | .ok (elementMeta, _, dataReader) =>
    match tableElementFromBytes dataReader elementMeta.length with
    | .error e => .error e
    | .ok (element, _) => .ok element

/-- Go `tableElementFromFileConsecutive`. -/
def tableElementFromFileConsecutive (metaReader : List meta) (dataReader : List Byte) :
    Except Err (TableElement × List meta × List Byte) :=
  match metaFromBytes metaReader with
  | .error e => .error e
  | .ok (elementMeta, metaRest) =>
    match tableElementFromBytes dataReader elementMeta.length with
    | .error e => .error e
    | .ok (element, dataRest) => .ok (element, metaRest, dataRest)

/-- Go `SSTable.writeElement`: returns the run and the new value of `*offset`. -/
def SSTable.writeElement (s : SSTable) (element : TableElement) (offset : Int) : SSTable × Int :=
  let elementBytes := element.toBytes
  let elementMetaData : meta := { offset := offset, length := (elementBytes.length : Int) - 1 }
  ({ s with
      dataFile := s.dataFile ++ elementBytes
      metaFile := s.metaFile ++ [elementMetaData]
      bloomFilter := s.bloomFilter.Add element.Value
      size := s.size + 1 },
    offset + elementBytes.length)

/-- The loop over `valuesSorted` in `NewFromMap`. -/
def writeElements : List TableElement → SSTable → Int → SSTable × Int
  | [], s, offset => (s, offset)
  | value :: rest, s, offset =>
    let r := s.writeElement value offset
    writeElements rest r.1 r.2

/-- Go `NewFromMap`. `sort.Slice` is the sort by key; the keys of the two maps are distinct
whenever the maps are disjoint, which leaves one sorted order. -/
def NewFromMap (p : Params) (tag : Nat) (valuesToAdd valuesToDelete : List Key) : SSTable :=
  let s : SSTable :=
    { tag := tag, metaFile := [], dataFile := [], size := 0,
      bloomFilter := bloom_filter.New p.getOptimalHashFuncsNumber p.FirstLevelSize }
  let values : List TableElement :=
    valuesToAdd.map (fun value => { Value := value, IsTombstone := false }) ++
      valuesToDelete.map (fun value => { Value := value, IsTombstone := true })
  let valuesSorted := values.insertionSort (fun a b => a.Value ≤ b.Value)
  (writeElements valuesSorted s 0).1

/-- The loop of Go `SSTable.SearchKey`, entered with `left` and `right`. -/
def searchKeyLoop (s : SSTable) (key : Key) : Nat → Int → Int → Except Err SearchResult
  | 0, left, right =>
    if right - left > 1 then .error .outOfFuel else .ok .SearchResultNotFound
  | fuel + 1, left, right =>
    if right - left > 1 then
      let mid := (left + right).tdiv 2
      match tableElementFromFileRandom s.metaFile s.dataFile mid with
      | .error e => .error e
      | .ok midKey =>
        if midKey.Value = key then
          if !midKey.IsTombstone then .ok .SearchResultFound else .ok .SearchResultRemoved
        else if midKey.Value < key then searchKeyLoop s key fuel mid right
        else searchKeyLoop s key fuel left mid
    else .ok .SearchResultNotFound

/-- Go `SSTable.SearchKey`. -/
def SSTable.SearchKey (s : SSTable) (key : Key) : Except Err SearchResult :=
  if !s.bloomFilter.CheckContains key then .ok .SearchResultNotFound
  else searchKeyLoop s key (s.size + 1) (-1) s.size

/-- The two binary-search loops of Go `SSTable.SearchRange`; `goRight midKey` is the loop's
test (`midKey.Value < keyL` in the first, `midKey.Value <= keyR` in the second). The result is
the final `left`. -/
def searchBoundLoop (s : SSTable) (goRight : Key → Bool) : Nat → Int → Int → Except Err Int
  | 0, left, right => if right - left > 1 then .error .outOfFuel else .ok left
  | fuel + 1, left, right =>
    if right - left > 1 then
      let mid := (left + right).tdiv 2
      match tableElementFromFileRandom s.metaFile s.dataFile mid with
      | .error e => .error e
      | .ok midKey =>
        if goRight midKey.Value then searchBoundLoop s goRight fuel mid right
        else searchBoundLoop s goRight fuel left mid
    else .ok left

/-- The final loop of Go `SSTable.SearchRange`: `n` consecutive reads. -/
def readConsecutive : Nat → List meta → List Byte → Except Err (List TableElement)
  | 0, _, _ => .ok []
  | n + 1, metaReader, dataReader =>
    match tableElementFromFileConsecutive metaReader dataReader with
    | .error e => .error e
    | .ok (element, metaRest, dataRest) =>
      match readConsecutive n metaRest dataRest with
      | .error e => .error e
      | .ok result => .ok (element :: result)

/-- Go `SSTable.SearchRange`. -/
def SSTable.SearchRange (s : SSTable) (keyL keyR : Key) : Except Err (List TableElement) :=
  match searchBoundLoop s (fun k => decide (k < keyL)) (s.size + 1) (-1) s.size with
  | .error e => .error e
  | .ok L =>
    match searchBoundLoop s (fun k => decide (k ≤ keyR)) (s.size + 1) (-1) s.size with
    | .error e => .error e
    | .ok R =>
      match setDataFileOffset s.metaFile s.dataFile L true with
      | .error e => .error e
      | .ok (_, metaReader, dataReader) =>
        if R - L + 1 < 0 then .error .runtimePanic
        else readConsecutive (R - L + 1).toNat metaReader dataReader

/-- Go `mergeItem`. -/
structure mergeItem where
  /-- The record. -/
  value : TableElement
  /-- The position of the input table the record was read from. -/
  readerIdx : Nat
deriving DecidableEq, Repr

/-- Go `priorityQueue.Less`, on the two items themselves. -/
def priorityQueue.Less (a b : mergeItem) : Bool :=
  if a.value.Value < b.value.Value then true
  else decide (a.value.Value = b.value.Value) && decide (a.readerIdx > b.readerIdx)

/-- Go `heap.Pop` on a `priorityQueue`: the least item under `Less` and the other items. -/
def heapPop : List mergeItem → Option (mergeItem × List mergeItem)
  | [] => none
  | x :: xs =>
    match heapPop xs with
    | none => some (x, [])
    | some (m, rest) => if priorityQueue.Less m x then some (m, x :: rest) else some (x, xs)

/-- Go `heap.Push` on a `priorityQueue`. -/
def heapPush (queue : List mergeItem) (x : mergeItem) : List mergeItem :=
  x :: queue

/-- The first loop of Go `SSTable.merge`: position a reader pair on every input table, read its
first record and push it. -/
def mergeInit : List SSTable → Nat → List mergeItem → List (List meta × List Byte) →
    Except Err (List mergeItem × List (List meta × List Byte))
  | [], _, queue, readers => .ok (queue, readers)
  | table :: rest, i, queue, readers =>
    match setDataFileOffset table.metaFile table.dataFile 0 true with
    | .error e => .error e
    | .ok (_, metaReader, dataReader) =>
      match tableElementFromFileConsecutive metaReader dataReader with
      | .error e => .error e
      | .ok (element, metaRest, dataRest) =>
        mergeInit rest (i + 1) (heapPush queue { value := element, readerIdx := i })
          (readers ++ [(metaRest, dataRest)])

/-- The second loop of Go `SSTable.merge`. -/
def mergeLoop : Nat → SSTable → List mergeItem → List (List meta × List Byte) → Key → Int →
    Except Err SSTable
  | 0, s, queue, _, _, _ =>
    match queue with
    | [] => .ok s
    | _ :: _ => .error .outOfFuel
  | fuel + 1, s, queue, readers, lastInserted, offset =>
    match heapPop queue with
    | none => .ok s
    | some (element, queue1) =>
      let w : SSTable × Int :=
        if offset = 0 ∨ lastInserted ≠ element.value.Value then
          s.writeElement element.value offset
        else (s, offset)
      match readers.get? element.readerIdx with
      | none => .error .runtimePanic
      | some (metaReader, dataReader) =>
        match tableElementFromFileConsecutive metaReader dataReader with
        | .error .eof => mergeLoop fuel w.1 queue1 readers element.value.Value w.2
        | .error e => .error e
        | .ok (newElement, metaRest, dataRest) =>
          mergeLoop fuel w.1
            (heapPush queue1 { value := newElement, readerIdx := element.readerIdx })
            (readers.set element.readerIdx (metaRest, dataRest)) element.value.Value w.2

/-- Go `SSTable.merge`. The loop pops one record per turn, so the number of index entries of
the inputs bounds the number of turns. -/
def SSTable.merge (s : SSTable) (tablesToMerge : List SSTable) : Except Err SSTable :=
  match mergeInit tablesToMerge 0 [] [] with
  | .error e => .error e
  | .ok (queue, readers) =>
    mergeLoop ((tablesToMerge.map (fun t => t.metaFile.length)).sum + 1) s queue readers [] 0

/-- Go `sstable.New`. With `sizeEstimation = 0` the call `bloom_filter.New(sizeEstimation)`
panics, before a file is created or read. -/
def New (p : Params) (tag : Nat) (tablesToMerge : List SSTable) : Except Err SSTable :=
  if tablesToMerge.length ≠ p.MaxLevelSize then .error .tablesNumber
  else
    let sizeEstimation := (tablesToMerge.map (fun t => t.size)).sum
    if sizeEstimation = 0 then .error .runtimePanic
    else
      let s : SSTable :=
        { tag := tag, metaFile := [], dataFile := [], size := 0,
          bloomFilter := bloom_filter.New p.getOptimalHashFuncsNumber sizeEstimation }
      s.merge tablesToMerge

end sstable

/-! ## Package lsm_tree -/

namespace lsm_tree

open sstable

/-- Go `LSMTree`. -/
structure LSMTree where
  /-- The levels, each a list of runs in insertion order. -/
  sstables : List (List SSTable)
  /-- The live keys of the memory component. -/
  ramComponent : List Key
  /-- The removed keys of the memory component. -/
  ramComponentRemoved : List Key
  /-- The counter that names files. -/
  fileCnt : Nat

/-- Go `New`. -/
def New : LSMTree :=
  { sstables := [[]], ramComponent := [], ramComponentRemoved := [], fileCnt := 0 }

/-- The loop of Go `LSMTree.mergeSSTables`, entered at `level`. Removing the merged tables
unlinks their files and leaves the tree as it is. -/
def mergeSSTablesLoop (p : Params) : Nat → Nat → LSMTree → Except Err LSMTree
  | 0, level, l => if level < l.sstables.length then .error .outOfFuel else .ok l
  | fuel + 1, level, l =>
    if level < l.sstables.length then
      if (l.sstables.getD level []).length = p.MaxLevelSize then
        match sstable.New p l.fileCnt (l.sstables.getD level []) with
        | .error e => .error e
        | .ok newSSTable =>
          let t1 := l.sstables.set level []
          let t2 := if level = t1.length - 1 then t1.take (level + 1) else t1
          let t3 := if t2.length = level + 1 then t2 ++ [[]] else t2
          let t4 := t3.set (level + 1) (t3.getD (level + 1) [] ++ [newSSTable])
          mergeSSTablesLoop p fuel (level + 1) { l with sstables := t4, fileCnt := l.fileCnt + 1 }
      else mergeSSTablesLoop p fuel (level + 1) l
    else .ok l

/-- Go `LSMTree.mergeSSTables`. A turn adds at most one level, and only when the last level
is merged, so twice the number of levels plus one bounds the turns of a terminating run. -/
def LSMTree.mergeSSTables (p : Params) (l : LSMTree) : Except Err LSMTree :=
  mergeSSTablesLoop p (2 * l.sstables.length + 1) 0 l

/-- Go `LSMTree.flushRAMComponent`. -/
def LSMTree.flushRAMComponent (p : Params) (l : LSMTree) : Except Err LSMTree :=
  let newSSTable := sstable.NewFromMap p l.fileCnt l.ramComponent l.ramComponentRemoved
  match l.sstables with
  | [] => .error .runtimePanic
  | level0 :: rest =>
    LSMTree.mergeSSTables p
      { sstables := (level0 ++ [newSSTable]) :: rest
        ramComponent := []
        ramComponentRemoved := []
        fileCnt := l.fileCnt + 1 }

/-- Go `LSMTree.Add`. -/
def LSMTree.Add (p : Params) (l : LSMTree) (s : Key) : Except Err LSMTree :=
  let l1 : LSMTree :=
    { l with
      ramComponent := mapSet l.ramComponent s
      ramComponentRemoved := mapDelete l.ramComponentRemoved s }
  if l1.ramComponent.length + l1.ramComponentRemoved.length = p.FirstLevelSize then
    l1.flushRAMComponent p
  else .ok l1

/-- Go `LSMTree.Delete`. -/
def LSMTree.Delete (p : Params) (l : LSMTree) (s : Key) : Except Err LSMTree :=
  let l1 : LSMTree :=
    { l with
      ramComponentRemoved := mapSet l.ramComponentRemoved s
      ramComponent := mapDelete l.ramComponent s }
  if l1.ramComponent.length + l1.ramComponentRemoved.length = p.FirstLevelSize then
    l1.flushRAMComponent p
  else .ok l1

/-- The inner loop of Go `LSMTree.SearchKey` over one level, newest run first; `tables` is the
level reversed. `none` means that no run of the level decided. -/
def searchKeyLevel (s : Key) : List SSTable → Except Err (Option Bool)
  | [] => .ok none
  | table :: rest =>
    match table.SearchKey s with
    | .error e => .error e
    | .ok .SearchResultFound => .ok (some true)
    | .ok .SearchResultRemoved => .ok (some false)
    | .ok .SearchResultNotFound => searchKeyLevel s rest

/-- The outer loop of Go `LSMTree.SearchKey` over the levels. -/
def searchKeyLevels (s : Key) : List (List SSTable) → Except Err Bool
  | [] => .ok false
  | level :: rest =>
    match searchKeyLevel s level.reverse with
    | .error e => .error e
    | .ok (some b) => .ok b
    | .ok none => searchKeyLevels s rest

/-- Go `LSMTree.SearchKey`. -/
def LSMTree.SearchKey (l : LSMTree) (s : Key) : Except Err Bool :=
  if s ∈ l.ramComponent then .ok true
  else if s ∈ l.ramComponentRemoved then .ok false
  else searchKeyLevels s l.sstables

/-- The inner loop of Go `LSMTree.SearchRange` over one level, newest run first; `tables` is
the level reversed. -/
def searchRangeLevel (keyL keyR : Key) :
    List SSTable → List TableElement → Except Err (List TableElement)
  | [], resElements => .ok resElements
  | table :: rest, resElements =>
    match table.SearchRange keyL keyR with
    | .error e => .error e
    | .ok searchResult => searchRangeLevel keyL keyR rest (resElements ++ searchResult)

/-- The outer loop of Go `LSMTree.SearchRange` over the levels. -/
def searchRangeLevels (keyL keyR : Key) :
    List (List SSTable) → List TableElement → Except Err (List TableElement)
  | [], resElements => .ok resElements
  | level :: rest, resElements =>
    match searchRangeLevel keyL keyR level.reverse resElements with
    | .error e => .error e
    | .ok resElements1 => searchRangeLevels keyL keyR rest resElements1

/-- The last loop of Go `LSMTree.SearchRange`: keep a record that is no tombstone and whose
predecessor in the sorted sequence has another key. `prev` is `resElements[i-1]`. -/
def emitKeys : Option TableElement → List TableElement → List Key
  | _, [] => []
  | prev, element :: rest =>
    let keep : Bool :=
      !element.IsTombstone &&
        (match prev with
         | none => true
         | some q => decide (q.Value ≠ element.Value))
    if keep then element.Value :: emitKeys (some element) rest
    else emitKeys (some element) rest

/-- Go `LSMTree.SearchRange`. `sort.SliceStable` is the stable sort by key. -/
def LSMTree.SearchRange (l : LSMTree) (keyL keyR : Key) : Except Err (List Key) :=
  if keyL > keyR then .error .invalidKeyRange
  else
    let fromLive : List TableElement :=
      (l.ramComponent.filter (fun key => decide (key ≥ keyL) && decide (key ≤ keyR))).map
        (fun key => { Value := key, IsTombstone := false })
    let fromRemoved : List TableElement :=
      (l.ramComponentRemoved.filter (fun key => decide (key ≥ keyL) && decide (key ≤ keyR))).map
        (fun key => { Value := key, IsTombstone := true })
    match searchRangeLevels keyL keyR l.sstables (fromLive ++ fromRemoved) with
    | .error e => .error e
    | .ok resElements =>
      .ok (emitKeys none (resElements.insertionSort (fun a b => a.Value ≤ b.Value)))

/-- An operation of the embedded API that changes the tree. -/
inductive Op where
  | add (s : Key)
  | delete (s : Key)
deriving DecidableEq, Repr

/-- One call of `Add` or `Delete`. -/
def applyOp (p : Params) (l : LSMTree) : Op → Except Err LSMTree
  | .add s => l.Add p s
  | .delete s => l.Delete p s

/-- The calls of `ops` in order, stopping at the first error. -/
def runOps (p : Params) : LSMTree → List Op → Except Err LSMTree
  | l, [] => .ok l
  | l, op :: rest =>
    match applyOp p l op with
    | .error e => .error e
    | .ok l1 => runOps p l1 rest

end lsm_tree

namespace sstable

/-- The content of the data file that holds the records `recs`. -/
def dataBytes : List TableElement → List Byte
  | [] => []
  | e :: rest => e.toBytes ++ dataBytes rest

/-- The content of the index file for the records `recs`, the first of which starts at byte
`offset` of the data file. -/
def metaEntries : Int → List TableElement → List meta
  | _, [] => []
  | offset, e :: rest =>
    { offset := offset, length := e.Value.length } ::
      metaEntries (offset + ((e.Value.length : Int) + 1)) rest

/-- The two files and the size of `s` are those of a run that holds the records `recs`. -/
def Holds (s : SSTable) (recs : List TableElement) : Prop :=
  s.metaFile = metaEntries 0 recs ∧ s.dataFile = dataBytes recs ∧ s.size = recs.length

end sstable

namespace sstable

/-- The keys of `recs` are strictly increasing. -/
def StrictKeys (recs : List TableElement) : Prop :=
  recs.Pairwise (fun a b => a.Value < b.Value)

/-- The filter of `s` accepts the key of every record of `recs`. -/
def FilterHas (s : SSTable) (recs : List TableElement) : Prop :=
  ∀ e ∈ recs, s.bloomFilter.CheckContains e.Value = true

/-- The first record of `recs` with key `key`. -/
def findKey (recs : List TableElement) (key : Key) : Option TableElement :=
  recs.find? (fun e => decide (e.Value = key))

/-- The answer of a point search that met the record `r` (or none). -/
def resultOf : Option TableElement → SearchResult
  | none => .SearchResultNotFound
  | some e => if e.IsTombstone then .SearchResultRemoved else .SearchResultFound

end sstable

namespace sstable

/-- The record for `key` in the newest input that has one; the inputs are listed oldest
first. -/
def newest : List (List TableElement) → Key → Option TableElement
  | [], _ => none
  | r :: rest, key =>
    match newest rest key with
    | some e => some e
    | none => findKey r key

/-- The queue and the readers of a merge agree with the records `pend` that each input still
has to deliver: the queue holds the first pending record of every input that has one, and the
reader of an input stands right after it. -/
structure QInv (queue : List mergeItem) (readers : List (List meta × List Byte))
    (pend : List (List TableElement)) : Prop where
  /-- One reader pair per input. -/
  len : readers.length = pend.length
  /-- No two queued items come from the same input. -/
  nodup : (queue.map (fun it => it.readerIdx)).Nodup
  /-- The queued items are the first pending records. -/
  mem : ∀ it, it ∈ queue ↔ ∃ rest, pend[it.readerIdx]? = some (it.value :: rest)
  /-- The reader of an input is positioned after its first pending record. -/
  rd : ∀ (i : Nat) (r : List TableElement), pend[i]? = some r →
    ∃ o, readers[i]? = some (metaEntries o r.tail, dataBytes r.tail)

end sstable

namespace sstable

/-- The keys of `recs`, in order. -/
def keysOf (recs : List TableElement) : List Key :=
  recs.map (fun e => e.Value)

/-- The state of the second loop of `merge` between two turns: `out` are the records written
so far to the run `s`, `pend` the records each input still has to deliver. -/
structure MergeInv (inputs : List (List TableElement)) (s : SSTable) (queue : List mergeItem)
    (readers : List (List meta × List Byte)) (lastInserted : Key) (offset : Int)
    (pend : List (List TableElement)) (out : List TableElement) : Prop where
  /-- Queue and readers are in step with the pending records. -/
  q : QInv queue readers pend
  /-- The new run holds the records written so far. -/
  holds : Holds s out
  /-- The filter of the new run accepts their keys. -/
  filt : FilterHas s out
  /-- The running offset is the length of the data file. -/
  off : offset = (dataBytes out).length
  /-- The records written so far have strictly increasing keys. -/
  sorted : StrictKeys out
  /-- The last key popped is the largest key written. -/
  last : out ≠ [] → lastInserted ∈ keysOf out ∧ ∀ e ∈ out, e.Value ≤ lastInserted
  /-- One list of pending records per input. -/
  plen : pend.length = inputs.length
  /-- The pending records of an input are what is left of it, and the keys of the records
  already delivered have been written. -/
  suffix : ∀ (i : Nat) (r : List TableElement), pend[i]? = some r →
    ∃ pre, inputs[i]? = some (pre ++ r) ∧ ∀ e ∈ pre, e.Value ∈ keysOf out
  /-- No pending record has a key below the last key popped. -/
  ge : out ≠ [] → ∀ r ∈ pend, ∀ e ∈ r, lastInserted ≤ e.Value
  /-- Each record written is the newest record of its key. -/
  best : ∀ e ∈ out, newest inputs e.Value = some e

/-- What a finished merge of `inputs` into the run `s` has produced: the records `out`. -/
structure MergeDone (inputs : List (List TableElement)) (s : SSTable)
    (out : List TableElement) : Prop where
  /-- The new run holds `out`. -/
  holds : Holds s out
  /-- The filter of the new run accepts the keys of `out`. -/
  filt : FilterHas s out
  /-- The keys of `out` are strictly increasing. -/
  sorted : StrictKeys out
  /-- Each record of `out` is the newest record of its key. -/
  best : ∀ e ∈ out, newest inputs e.Value = some e
  /-- Every key of every input is the key of a record of `out`. -/
  cover : ∀ r ∈ inputs, ∀ e ∈ r, e.Value ∈ keysOf out

end sstable

namespace lsm_tree

open sstable

/-- The run `s` holds the records `recs`, whose keys are strictly increasing and accepted by
the filter of `s`. -/
def RunRecs (s : SSTable) (recs : List TableElement) : Prop :=
  Holds s recs ∧ StrictKeys recs ∧ FilterHas s recs

/-- The run `s` is in good order: it holds at least one record, the keys of its records are
strictly increasing, and its filter accepts them. -/
def RunOK (s : SSTable) : Prop :=
  ∃ recs, RunRecs s recs ∧ recs ≠ []

/-- The state of a tree between two calls. -/
structure TreeInv (p : Params) (l : LSMTree) : Prop where
  /-- Level 0 exists. -/
  levels : l.sstables ≠ []
  /-- Every run is in good order. -/
  runs : ∀ level ∈ l.sstables, ∀ s ∈ level, RunOK s
  /-- Every level holds fewer than `MaxLevelSize` runs. -/
  card : ∀ level ∈ l.sstables, level.length < p.MaxLevelSize
  /-- The live keys are a set. -/
  nodupLive : l.ramComponent.Nodup
  /-- The removed keys are a set. -/
  nodupRemoved : l.ramComponentRemoved.Nodup
  /-- No key is both live and removed. -/
  disjoint : ∀ k, k ∈ l.ramComponent → k ∉ l.ramComponentRemoved
  /-- The memory component is below the flush threshold. -/
  bound : l.ramComponent.length + l.ramComponentRemoved.length < p.FirstLevelSize

/-- A bound on the turns the loop of `mergeSSTables` still makes when `post` are the levels
from the current one on. -/
def turnsLeft (maxLevelSize : Nat) : List (List SSTable) → Nat
  | [] => 0
  | [level] => if level.length = maxLevelSize then 2 else 1
  | _ :: next :: rest => (next :: rest).length + 2

/-- The key an operation mentions. -/
def Op.key : Op → Key
  | .add s => s
  | .delete s => s

/-- The most recent operation of `ops` that mentions `k`. -/
def mostRecent (ops : List Op) (k : Key) : Option Op :=
  ops.reverse.find? (fun op => decide (op.key = k))

end lsm_tree

namespace lsm_tree

/-- The result of `SearchRange keyL keyR` on the tree that the calls `ops` build from `New`. -/
def searchRangeAfter (p : Params) (ops : List Op) (keyL keyR : Key) : Except Err (List Key) :=
  match runOps p New ops with
  | .error e => .error e
  | .ok l => l.SearchRange keyL keyR

/-- The tree that the calls `ops` build from `New` (`New` itself if a call fails). -/
def treeAfter (p : Params) (ops : List Op) : LSMTree :=
  match runOps p New ops with
  | .error _ => New
  | .ok l => l

/-- The constants of the scenarios: `FirstLevelSize = 4`, `MaxLevelSize = 2`; the number of
hash functions is the ceiling of `500000 / n * 0.693147`. -/
def scenarioParams : Params :=
  { FirstLevelSize := 4
    MaxLevelSize := 2
    getOptimalHashFuncsNumber := fun n => (500000 * 693147 + (n * 1000000 - 1)) / (n * 1000000) }

/-- The key `"a"`. -/
def keyA : Key := [97]

/-- The key `"b"`. -/
def keyB : Key := [98]

/-- The key `"c"`. -/
def keyC : Key := [99]

/-- The key `"d"`. -/
def keyD : Key := [100]

/-- The key `"e"`. -/
def keyE : Key := [101]

/-- The key `"f"`. -/
def keyF : Key := [102]

/-- The key `"g"`. -/
def keyG : Key := [103]

/-- Scenario S3: four insertions, which fill the memory component once. -/
def scenarioS3 : List Op :=
  [.add keyA, .add keyB, .add keyC, .add keyD]

/-- Scenario S4: S3 followed by a deletion and three insertions, which flush a second run and
merge level 0 into level 1. -/
def scenarioS4 : List Op :=
  scenarioS3 ++ [.delete keyA, .add keyE, .add keyF, .add keyG]

/-- The records of the first run of scenario S4. -/
def recordsS3 : List sstable.TableElement :=
  [{ Value := keyA, IsTombstone := false }, { Value := keyB, IsTombstone := false },
    { Value := keyC, IsTombstone := false }, { Value := keyD, IsTombstone := false }]

/-- The records of the second run of scenario S4. -/
def recordsS4 : List sstable.TableElement :=
  [{ Value := keyA, IsTombstone := true }, { Value := keyE, IsTombstone := false },
    { Value := keyF, IsTombstone := false }, { Value := keyG, IsTombstone := false }]

/-- The first run of scenario S4, as the flush builds it. -/
def runS3 : sstable.SSTable :=
  sstable.NewFromMap scenarioParams 0 [keyA, keyB, keyC, keyD] []

/-- The second run of scenario S4, as the flush builds it. -/
def runS4 : sstable.SSTable :=
  sstable.NewFromMap scenarioParams 1 [keyE, keyF, keyG] [keyA]

end lsm_tree

/-! ## The index file byte by byte -/

namespace sstable

/-- Go `binary.Write(buf, binary.LittleEndian, v)` for an `int64`: the eight bytes of the two's
complement of `v`, the lowest first. -/
def int64ToBytes (v : Int) : List Byte :=
  let u : Nat := (v % 2 ^ 64).toNat
  [Fin.ofNat u, Fin.ofNat (u / 256), Fin.ofNat (u / 256 ^ 2), Fin.ofNat (u / 256 ^ 3),
    Fin.ofNat (u / 256 ^ 4), Fin.ofNat (u / 256 ^ 5), Fin.ofNat (u / 256 ^ 6),
    Fin.ofNat (u / 256 ^ 7)]

/-- The value that `binary.Read(reader, binary.LittleEndian, &v)` stores in an `int64` from the
bytes `bs`, the lowest first. -/
def int64FromBytes (bs : List Byte) : Int :=
  let u : Nat := bs.foldr (fun b acc => b.val + 256 * acc) 0
  if u < 2 ^ 63 then (u : Int) else (u : Int) - 2 ^ 64

/-- Go `meta.toBytes`: the offset, then the length. -/
def meta.toBytes (m : meta) : List Byte :=
  int64ToBytes m.offset ++ int64ToBytes m.length

/-- The bytes of an index file with the entries `metaFile`. -/
def metaFileBytes : List meta → List Byte
  | [] => []
  | m :: rest => m.toBytes ++ metaFileBytes rest

/-- One `binary.Read` of an `int64` in Go `metaFromBytes`, with the error the function makes
of it: `io.EOF` at the end of the reader, `ErrReadingFromFile` when the reader ends inside the
value. -/
def readInt64 (reader : List Byte) : Except Err (Int × List Byte) :=
  if reader.length = 0 then .error .eof
  else if reader.length < 8 then .error .readingFromFile
  else .ok (int64FromBytes (reader.take 8), reader.drop 8)

/-- Go `metaFromBytes` on the bytes of the index file. -/
def raw.metaFromBytes (reader : List Byte) : Except Err (meta × List Byte) :=
  match readInt64 reader with
  | .error e => .error e
  | .ok (offset, rest) =>
    match readInt64 rest with
    | .error e => .error e
    | .ok (length, rest1) => .ok ({ offset := offset, length := length }, rest1)

/-- Go `setMetaFileOffset` on the bytes of the index file: `binary.Size(meta{})` is 16. -/
def raw.setMetaFileOffset (file : List Byte) (elementIdx : Int) : Except Err (List Byte) :=
  let offset := elementIdx * 16
  if offset < 0 then .error .fileSeeking else .ok (file.drop offset.toNat)

/-- Go `setDataFileOffset` on the bytes of the index file. -/
def raw.setDataFileOffset (metaFile : List Byte) (dataFile : List Byte) (elementIdx : Int)
    (setCorrectMetaOffset : Bool) : Except Err (meta × List Byte × List Byte) :=
  match raw.setMetaFileOffset metaFile elementIdx with
  | .error e => .error e
  | .ok metaReader =>
    match raw.metaFromBytes metaReader with
    | .error e => .error e
    | .ok (elementMeta, metaRest) =>
      if elementMeta.offset < 0 then .error .fileSeeking
      else
        let dataPos := dataFile.drop elementMeta.offset.toNat
        if setCorrectMetaOffset then .ok (elementMeta, metaReader, dataPos)
        else .ok (elementMeta, metaRest, dataPos)

/-- Go `tableElementFromFileRandom` on the bytes of the index file. -/
def raw.tableElementFromFileRandom (metaFile : List Byte) (dataFile : List Byte)
    (elementIdx : Int) : Except Err TableElement :=
  match raw.setDataFileOffset metaFile dataFile elementIdx false with
  | .error e => .error e
  | .ok (elementMeta, _, dataReader) =>
    match tableElementFromBytes dataReader elementMeta.length with
    | .error e => .error e
    | .ok (element, _) => .ok element

/-- The fields of the entry `m` are values of the type `int64`. -/
def meta.InRange (m : meta) : Prop :=
  -2 ^ 63 ≤ m.offset ∧ m.offset < 2 ^ 63 ∧ -2 ^ 63 ≤ m.length ∧ m.length < 2 ^ 63

/-- A run just created: two empty files, size 0. -/
def freshRun (tag : Nat) (b : bloom_filter.bloomFilter) : SSTable :=
  { tag := tag, metaFile := [], dataFile := [], size := 0, bloomFilter := b }

/-- The byte offset in the data file at which the record after `recs` starts. -/
def offsetAfter (recs : List TableElement) : Int :=
  ((recs.map (fun e => (e.Value.length : Int) + 1)).sum : Int)

end sstable

/-! ## The runs a call creates -/

namespace lsm_tree

open sstable

/-- The loop of Go `LSMTree.mergeSSTables` together with the runs it creates: `created` is
extended by every run that `sstable.New` returns, in the order of creation. -/
def mergeSSTablesLoopLog (p : Params) :
    Nat → Nat → LSMTree → List SSTable → Except Err (LSMTree × List SSTable)
  | 0, level, l, created =>
    if level < l.sstables.length then .error .outOfFuel else .ok (l, created)
  | fuel + 1, level, l, created =>
    if level < l.sstables.length then
      if (l.sstables.getD level []).length = p.MaxLevelSize then
        match sstable.New p l.fileCnt (l.sstables.getD level []) with
        | .error e => .error e
        | .ok newSSTable =>
          let t1 := l.sstables.set level []
          let t2 := if level = t1.length - 1 then t1.take (level + 1) else t1
          let t3 := if t2.length = level + 1 then t2 ++ [[]] else t2
          let t4 := t3.set (level + 1) (t3.getD (level + 1) [] ++ [newSSTable])
          mergeSSTablesLoopLog p fuel (level + 1)
            { l with sstables := t4, fileCnt := l.fileCnt + 1 } (created ++ [newSSTable])
      else mergeSSTablesLoopLog p fuel (level + 1) l created
    else .ok (l, created)

/-- Go `LSMTree.flushRAMComponent` together with the runs it creates, in the order of
creation: the flushed run, then the merged runs. -/
def LSMTree.flushRAMComponentLog (p : Params) (l : LSMTree) (created : List SSTable) :
    Except Err (LSMTree × List SSTable) :=
  let newSSTable := sstable.NewFromMap p l.fileCnt l.ramComponent l.ramComponentRemoved
  match l.sstables with
  | [] => .error .runtimePanic
  | level0 :: rest =>
    mergeSSTablesLoopLog p (2 * ((level0 ++ [newSSTable]) :: rest).length + 1) 0
      { sstables := (level0 ++ [newSSTable]) :: rest
        ramComponent := []
        ramComponentRemoved := []
        fileCnt := l.fileCnt + 1 }
      (created ++ [newSSTable])

/-- One call of `Add` or `Delete` together with the runs it creates. -/
def applyOpLog (p : Params) (l : LSMTree) (created : List SSTable) :
    Op → Except Err (LSMTree × List SSTable)
  | .add s =>
    let l1 : LSMTree :=
      { l with
        ramComponent := mapSet l.ramComponent s
        ramComponentRemoved := mapDelete l.ramComponentRemoved s }
    if l1.ramComponent.length + l1.ramComponentRemoved.length = p.FirstLevelSize then
      l1.flushRAMComponentLog p created
    else .ok (l1, created)
  | .delete s =>
    let l1 : LSMTree :=
      { l with
        ramComponentRemoved := mapSet l.ramComponentRemoved s
        ramComponent := mapDelete l.ramComponent s }
    if l1.ramComponent.length + l1.ramComponentRemoved.length = p.FirstLevelSize then
      l1.flushRAMComponentLog p created
    else .ok (l1, created)

/-- The calls of `ops` in order together with the runs they create, in the order of
creation. -/
def runOpsLog (p : Params) : LSMTree → List SSTable → List Op →
    Except Err (LSMTree × List SSTable)
  | l, created, [] => .ok (l, created)
  | l, created, op :: rest =>
    match applyOpLog p l created op with
    | .error e => .error e
    | .ok (l1, created1) => runOpsLog p l1 created1 rest

/-! ## The sorted sequence of a range query -/

/-- The sequence `resElements` of Go `LSMTree.SearchRange` after `sort.SliceStable`. -/
def LSMTree.resElements (l : LSMTree) (keyL keyR : Key) : Except Err (List TableElement) :=
  let fromLive : List TableElement :=
    (l.ramComponent.filter (fun key => decide (key ≥ keyL) && decide (key ≤ keyR))).map
      (fun key => { Value := key, IsTombstone := false })
  let fromRemoved : List TableElement :=
    (l.ramComponentRemoved.filter (fun key => decide (key ≥ keyL) && decide (key ≤ keyR))).map
      (fun key => { Value := key, IsTombstone := true })
  match searchRangeLevels keyL keyR l.sstables (fromLive ++ fromRemoved) with
  | .error e => .error e
  | .ok resElements => .ok (resElements.insertionSort (fun a b => a.Value ≤ b.Value))

/-- The key `"z"`. -/
def keyZ : Key := [122]

/-- The key `"bb"`. -/
def keyBB : Key := [98, 98]

/-- The constants of the range scenario: `FirstLevelSize = 2`, `MaxLevelSize = 3`. -/
def rangeParams : Params :=
  { FirstLevelSize := 2
    MaxLevelSize := 3
    getOptimalHashFuncsNumber := scenarioParams.getOptimalHashFuncsNumber }

/-- The calls of the range scenario: two flushes, the second of which holds the tombstone of
`"b"`. -/
def rangeScenario : List Op :=
  [.add keyB, .add keyC, .delete keyB, .add keyBB]

end lsm_tree

/-! ## The indices a binary search reads and the levels a promotion visits -/

namespace sstable

/-- The loop of Go `SSTable.SearchKey` together with the indices it reads: `probes` is extended
by every `mid` that is passed to `tableElementFromFileRandom`, in the order of the calls. -/
def searchKeyLoopProbes (s : SSTable) (key : Key) :
    Nat → Int → Int → List Int → Except Err SearchResult × List Int
  | 0, left, right, probes =>
    (if right - left > 1 then .error .outOfFuel else .ok .SearchResultNotFound, probes)
  | fuel + 1, left, right, probes =>
    if right - left > 1 then
      let mid := (left + right).tdiv 2
      match tableElementFromFileRandom s.metaFile s.dataFile mid with
      | .error e => (.error e, probes ++ [mid])
      | .ok midKey =>
        if midKey.Value = key then
          (if !midKey.IsTombstone then .ok .SearchResultFound else .ok .SearchResultRemoved,
            probes ++ [mid])
        else if midKey.Value < key then searchKeyLoopProbes s key fuel mid right (probes ++ [mid])
        else searchKeyLoopProbes s key fuel left mid (probes ++ [mid])
    else (.ok .SearchResultNotFound, probes)

/-- A binary-search loop of Go `SSTable.SearchRange` together with the indices it reads:
`probes` is extended by every `mid` that is passed to `tableElementFromFileRandom`, in the order
of the calls. -/
def searchBoundLoopProbes (s : SSTable) (goRight : Key → Bool) :
    Nat → Int → Int → List Int → Except Err Int × List Int
  | 0, left, right, probes =>
    (if right - left > 1 then .error .outOfFuel else .ok left, probes)
  | fuel + 1, left, right, probes =>
    if right - left > 1 then
      let mid := (left + right).tdiv 2
      match tableElementFromFileRandom s.metaFile s.dataFile mid with
      | .error e => (.error e, probes ++ [mid])
      | .ok midKey =>
        if goRight midKey.Value then searchBoundLoopProbes s goRight fuel mid right (probes ++ [mid])
        else searchBoundLoopProbes s goRight fuel left mid (probes ++ [mid])
    else (.ok left, probes)

end sstable

namespace lsm_tree

open sstable

/-- The loop of Go `LSMTree.mergeSSTables` together with the levels it visits: `visited` is
extended by the value of `level` at every turn of the loop, in the order of the turns. -/
def mergeSSTablesLoopVisits (p : Params) :
    Nat → Nat → LSMTree → List Nat → Except Err LSMTree × List Nat
  | 0, level, l, visited =>
    (if level < l.sstables.length then .error .outOfFuel else .ok l, visited)
  | fuel + 1, level, l, visited =>
    if level < l.sstables.length then
      if (l.sstables.getD level []).length = p.MaxLevelSize then
        match sstable.New p l.fileCnt (l.sstables.getD level []) with
        | .error e => (.error e, visited ++ [level])
        | .ok newSSTable =>
          let t1 := l.sstables.set level []
          let t2 := if level = t1.length - 1 then t1.take (level + 1) else t1
          let t3 := if t2.length = level + 1 then t2 ++ [[]] else t2
          let t4 := t3.set (level + 1) (t3.getD (level + 1) [] ++ [newSSTable])
          mergeSSTablesLoopVisits p fuel (level + 1)
            { l with sstables := t4, fileCnt := l.fileCnt + 1 } (visited ++ [level])
      else mergeSSTablesLoopVisits p fuel (level + 1) l (visited ++ [level])
    else (.ok l, visited)

/-- The tree of scenario S4 when its second flush enters `mergeSSTables`: level 0 holds the two
flushed runs, as many as `MaxLevelSize`. -/
def scenarioFullLevel : LSMTree :=
  { sstables := [[runS3, runS4]], ramComponent := [], ramComponentRemoved := [], fileCnt := 2 }

end lsm_tree

namespace sstable

theorem toBytes_length (e : TableElement) : e.toBytes.length = e.Value.length + 1 := by
  simp [TableElement.toBytes]

theorem dataBytes_append (a b : List TableElement) :
    dataBytes (a ++ b) = dataBytes a ++ dataBytes b := by
  induction a with
  | nil => rfl
  | cons e a ih => simp [dataBytes, ih]

theorem metaEntries_append (a b : List TableElement) (offset : Int) :
    metaEntries offset (a ++ b) =
      metaEntries offset a ++ metaEntries (offset + (dataBytes a).length) b := by
  induction a generalizing offset with
  | nil => simp [metaEntries, dataBytes]
  | cons e a ih =>
    have h : offset + ((e.Value.length : Int) + 1) + ((dataBytes a).length : Int) =
        offset + ((e.toBytes ++ dataBytes a).length : Int) := by
      rw [List.length_append, toBytes_length]
      push_cast
      ring
    rw [List.cons_append, metaEntries, metaEntries, dataBytes, ih, h, List.cons_append]

theorem metaEntries_length (a : List TableElement) (offset : Int) :
    (metaEntries offset a).length = a.length := by
  induction a generalizing offset with
  | nil => rfl
  | cons e a ih => simp [metaEntries, ih]

theorem tableElementFromBytes_toBytes (e : TableElement) (rest : List Byte) :
    tableElementFromBytes (e.toBytes ++ rest) e.Value.length = .ok (e, rest) := by
  unfold tableElementFromBytes
  have h1 : ¬ ((e.Value.length : Int) < 0) := by omega
  rw [if_neg h1]
  have h2 : ¬ ((e.toBytes ++ rest).length < (e.Value.length : Int).toNat) := by
    simp [toBytes_length]; omega
  rw [if_neg h2]
  cases e with
  | mk v t =>
    cases t <;> simp [TableElement.toBytes]

theorem tableElementFromFileConsecutive_cons (e : TableElement) (rest : List TableElement)
    (offset : Int) :
    tableElementFromFileConsecutive (metaEntries offset (e :: rest)) (dataBytes (e :: rest)) =
      .ok (e, metaEntries (offset + ((e.Value.length : Int) + 1)) rest, dataBytes rest) := by
  simp [tableElementFromFileConsecutive, metaFromBytes, metaEntries, dataBytes,
    tableElementFromBytes_toBytes]

theorem tableElementFromFileConsecutive_nil (offset : Int) (d : List Byte) :
    tableElementFromFileConsecutive (metaEntries offset []) d = .error .eof := by
  simp [tableElementFromFileConsecutive, metaFromBytes, metaEntries]

end sstable

namespace sstable

theorem dataBytes_cons_length_pos (e : TableElement) (rest : List TableElement) :
    0 < (dataBytes (e :: rest)).length := by
  simp [dataBytes, toBytes_length]

theorem setDataFileOffset_split (a : List TableElement) (e : TableElement)
    (b : List TableElement) (flag : Bool) :
    setDataFileOffset (metaEntries 0 (a ++ e :: b)) (dataBytes (a ++ e :: b)) a.length flag =
      .ok ({ offset := (dataBytes a).length, length := e.Value.length },
        (if flag then metaEntries (dataBytes a).length (e :: b)
          else metaEntries ((dataBytes a).length + ((e.Value.length : Int) + 1)) b),
        dataBytes (e :: b)) := by
  have h1 : ¬ ((a.length : Int) < 0) := by omega
  have h2 : (metaEntries 0 (a ++ e :: b)).drop a.length =
      metaEntries (dataBytes a).length (e :: b) := by
    rw [metaEntries_append, zero_add]
    have := metaEntries_length a 0
    rw [← this, List.drop_left]
  have h3 : ¬ (((dataBytes a).length : Int) < 0) := by omega
  have h4 : (dataBytes (a ++ e :: b)).drop (dataBytes a).length = dataBytes (e :: b) := by
    rw [dataBytes_append, List.drop_left]
  unfold setDataFileOffset setMetaFileOffset
  rw [if_neg h1]
  simp only [Int.toNat_ofNat, h2]
  simp only [metaEntries, metaFromBytes, if_neg h3, Int.toNat_ofNat, h4]
  cases flag <;> simp

theorem tableElementFromFileRandom_split (a : List TableElement) (e : TableElement)
    (b : List TableElement) :
    tableElementFromFileRandom (metaEntries 0 (a ++ e :: b)) (dataBytes (a ++ e :: b)) a.length =
      .ok e := by
  unfold tableElementFromFileRandom
  rw [setDataFileOffset_split]
  simp only [dataBytes, tableElementFromBytes_toBytes]

/-- Reading by index in a run that holds `recs` returns the record at that index. -/
theorem Holds.read {s : SSTable} {recs : List TableElement} (h : Holds s recs) (i : Nat)
    (e : TableElement) (hi : recs[i]? = some e) :
    tableElementFromFileRandom s.metaFile s.dataFile i = .ok e := by
  obtain ⟨hm, hd, _⟩ := h
  have hlt : i < recs.length := by
    by_contra hc
    rw [List.getElem?_eq_none (by omega)] at hi
    exact absurd hi (by simp)
  have hget : recs[i] = e := by
    rw [List.getElem?_eq_getElem hlt] at hi
    exact Option.some.inj hi
  have hsplit : recs = recs.take i ++ e :: recs.drop (i + 1) := by
    rw [← hget, ← List.drop_eq_getElem_cons hlt, List.take_append_drop]
  have hlen : (recs.take i).length = i := by
    rw [List.length_take]
    omega
  have key := tableElementFromFileRandom_split (recs.take i) e (recs.drop (i + 1))
  rw [← hsplit, hlen, ← hm, ← hd] at key
  exact key

theorem Holds.read_neg {s : SSTable} (i : Int) (hi : i < 0) :
    tableElementFromFileRandom s.metaFile s.dataFile i = .error .fileSeeking := by
  simp [tableElementFromFileRandom, setDataFileOffset, setMetaFileOffset, hi]

theorem Holds.seek {s : SSTable} {recs : List TableElement} (h : Holds s recs) (i : Nat)
    (hlt : i < recs.length) :
    ∃ m o, setDataFileOffset s.metaFile s.dataFile i true =
      .ok (m, metaEntries o (recs.drop i), dataBytes (recs.drop i)) := by
  obtain ⟨hm, hd, _⟩ := h
  have hsplit : recs = recs.take i ++ recs[i] :: recs.drop (i + 1) := by
    rw [← List.drop_eq_getElem_cons hlt, List.take_append_drop]
  have hlen : (recs.take i).length = i := by
    rw [List.length_take]
    omega
  have key := setDataFileOffset_split (recs.take i) recs[i] (recs.drop (i + 1)) true
  rw [← hsplit, hlen, ← hm, ← hd] at key
  rw [key, List.drop_eq_getElem_cons hlt]
  exact ⟨_, _, by rw [if_pos rfl]⟩

theorem setDataFileOffset_neg (metaFile : List meta) (dataFile : List Byte) (i : Int)
    (flag : Bool) (hi : i < 0) :
    setDataFileOffset metaFile dataFile i flag = .error .fileSeeking := by
  simp [setDataFileOffset, setMetaFileOffset, hi]

theorem readConsecutive_take (n : Nat) (recs : List TableElement) (o : Int) (hn : n ≤ recs.length) :
    readConsecutive n (metaEntries o recs) (dataBytes recs) = .ok (recs.take n) := by
  induction n generalizing recs o with
  | zero => simp [readConsecutive]
  | succ n ih =>
    cases recs with
    | nil => simp at hn
    | cons e rest =>
      simp only [List.length_cons, Nat.add_le_add_iff_right] at hn
      simp only [readConsecutive, tableElementFromFileConsecutive_cons, ih rest _ hn,
        List.take_succ_cons]

end sstable

namespace bloom_filter

theorem foldl_index_mem_old (hs : List (List Byte → Nat)) (x : List Byte) (f : List Nat) (i : Nat)
    (hi : i ∈ f) : i ∈ hs.foldl (fun f h => indexFromHash (h x) :: f) f := by
  induction hs generalizing f with
  | nil => exact hi
  | cons h hs ih => exact ih _ (List.mem_cons_of_mem _ hi)

theorem foldl_index_mem_new (hs : List (List Byte → Nat)) (x : List Byte) (f : List Nat)
    (h : List Byte → Nat) (hh : h ∈ hs) :
    indexFromHash (h x) ∈ hs.foldl (fun f h => indexFromHash (h x) :: f) f := by
  induction hs generalizing f with
  | nil => cases hh
  | cons g hs ih =>
    rcases List.mem_cons.mp hh with rfl | hmem
    · exact foldl_index_mem_old hs x _ _ (List.mem_cons_self _ _)
    · exact ih _ hmem

theorem Add_hashFuncs (b : bloomFilter) (x : List Byte) : (b.Add x).hashFuncs = b.hashFuncs :=
  rfl

theorem CheckContains_Add_self (b : bloomFilter) (x : List Byte) :
    (b.Add x).CheckContains x = true := by
  simp only [bloomFilter.CheckContains, List.all_eq_true, decide_eq_true_eq]
  intro h hh
  exact foldl_index_mem_new b.hashFuncs x b.filter h hh

theorem CheckContains_Add_of (b : bloomFilter) (x y : List Byte)
    (hy : b.CheckContains y = true) : (b.Add x).CheckContains y = true := by
  simp only [bloomFilter.CheckContains, List.all_eq_true, decide_eq_true_eq] at hy ⊢
  intro h hh
  exact foldl_index_mem_old b.hashFuncs x b.filter _ (hy h hh)

theorem CheckContains_foldl_of (adds : List (List Byte)) (b : bloomFilter) (y : List Byte)
    (hy : b.CheckContains y = true) :
    (adds.foldl bloomFilter.Add b).CheckContains y = true := by
  induction adds generalizing b with
  | nil => exact hy
  | cons x adds ih => exact ih _ (CheckContains_Add_of b x y hy)

theorem CheckContains_foldl_mem (adds : List (List Byte)) (b : bloomFilter) (y : List Byte)
    (hy : y ∈ adds) : (adds.foldl bloomFilter.Add b).CheckContains y = true := by
  induction adds generalizing b with
  | nil => cases hy
  | cons x adds ih =>
    rcases List.mem_cons.mp hy with rfl | hmem
    · exact CheckContains_foldl_of adds _ _ (CheckContains_Add_self b _)
    · exact ih _ hmem

end bloom_filter

namespace sstable

theorem StrictKeys.findKey_mem {recs : List TableElement} (hs : StrictKeys recs)
    {e : TableElement} (he : e ∈ recs) : findKey recs e.Value = some e := by
  induction recs with
  | nil => cases he
  | cons x rest ih =>
    have hx := List.pairwise_cons.mp hs
    rcases List.mem_cons.mp he with rfl | hmem
    · simp [findKey]
    · have hne : x.Value ≠ e.Value := ne_of_lt (hx.1 e hmem)
      have := ih hx.2 hmem
      simp only [findKey] at this ⊢
      rw [List.find?_cons_of_neg _ (by simpa using hne)]
      exact this

theorem findKey_some {recs : List TableElement} {key : Key} {e : TableElement}
    (h : findKey recs key = some e) : e ∈ recs ∧ e.Value = key := by
  unfold findKey at h
  exact ⟨List.mem_of_find?_eq_some h, by simpa using List.find?_some h⟩

theorem findKey_none {recs : List TableElement} {key : Key}
    (h : findKey recs key = none) : ∀ e ∈ recs, e.Value ≠ key := by
  unfold findKey at h
  intro e he
  have := List.find?_eq_none.mp h e he
  simpa using this

theorem findKey_eq_none_of {recs : List TableElement} {key : Key}
    (h : ∀ e ∈ recs, e.Value ≠ key) : findKey recs key = none := by
  unfold findKey
  rw [List.find?_eq_none]
  intro e he
  simpa using h e he

end sstable

namespace sstable

theorem StrictKeys.lt_of_lt {recs : List TableElement} (hs : StrictKeys recs) {i j : Nat}
    {a b : TableElement} (hi : recs[i]? = some a) (hj : recs[j]? = some b) (hij : i < j) :
    a.Value < b.Value := by
  obtain ⟨hi1, rfl⟩ := List.getElem?_eq_some.mp hi
  obtain ⟨hj1, rfl⟩ := List.getElem?_eq_some.mp hj
  exact List.pairwise_iff_getElem.mp hs i j hi1 hj1 hij

theorem StrictKeys.le_of_le {recs : List TableElement} (hs : StrictKeys recs) {i j : Nat}
    {a b : TableElement} (hi : recs[i]? = some a) (hj : recs[j]? = some b) (hij : i ≤ j) :
    a.Value ≤ b.Value := by
  rcases Nat.lt_or_eq_of_le hij with h | h
  · exact le_of_lt (hs.lt_of_lt hi hj h)
  · subst h
    rw [hi] at hj
    cases hj
    exact le_refl _

theorem mid_bounds (left right : Int) (h0 : -1 ≤ left) (h1 : right - left > 1) :
    left < (left + right).tdiv 2 ∧ (left + right).tdiv 2 < right ∧ 0 ≤ (left + right).tdiv 2 := by
  rw [Int.tdiv_eq_ediv (by omega) (by omega)]
  omega

theorem searchKeyLoop_spec {s : SSTable} {recs : List TableElement} (h : Holds s recs)
    (hs : StrictKeys recs) (key : Key) (fuel : Nat) :
    ∀ left right : Int, -1 ≤ left → right ≤ recs.length → right - left ≤ fuel + 1 →
      (∀ (i : Nat) (e : TableElement), (i : Int) ≤ left → recs[i]? = some e → e.Value < key) →
      (∀ (i : Nat) (e : TableElement), right ≤ (i : Int) → recs[i]? = some e → key < e.Value) →
      searchKeyLoop s key fuel left right = .ok (resultOf (findKey recs key)) := by
  have hexit : ∀ left right : Int, ¬ (right - left > 1) →
      (∀ (i : Nat) (e : TableElement), (i : Int) ≤ left → recs[i]? = some e → e.Value < key) →
      (∀ (i : Nat) (e : TableElement), right ≤ (i : Int) → recs[i]? = some e → key < e.Value) →
      resultOf (findKey recs key) = .SearchResultNotFound := by
    intro left right hlr hlo hhi
    rw [findKey_eq_none_of]
    · rfl
    · intro e he
      obtain ⟨i, hi⟩ := List.mem_iff_getElem?.mp he
      by_cases hc : (i : Int) ≤ left
      · exact ne_of_lt (hlo i e hc hi)
      · exact ne_of_gt (hhi i e (by omega) hi)
  induction fuel with
  | zero =>
    intro left right _ _ hf hlo hhi
    have hlr : ¬ (right - left > 1) := by omega
    rw [searchKeyLoop, if_neg hlr, hexit left right hlr hlo hhi]
  | succ fuel ih =>
    intro left right h0 hr hf hlo hhi
    rw [searchKeyLoop]
    by_cases hlr : right - left > 1
    · rw [if_pos hlr]
      obtain ⟨hm1, hm2, hm3⟩ := mid_bounds left right h0 hlr
      generalize hmid : (left + right).tdiv 2 = mid at hm1 hm2 hm3
      have hmn : mid.toNat < recs.length := by omega
      have hcast : ((mid.toNat : Nat) : Int) = mid := Int.toNat_of_nonneg hm3
      have hget : recs[mid.toNat]? = some recs[mid.toNat] := List.getElem?_eq_getElem hmn
      have hread := h.read mid.toNat _ hget
      rw [hcast] at hread
      simp only [hread]
      by_cases heq : recs[mid.toNat].Value = key
      · rw [if_pos heq]
        have hf := hs.findKey_mem (List.getElem_mem hmn)
        rw [heq] at hf
        rw [hf]
        cases htomb : recs[mid.toNat].IsTombstone <;> simp [resultOf, htomb]
      · rw [if_neg heq]
        by_cases hlt : recs[mid.toNat].Value < key
        · rw [if_pos hlt]
          apply ih mid right (by omega) hr (by omega) _ hhi
          intro i e hi he
          exact lt_of_le_of_lt (hs.le_of_le he hget (by omega)) hlt
        · rw [if_neg hlt]
          apply ih left mid h0 (by omega) (by omega) hlo
          intro i e hi he
          have hgt : key < recs[mid.toNat].Value :=
            lt_of_le_of_ne (not_lt.mp hlt) (fun hc => heq hc.symm)
          exact lt_of_lt_of_le hgt (hs.le_of_le hget he (by omega))
    · rw [if_neg hlr, hexit left right hlr hlo hhi]

/-- Point search on a run that holds strictly increasing records accepted by its filter. -/
theorem SearchKey_spec {s : SSTable} {recs : List TableElement} (h : Holds s recs)
    (hs : StrictKeys recs) (hf : FilterHas s recs) (key : Key) :
    s.SearchKey key = .ok (resultOf (findKey recs key)) := by
  unfold SSTable.SearchKey
  by_cases hc : s.bloomFilter.CheckContains key = true
  · simp only [hc, Bool.not_true, Bool.false_eq_true, if_false]
    apply searchKeyLoop_spec h hs key (s.size + 1) (-1) s.size (le_refl _)
    · rw [h.2.2]
    · omega
    · intro i e hi
      omega
    · intro i e hi he
      obtain ⟨hlt, _⟩ := List.getElem?_eq_some.mp he
      rw [h.2.2] at hi
      omega
  · have hnone : findKey recs key = none := by
      apply findKey_eq_none_of
      intro e he heq
      apply hc
      rw [← heq]
      exact hf e he
    simp only [Bool.not_eq_true] at hc
    simp [hc, hnone, resultOf]

end sstable

namespace sstable

theorem writeElement_spec {s : SSTable} {r0 : List TableElement} (e : TableElement)
    {offset : Int} (h : Holds s r0) (hf : FilterHas s r0)
    (ho : offset = (dataBytes r0).length) :
    Holds (s.writeElement e offset).1 (r0 ++ [e]) ∧
      FilterHas (s.writeElement e offset).1 (r0 ++ [e]) ∧
      (s.writeElement e offset).2 = (dataBytes (r0 ++ [e])).length := by
  obtain ⟨hm, hd, hsz⟩ := h
  refine ⟨⟨?_, ?_, ?_⟩, ?_, ?_⟩
  · simp only [SSTable.writeElement, hm, metaEntries_append, metaEntries, zero_add, ← ho,
      toBytes_length]
    congr 3
    push_cast
    ring
  · simp [SSTable.writeElement, hd, dataBytes_append, dataBytes]
  · simp [SSTable.writeElement, hsz]
  · intro x hx
    rcases List.mem_append.mp hx with hx | hx
    · exact bloom_filter.CheckContains_Add_of _ _ _ (hf x hx)
    · rw [List.mem_singleton.mp hx]
      exact bloom_filter.CheckContains_Add_self _ _
  · simp only [SSTable.writeElement, ho, dataBytes_append, dataBytes, List.length_append,
      List.append_nil]
    push_cast
    ring

theorem writeElement_tag (s : SSTable) (e : TableElement) (offset : Int) :
    (s.writeElement e offset).1.tag = s.tag := rfl

theorem writeElements_spec (recs : List TableElement) :
    ∀ (s : SSTable) (r0 : List TableElement) (offset : Int), Holds s r0 → FilterHas s r0 →
      offset = (dataBytes r0).length →
      Holds (writeElements recs s offset).1 (r0 ++ recs) ∧
        FilterHas (writeElements recs s offset).1 (r0 ++ recs) := by
  induction recs with
  | nil =>
    intro s r0 offset h hf _
    simpa [writeElements] using ⟨h, hf⟩
  | cons e rest ih =>
    intro s r0 offset h hf ho
    obtain ⟨h1, hf1, ho1⟩ := writeElement_spec e h hf ho
    have := ih _ _ _ h1 hf1 ho1
    simpa [writeElements] using this

theorem writeElements_tag (recs : List TableElement) :
    ∀ (s : SSTable) (offset : Int), (writeElements recs s offset).1.tag = s.tag := by
  induction recs with
  | nil => intro s offset; rfl
  | cons e rest ih =>
    intro s offset
    rw [writeElements, ih, writeElement_tag]

/-- The records that `NewFromMap` writes. -/
theorem NewFromMap_holds (p : Params) (tag : Nat) (valuesToAdd valuesToDelete : List Key) :
    Holds (NewFromMap p tag valuesToAdd valuesToDelete)
        ((valuesToAdd.map (fun value => ({ Value := value, IsTombstone := false } : TableElement)) ++
          valuesToDelete.map (fun value => ({ Value := value, IsTombstone := true } : TableElement))
          ).insertionSort (fun a b => a.Value ≤ b.Value)) ∧
      FilterHas (NewFromMap p tag valuesToAdd valuesToDelete)
        ((valuesToAdd.map (fun value => ({ Value := value, IsTombstone := false } : TableElement)) ++
          valuesToDelete.map (fun value => ({ Value := value, IsTombstone := true } : TableElement))
          ).insertionSort (fun a b => a.Value ≤ b.Value)) := by
  have h0 : ∀ b : bloom_filter.bloomFilter,
      Holds ({ tag := tag, metaFile := [], dataFile := [], size := 0, bloomFilter := b } : SSTable)
        [] :=
    fun _ => ⟨rfl, rfl, rfl⟩
  have key := writeElements_spec
    ((valuesToAdd.map (fun value => ({ Value := value, IsTombstone := false } : TableElement)) ++
      valuesToDelete.map (fun value => ({ Value := value, IsTombstone := true } : TableElement))
      ).insertionSort (fun a b => a.Value ≤ b.Value)) _ [] 0
    (h0 (bloom_filter.New p.getOptimalHashFuncsNumber p.FirstLevelSize))
    (by intro e he; cases he) (by simp [dataBytes])
  simpa [NewFromMap] using key

theorem strictKeys_insertionSort (values : List TableElement)
    (hn : (values.map (fun e => e.Value)).Nodup) :
    StrictKeys (values.insertionSort (fun a b => a.Value ≤ b.Value)) := by
  have htot : IsTotal TableElement (fun a b => a.Value ≤ b.Value) := ⟨fun a b => le_total _ _⟩
  have htr : IsTrans TableElement (fun a b => a.Value ≤ b.Value) :=
    ⟨fun a b c hab hbc => le_trans hab hbc⟩
  have hsorted : (values.insertionSort (fun a b => a.Value ≤ b.Value)).Pairwise
      (fun a b => a.Value ≤ b.Value) := List.sorted_insertionSort _ values
  have hperm := List.perm_insertionSort (fun a b : TableElement => a.Value ≤ b.Value) values
  have hn2 : ((values.insertionSort (fun a b => a.Value ≤ b.Value)).map
      (fun e => e.Value)).Nodup := (hperm.map _).nodup_iff.mpr hn
  have hne : (values.insertionSort (fun a b => a.Value ≤ b.Value)).Pairwise
      (fun a b => a.Value ≠ b.Value) := by
    have := List.pairwise_map.mp hn2
    exact this
  exact (hsorted.and hne).imp (fun hab => lt_of_le_of_ne hab.1 hab.2)

end sstable

namespace sstable

theorem Less_false_iff (a b : mergeItem) :
    priorityQueue.Less a b = false ↔
      b.value.Value ≤ a.value.Value ∧
        (a.value.Value = b.value.Value → a.readerIdx ≤ b.readerIdx) := by
  unfold priorityQueue.Less
  by_cases h1 : a.value.Value < b.value.Value
  · simp only [h1, if_true]
    constructor
    · intro h
      cases h
    · intro h
      exact absurd h1 (not_lt.mpr h.1)
  · simp only [h1, if_false, Bool.and_eq_false_iff, decide_eq_false_iff_not, not_lt]
    constructor
    · intro h
      refine ⟨not_lt.mp h1, fun heq => ?_⟩
      rcases h with h | h
      · exact absurd heq h
      · exact h
    · intro h
      by_cases heq : a.value.Value = b.value.Value
      · exact Or.inr (h.2 heq)
      · exact Or.inl heq

theorem Less_false_trans {y m x : mergeItem} (h1 : priorityQueue.Less y m = false)
    (h2 : priorityQueue.Less m x = false) : priorityQueue.Less y x = false := by
  rw [Less_false_iff] at h1 h2 ⊢
  refine ⟨le_trans h2.1 h1.1, fun heq => ?_⟩
  have hmx : m.value.Value = x.value.Value := le_antisymm (heq ▸ h1.1) h2.1
  have hym : y.value.Value = m.value.Value := heq.trans hmx.symm
  exact le_trans (h1.2 hym) (h2.2 hmx)

theorem Less_false_self (x : mergeItem) : priorityQueue.Less x x = false := by
  rw [Less_false_iff]
  exact ⟨le_refl _, fun _ => le_refl _⟩

theorem Less_false_of_Less {a b : mergeItem} (h : priorityQueue.Less a b = true) :
    priorityQueue.Less b a = false := by
  rw [Less_false_iff]
  by_contra hc
  have hab : ¬ priorityQueue.Less a b = false := by simp [h]
  apply hab
  rw [Less_false_iff]
  by_cases hlt : a.value.Value < b.value.Value
  · exact absurd ⟨le_of_lt hlt, fun heq => absurd heq.symm (ne_of_lt hlt)⟩ hc
  · unfold priorityQueue.Less at h
    simp only [hlt, if_false, Bool.and_eq_true, decide_eq_true_eq] at h
    exact absurd ⟨le_of_eq h.1, fun _ => le_of_lt h.2⟩ hc

theorem heapPop_eq_none {q : List mergeItem} (h : heapPop q = none) : q = [] := by
  cases q with
  | nil => rfl
  | cons x xs =>
    unfold heapPop at h
    split at h
    · cases h
    · split at h <;> cases h

theorem heapPop_some {q : List mergeItem} {m : mergeItem} {rest : List mergeItem}
    (h : heapPop q = some (m, rest)) :
    q.Perm (m :: rest) ∧ ∀ x ∈ q, priorityQueue.Less x m = false := by
  induction q generalizing m rest with
  | nil => cases h
  | cons x xs ih =>
    unfold heapPop at h
    split at h
    · next hnone =>
      have := heapPop_eq_none hnone
      subst this
      cases h
      exact ⟨List.Perm.refl _, fun y hy => by
        rw [List.mem_singleton.mp hy]; exact Less_false_self _⟩
    · next m1 rest1 hsome =>
      obtain ⟨hperm, hmin⟩ := ih hsome
      split at h
      · next hless =>
        cases h
        refine ⟨(List.Perm.cons x hperm).trans (List.Perm.swap _ _ _), fun y hy => ?_⟩
        rcases List.mem_cons.mp hy with rfl | hy
        · exact Less_false_of_Less hless
        · exact hmin y hy
      · next hless =>
        cases h
        refine ⟨List.Perm.refl _, fun y hy => ?_⟩
        rcases List.mem_cons.mp hy with rfl | hy
        · exact Less_false_self _
        · exact Less_false_trans (hmin y hy) (by simpa using hless)

theorem newest_eq_some {inputs : List (List TableElement)} {key : Key} {e : TableElement}
    {i : Nat} {r : List TableElement} (hi : inputs[i]? = some r) (hf : findKey r key = some e)
    (hnew : ∀ j r1, i < j → inputs[j]? = some r1 → findKey r1 key = none) :
    newest inputs key = some e := by
  induction inputs generalizing i with
  | nil => simp at hi
  | cons r0 rest ih =>
    cases i with
    | zero =>
      have hrest : newest rest key = none := by
        clear ih hi hf
        induction rest with
        | nil => rfl
        | cons r1 rest1 ih1 =>
          have h1 : newest rest1 key = none := by
            apply ih1
            intro j r2 hj hr2
            cases j with
            | zero => omega
            | succ j =>
              cases j with
              | zero =>
                exact hnew 2 r2 (by omega) (by simpa using hr2)
              | succ j => exact hnew (j + 3) r2 (by omega) (by simpa using hr2)
          have h2 : findKey r1 key = none := hnew 1 r1 (by omega) (by simp)
          simp [newest, h1, h2]
      simp only [List.getElem?_cons_zero, Option.some.injEq] at hi
      subst hi
      simp [newest, hrest, hf]
    | succ i =>
      have : newest rest key = some e := by
        apply ih (i := i) (by simpa using hi)
        intro j r1 hj hr1
        exact hnew (j + 1) r1 (by omega) (by simpa using hr1)
      simp [newest, this]

theorem newest_some {inputs : List (List TableElement)} {key : Key} {e : TableElement}
    (h : newest inputs key = some e) : ∃ r ∈ inputs, e ∈ r ∧ e.Value = key := by
  induction inputs with
  | nil => cases h
  | cons r0 rest ih =>
    unfold newest at h
    split at h
    · next e1 h1 =>
      cases h
      obtain ⟨r, hr, he⟩ := ih h1
      exact ⟨r, List.mem_cons_of_mem _ hr, he⟩
    · next h1 =>
      exact ⟨r0, List.mem_cons_self _ _, findKey_some h⟩

theorem newest_eq_none {inputs : List (List TableElement)} {key : Key}
    (h : ∀ r ∈ inputs, ∀ e ∈ r, e.Value ≠ key) : newest inputs key = none := by
  induction inputs with
  | nil => rfl
  | cons r0 rest ih =>
    have h1 := ih (fun r hr => h r (List.mem_cons_of_mem _ hr))
    have h2 := findKey_eq_none_of (h r0 (List.mem_cons_self _ _))
    simp [newest, h1, h2]

end sstable

namespace sstable

theorem QInv.nil : QInv [] [] [] :=
  { len := rfl
    nodup := List.nodup_nil
    mem := fun it => by simp
    rd := fun i r h => by simp at h }

theorem QInv.idx_lt {queue : List mergeItem} {readers : List (List meta × List Byte)}
    {pend : List (List TableElement)} (h : QInv queue readers pend) {it : mergeItem}
    (hit : it ∈ queue) : it.readerIdx < pend.length := by
  obtain ⟨rest, hr⟩ := (h.mem it).mp hit
  exact (List.getElem?_eq_some.mp hr).1

/-- Seeding one more input keeps the queue and the readers in step. -/
theorem QInv.push {queue : List mergeItem} {readers : List (List meta × List Byte)}
    {pend : List (List TableElement)} (h : QInv queue readers pend) (e : TableElement)
    (tl : List TableElement) (o : Int) :
    QInv (heapPush queue { value := e, readerIdx := pend.length })
      (readers ++ [(metaEntries o tl, dataBytes tl)]) (pend ++ [e :: tl]) := by
  refine ⟨by simp [h.len], ?_, ?_, ?_⟩
  · simp only [heapPush, List.map_cons, List.nodup_cons]
    refine ⟨?_, h.nodup⟩
    intro hmem
    obtain ⟨it, hit, hidx⟩ := List.mem_map.mp hmem
    have := h.idx_lt hit
    omega
  · intro it
    simp only [heapPush, List.mem_cons]
    constructor
    · rintro (rfl | hit)
      · exact ⟨tl, by simp⟩
      · obtain ⟨rest, hr⟩ := (h.mem it).mp hit
        exact ⟨rest, by rw [List.getElem?_append_left (h.idx_lt hit)]; exact hr⟩
    · rintro ⟨rest, hr⟩
      by_cases hlt : it.readerIdx < pend.length
      · rw [List.getElem?_append_left hlt] at hr
        exact Or.inr ((h.mem it).mpr ⟨rest, hr⟩)
      · rw [List.getElem?_append_right (by omega)] at hr
        have hidx : it.readerIdx - pend.length = 0 := by
          by_contra hne
          have hpos : 1 ≤ it.readerIdx - pend.length := by omega
          rw [List.getElem?_eq_none (by simpa using hpos)] at hr
          cases hr
        rw [hidx] at hr
        simp only [List.getElem?_cons_zero, Option.some.injEq, List.cons.injEq] at hr
        left
        cases it with
        | mk v i =>
          simp only at hr hidx hlt
          have : i = pend.length := by omega
          rw [this, hr.1]
  · intro i r hr
    by_cases hlt : i < pend.length
    · rw [List.getElem?_append_left hlt] at hr
      obtain ⟨o1, ho1⟩ := h.rd i r hr
      exact ⟨o1, by rw [List.getElem?_append_left (by rw [h.len]; exact hlt)]; exact ho1⟩
    · rw [List.getElem?_append_right (by omega)] at hr
      have hidx : i - pend.length = 0 := by
        by_contra hne
        have hpos : 1 ≤ i - pend.length := by omega
        rw [List.getElem?_eq_none (by simpa using hpos)] at hr
        cases hr
      rw [hidx] at hr
      simp only [List.getElem?_cons_zero, Option.some.injEq] at hr
      subst hr
      refine ⟨o, ?_⟩
      rw [List.getElem?_append_right (by rw [h.len]; omega), h.len, hidx]
      simp

theorem mergeInit_spec {tables : List SSTable} {rl : List (List TableElement)}
    (hh : List.Forall₂ Holds tables rl) (hne : ∀ r ∈ rl, r ≠ []) :
    ∀ (queue : List mergeItem) (readers : List (List meta × List Byte))
      (pend : List (List TableElement)), QInv queue readers pend →
      ∃ queue1 readers1, mergeInit tables pend.length queue readers = .ok (queue1, readers1) ∧
        QInv queue1 readers1 (pend ++ rl) := by
  induction hh with
  | nil =>
    intro queue readers pend hq
    exact ⟨queue, readers, rfl, by simpa using hq⟩
  | @cons t r ts rs ht _ ih =>
    intro queue readers pend hq
    cases r with
    | nil => exact absurd rfl (hne [] (List.mem_cons_self _ _))
    | cons e tl =>
      obtain ⟨m, o, hseek⟩ := ht.seek 0 (by simp)
      simp only [Nat.cast_zero, List.drop_zero] at hseek
      have hq1 := hq.push e tl (o + ((e.Value.length : Int) + 1))
      obtain ⟨queue1, readers1, hrun, hq2⟩ :=
        ih (fun r hr => hne r (List.mem_cons_of_mem _ hr)) _ _ _ hq1
      refine ⟨queue1, readers1, ?_, by simpa using hq2⟩
      rw [mergeInit, hseek]
      simp only [tableElementFromFileConsecutive_cons]
      simpa using hrun

end sstable

namespace sstable

theorem StrictKeys.of_append_right {a b : List TableElement} (h : StrictKeys (a ++ b)) :
    StrictKeys b :=
  (List.pairwise_append.mp h).2.1

theorem StrictKeys.head_lt {e x : TableElement} {tl : List TableElement}
    (h : StrictKeys (e :: tl)) (hx : x ∈ tl) : e.Value < x.Value :=
  (List.pairwise_cons.mp h).1 x hx

theorem mem_keysOf {recs : List TableElement} {e : TableElement} (h : e ∈ recs) :
    e.Value ∈ keysOf recs :=
  List.mem_map.mpr ⟨e, h, rfl⟩

theorem dataBytes_length_eq_zero {out : List TableElement} {offset : Int}
    (ho : offset = (dataBytes out).length) : offset = 0 ↔ out = [] := by
  cases out with
  | nil => simp [ho, dataBytes]
  | cons e rest =>
    have := dataBytes_cons_length_pos e rest
    constructor
    · intro h
      omega
    · intro h
      cases h

theorem sum_length_set {pend : List (List TableElement)} {i : Nat} {e : TableElement}
    {tl : List TableElement} (h : pend[i]? = some (e :: tl)) :
    ((pend.set i tl).map List.length).sum + 1 = (pend.map List.length).sum := by
  induction pend generalizing i with
  | nil => simp at h
  | cons r rest ih =>
    cases i with
    | zero =>
      simp only [List.getElem?_cons_zero, Option.some.injEq] at h
      subst h
      simp [List.set]
      omega
    | succ i =>
      have := ih (i := i) (by simpa using h)
      simp only [List.set, List.map_cons, List.sum_cons]
      omega

/-- The pending records of an input are strictly increasing when the input is. -/
theorem MergeInv.pend_sorted {inputs : List (List TableElement)} {s : SSTable}
    {queue : List mergeItem} {readers : List (List meta × List Byte)} {lastInserted : Key}
    {offset : Int} {pend : List (List TableElement)} {out : List TableElement}
    (h : MergeInv inputs s queue readers lastInserted offset pend out)
    (hin : ∀ r ∈ inputs, StrictKeys r) {j : Nat} {r : List TableElement}
    (hj : pend[j]? = some r) : StrictKeys r := by
  obtain ⟨pre, hpre, _⟩ := h.suffix j r hj
  have hmem : pre ++ r ∈ inputs := List.mem_iff_getElem?.mpr ⟨j, hpre⟩
  exact (hin _ hmem).of_append_right

/-- The item popped is the least pending record, and among the pending records of its key it
comes from the input with the largest position. -/
theorem MergeInv.popped_least {inputs : List (List TableElement)} {s : SSTable}
    {queue : List mergeItem} {readers : List (List meta × List Byte)} {lastInserted : Key}
    {offset : Int} {pend : List (List TableElement)} {out : List TableElement}
    (h : MergeInv inputs s queue readers lastInserted offset pend out)
    (hin : ∀ r ∈ inputs, StrictKeys r) {element : mergeItem} {queue1 : List mergeItem}
    (hpop : heapPop queue = some (element, queue1)) {j : Nat} {r : List TableElement}
    {x : TableElement} (hj : pend[j]? = some r) (hx : x ∈ r) :
    element.value.Value ≤ x.Value ∧
      (x.Value = element.value.Value → j ≤ element.readerIdx) := by
  obtain ⟨_, hmin⟩ := heapPop_some hpop
  cases r with
  | nil => cases hx
  | cons hd tl =>
    have hq : ({ value := hd, readerIdx := j } : mergeItem) ∈ queue :=
      (h.q.mem _).mpr ⟨tl, hj⟩
    have hless := (Less_false_iff _ _).mp (hmin _ hq)
    simp only at hless
    rcases List.mem_cons.mp hx with rfl | hx
    · exact ⟨hless.1, fun heq => hless.2 heq⟩
    · have hlt := (h.pend_sorted hin hj).head_lt hx
      exact ⟨le_of_lt (lt_of_le_of_lt hless.1 hlt),
        fun heq => absurd (lt_of_le_of_lt hless.1 hlt) (by rw [heq]; exact lt_irrefl _)⟩

end sstable

namespace sstable

theorem QInv.popped {queue : List mergeItem} {readers : List (List meta × List Byte)}
    {pend : List (List TableElement)} (h : QInv queue readers pend) {element : mergeItem}
    {queue1 : List mergeItem} (hpop : heapPop queue = some (element, queue1)) :
    ∃ tl o, pend[element.readerIdx]? = some (element.value :: tl) ∧
      readers[element.readerIdx]? = some (metaEntries o tl, dataBytes tl) := by
  obtain ⟨hperm, _⟩ := heapPop_some hpop
  have hmem : element ∈ queue := hperm.mem_iff.mpr (List.mem_cons_self _ _)
  obtain ⟨tl, htl⟩ := (h.mem element).mp hmem
  obtain ⟨o, ho⟩ := h.rd _ _ htl
  exact ⟨tl, o, htl, ho⟩

theorem QInv.rest_mem {queue : List mergeItem} {readers : List (List meta × List Byte)}
    {pend : List (List TableElement)} (h : QInv queue readers pend) {element : mergeItem}
    {queue1 : List mergeItem} (hpop : heapPop queue = some (element, queue1)) :
    (queue1.map (fun it => it.readerIdx)).Nodup ∧
      element.readerIdx ∉ queue1.map (fun it => it.readerIdx) ∧
      ∀ it, it ∈ queue1 ↔ it ∈ queue ∧ it.readerIdx ≠ element.readerIdx := by
  obtain ⟨hperm, _⟩ := heapPop_some hpop
  have hnd : ((element :: queue1).map (fun it => it.readerIdx)).Nodup :=
    (hperm.map _).nodup_iff.mp h.nodup
  rw [List.map_cons, List.nodup_cons] at hnd
  refine ⟨hnd.2, hnd.1, fun it => ⟨fun hit => ⟨hperm.mem_iff.mpr (List.mem_cons_of_mem _ hit), ?_⟩,
    fun hit => ?_⟩⟩
  · intro heq
    exact hnd.1 (List.mem_map.mpr ⟨it, hit, heq⟩)
  · rcases List.mem_cons.mp (hperm.mem_iff.mp hit.1) with rfl | hq
    · exact absurd rfl hit.2
    · exact hq

/-- After a pop whose input is exhausted the queue and the readers are still in step. -/
theorem QInv.advance_nil {queue : List mergeItem} {readers : List (List meta × List Byte)}
    {pend : List (List TableElement)} (h : QInv queue readers pend) {element : mergeItem}
    {queue1 : List mergeItem} (hpop : heapPop queue = some (element, queue1))
    (htl : pend[element.readerIdx]? = some [element.value]) :
    QInv queue1 readers (pend.set element.readerIdx []) := by
  obtain ⟨hnd, _, hmem⟩ := h.rest_mem hpop
  have hlt : element.readerIdx < pend.length := (List.getElem?_eq_some.mp htl).1
  refine ⟨by simp [h.len], hnd, fun it => ?_, fun i r hr => ?_⟩
  · rw [hmem it, h.mem it]
    by_cases hidx : it.readerIdx = element.readerIdx
    · rw [hidx, List.getElem?_set_self hlt]
      simp
    · rw [List.getElem?_set_ne (Ne.symm hidx)]
      simp [hidx]
  · by_cases hidx : i = element.readerIdx
    · subst hidx
      rw [List.getElem?_set_self hlt] at hr
      cases hr
      obtain ⟨o, ho⟩ := h.rd _ _ htl
      exact ⟨o, ho⟩
    · rw [List.getElem?_set_ne (Ne.symm hidx)] at hr
      exact h.rd i r hr

/-- After a pop whose input delivers a further record, pushing that record keeps the queue and
the readers in step. -/
theorem QInv.advance_cons {queue : List mergeItem} {readers : List (List meta × List Byte)}
    {pend : List (List TableElement)} (h : QInv queue readers pend) {element : mergeItem}
    {queue1 : List mergeItem} (hpop : heapPop queue = some (element, queue1))
    {e1 : TableElement} {tl1 : List TableElement}
    (htl : pend[element.readerIdx]? = some (element.value :: e1 :: tl1)) (o1 : Int) :
    QInv (heapPush queue1 { value := e1, readerIdx := element.readerIdx })
      (readers.set element.readerIdx (metaEntries o1 tl1, dataBytes tl1))
      (pend.set element.readerIdx (e1 :: tl1)) := by
  obtain ⟨hnd, hnot, hmem⟩ := h.rest_mem hpop
  have hlt : element.readerIdx < pend.length := (List.getElem?_eq_some.mp htl).1
  refine ⟨by simp [h.len], ?_, fun it => ?_, fun i r hr => ?_⟩
  · simp only [heapPush, List.map_cons, List.nodup_cons]
    exact ⟨hnot, hnd⟩
  · simp only [heapPush, List.mem_cons]
    rw [hmem it, h.mem it]
    by_cases hidx : it.readerIdx = element.readerIdx
    · rw [hidx, List.getElem?_set_self hlt]
      constructor
      · rintro (rfl | ⟨_, hne⟩)
        · exact ⟨tl1, rfl⟩
        · exact absurd rfl hne
      · rintro ⟨rest, hr⟩
        left
        simp only [Option.some.injEq, List.cons.injEq] at hr
        cases it with
        | mk v i =>
          simp only at hidx hr
          rw [hidx, hr.1]
    · rw [List.getElem?_set_ne (Ne.symm hidx)]
      constructor
      · rintro (rfl | ⟨hr, _⟩)
        · exact absurd rfl hidx
        · exact hr
      · intro hr
        exact Or.inr ⟨hr, hidx⟩
  · by_cases hidx : i = element.readerIdx
    · subst hidx
      rw [List.getElem?_set_self hlt] at hr
      cases hr
      exact ⟨o1, by rw [List.getElem?_set_self (by rw [h.len]; exact hlt)]; rfl⟩
    · rw [List.getElem?_set_ne (Ne.symm hidx)] at hr
      rw [List.getElem?_set_ne (Ne.symm hidx)]
      exact h.rd i r hr

end sstable

namespace sstable

/-- One turn of the second loop of `merge`: the state after the write decision and the
advance of the popped input, for any queue and readers in step with the remaining records. -/
theorem MergeInv.step {inputs : List (List TableElement)} {s : SSTable}
    {queue : List mergeItem} {readers : List (List meta × List Byte)} {lastInserted : Key}
    {offset : Int} {pend : List (List TableElement)} {out : List TableElement}
    (h : MergeInv inputs s queue readers lastInserted offset pend out)
    (hin : ∀ r ∈ inputs, StrictKeys r) {element : mergeItem} {queue1 : List mergeItem}
    (hpop : heapPop queue = some (element, queue1)) {tl : List TableElement}
    (htl : pend[element.readerIdx]? = some (element.value :: tl))
    {queue2 : List mergeItem} {readers2 : List (List meta × List Byte)}
    (hq2 : QInv queue2 readers2 (pend.set element.readerIdx tl)) :
    ∃ out2, MergeInv inputs
      (if offset = 0 ∨ lastInserted ≠ element.value.Value then
        s.writeElement element.value offset else (s, offset)).1
      queue2 readers2 element.value.Value
      (if offset = 0 ∨ lastInserted ≠ element.value.Value then
        s.writeElement element.value offset else (s, offset)).2
      (pend.set element.readerIdx tl) out2 ∧
      (if offset = 0 ∨ lastInserted ≠ element.value.Value then
        s.writeElement element.value offset else (s, offset)).1.tag = s.tag ∧ out2 ≠ [] := by
  have hlt : element.readerIdx < pend.length := (List.getElem?_eq_some.mp htl).1
  have hempty := dataBytes_length_eq_zero h.off
  have hself : element.value ∈ element.value :: tl := List.mem_cons_self _ _
  have hpendmem : (element.value :: tl) ∈ pend := List.mem_iff_getElem?.mpr ⟨_, htl⟩
  obtain ⟨pre, hpre, hprekeys⟩ := h.suffix _ _ htl
  -- the parts of the invariant that do not depend on the write decision
  have hsuffix : ∀ out2 : List TableElement, (∀ k ∈ keysOf out, k ∈ keysOf out2) →
      element.value.Value ∈ keysOf out2 →
      ∀ (i : Nat) (r : List TableElement), (pend.set element.readerIdx tl)[i]? = some r →
        ∃ pre, inputs[i]? = some (pre ++ r) ∧ ∀ e ∈ pre, e.Value ∈ keysOf out2 := by
    intro out2 hmono hkey i r hr
    by_cases hidx : i = element.readerIdx
    · subst hidx
      rw [List.getElem?_set_self hlt] at hr
      cases hr
      refine ⟨pre ++ [element.value], by simpa using hpre, fun e he => ?_⟩
      rcases List.mem_append.mp he with he | he
      · exact hmono _ (hprekeys e he)
      · rw [List.mem_singleton.mp he]
        exact hkey
    · rw [List.getElem?_set_ne (Ne.symm hidx)] at hr
      obtain ⟨pre1, hpre1, hk1⟩ := h.suffix i r hr
      exact ⟨pre1, hpre1, fun e he => hmono _ (hk1 e he)⟩
  have hge : ∀ r ∈ pend.set element.readerIdx tl, ∀ e ∈ r,
      element.value.Value ≤ e.Value := by
    intro r hr e he
    obtain ⟨i, hi⟩ := List.mem_iff_getElem?.mp hr
    by_cases hidx : i = element.readerIdx
    · subst hidx
      rw [List.getElem?_set_self hlt] at hi
      cases hi
      exact (h.popped_least hin hpop htl (List.mem_cons_of_mem _ he)).1
    · rw [List.getElem?_set_ne (Ne.symm hidx)] at hi
      exact (h.popped_least hin hpop hi he).1
  have hplen : (pend.set element.readerIdx tl).length = inputs.length := by
    rw [List.length_set, h.plen]
  by_cases hcond : offset = 0 ∨ lastInserted ≠ element.value.Value
  · -- the record is written
    simp only [if_pos hcond]
    obtain ⟨hh, hf, ho⟩ := writeElement_spec element.value h.holds h.filt h.off
    have hbelow : ∀ a ∈ out, a.Value < element.value.Value := by
      intro a ha
      have hne : out ≠ [] := List.ne_nil_of_mem ha
      have hoff : offset ≠ 0 := fun hc => hne (hempty.mp hc)
      have hlast : lastInserted ≠ element.value.Value := by
        rcases hcond with hc | hc
        · exact absurd hc hoff
        · exact hc
      exact lt_of_le_of_lt ((h.last hne).2 a ha)
        (lt_of_le_of_ne (h.ge hne _ hpendmem _ hself) hlast)
    refine ⟨out ++ [element.value], ?_, rfl, by simp⟩
    refine
      { q := hq2, holds := hh, filt := hf, off := ho, sorted := ?_, last := ?_, plen := hplen,
        suffix := ?_, ge := fun _ => hge, best := ?_ }
    · refine List.pairwise_append.mpr ⟨h.sorted, List.pairwise_singleton _ _, fun a ha b hb => ?_⟩
      rw [List.mem_singleton.mp hb]
      exact hbelow a ha
    · intro _
      refine ⟨mem_keysOf (by simp), fun e he => ?_⟩
      rcases List.mem_append.mp he with he | he
      · exact le_of_lt (hbelow e he)
      · rw [List.mem_singleton.mp he]
    · apply hsuffix
      · intro k hk
        simp only [keysOf, List.map_append, List.mem_append]
        exact Or.inl hk
      · exact mem_keysOf (by simp)
    · intro e he
      rcases List.mem_append.mp he with he | he
      · exact h.best e he
      · rw [List.mem_singleton.mp he]
        have hmemin : pre ++ element.value :: tl ∈ inputs :=
          List.mem_iff_getElem?.mpr ⟨_, hpre⟩
        refine newest_eq_some hpre ((hin _ hmemin).findKey_mem (by simp)) ?_
        intro j r1 hj hr1
        apply findKey_eq_none_of
        intro x hx hxeq
        have hjlt : j < pend.length := by
          rw [h.plen]
          exact (List.getElem?_eq_some.mp hr1).1
        obtain ⟨prej, hprej, hkj⟩ := h.suffix j _ (List.getElem?_eq_getElem hjlt)
        rw [hr1] at hprej
        cases hprej
        rcases List.mem_append.mp hx with hx | hx
        · have hk := hkj x hx
          obtain ⟨y, hy, hyk⟩ := List.mem_map.mp hk
          have := hbelow y hy
          rw [hyk, hxeq] at this
          exact lt_irrefl _ this
        · have := (h.popped_least hin hpop (List.getElem?_eq_getElem hjlt) hx).2 hxeq
          omega
  · -- the record repeats the last key written and is dropped
    simp only [if_neg hcond]
    have hoff : offset ≠ 0 := fun hc => hcond (Or.inl hc)
    have hlast : lastInserted = element.value.Value := by
      by_contra hc
      exact hcond (Or.inr hc)
    have hne : out ≠ [] := fun hc => hoff (hempty.mpr hc)
    refine ⟨out, ?_, trivial, hne⟩
    refine
      { q := hq2, holds := h.holds, filt := h.filt, off := h.off, sorted := h.sorted,
        last := ?_, plen := hplen, suffix := ?_, ge := fun _ => hge, best := h.best }
    · intro _
      rw [← hlast]
      exact h.last hne
    · apply hsuffix out (fun k hk => hk)
      rw [← hlast]
      exact (h.last hne).1

/-- When the queue is empty the merge is complete. -/
theorem MergeInv.done {inputs : List (List TableElement)} {s : SSTable}
    {readers : List (List meta × List Byte)} {lastInserted : Key}
    {offset : Int} {pend : List (List TableElement)} {out : List TableElement}
    (h : MergeInv inputs s [] readers lastInserted offset pend out) :
    MergeDone inputs s out := by
  refine
    { holds := h.holds, filt := h.filt, sorted := h.sorted, best := h.best, cover := ?_ }
  intro r hr e he
  obtain ⟨i, hi⟩ := List.mem_iff_getElem?.mp hr
  have hilt : i < pend.length := by
    rw [h.plen]
    exact (List.getElem?_eq_some.mp hi).1
  have hpi := List.getElem?_eq_getElem hilt
  obtain ⟨pre, hpre, hk⟩ := h.suffix i _ hpi
  have hnil : pend[i] = [] := by
    cases hc : pend[i] with
    | nil => rfl
    | cons x rest =>
      rw [hc] at hpi
      have := (h.q.mem { value := x, readerIdx := i }).mpr ⟨rest, hpi⟩
      cases this
  rw [hnil, List.append_nil, hi] at hpre
  cases hpre
  exact hk e he

end sstable

namespace sstable

/-- The second loop of `merge` runs to completion within its fuel. -/
theorem mergeLoop_spec {inputs : List (List TableElement)} (hin : ∀ r ∈ inputs, StrictKeys r)
    (fuel : Nat) :
    ∀ (s : SSTable) (queue : List mergeItem) (readers : List (List meta × List Byte))
      (lastInserted : Key) (offset : Int) (pend : List (List TableElement))
      (out : List TableElement),
      MergeInv inputs s queue readers lastInserted offset pend out →
      (pend.map List.length).sum ≤ fuel →
      ∃ s1 out1, mergeLoop fuel s queue readers lastInserted offset = .ok s1 ∧
        MergeDone inputs s1 out1 ∧ s1.tag = s.tag ∧ (out ≠ [] → out1 ≠ []) ∧
        (queue ≠ [] → out1 ≠ []) := by
  induction fuel with
  | zero =>
    intro s queue readers lastInserted offset pend out h hsum
    have hq : queue = [] := by
      cases queue with
      | nil => rfl
      | cons it rest =>
        obtain ⟨tl, htl⟩ := (h.q.mem it).mp (List.mem_cons_self _ _)
        have hmem : (it.value :: tl) ∈ pend := List.mem_iff_getElem?.mpr ⟨_, htl⟩
        have : (it.value :: tl).length ≤ (pend.map List.length).sum :=
          List.single_le_sum (by simp) _ (List.mem_map.mpr ⟨_, hmem, rfl⟩)
        simp at this
        omega
    subst hq
    exact ⟨s, out, rfl, h.done, rfl, fun hne => hne, fun hne => absurd rfl hne⟩
  | succ fuel ih =>
    intro s queue readers lastInserted offset pend out h hsum
    rw [mergeLoop]
    cases hpop : heapPop queue with
    | none =>
      have hq := heapPop_eq_none hpop
      subst hq
      exact ⟨s, out, rfl, h.done, rfl, fun hne => hne, fun hne => absurd rfl hne⟩
    | some res =>
      obtain ⟨element, queue1⟩ := res
      obtain ⟨tl, o, htl, hrd⟩ := h.q.popped hpop
      have hsum1 := sum_length_set htl
      simp only [List.get?_eq_getElem?, hrd]
      cases tl with
      | nil =>
        have hq2 := h.q.advance_nil hpop htl
        obtain ⟨out2, hinv2, htag, hne2⟩ := h.step hin hpop htl hq2
        obtain ⟨s1, out1, hrun, hdone, htag1, hne1, _⟩ := ih _ _ _ _ _ _ _ hinv2 (by omega)
        refine ⟨s1, out1, ?_, hdone, htag1.trans htag, fun _ => hne1 ?_, fun _ => hne1 ?_⟩
        · simp only [tableElementFromFileConsecutive_nil]
          exact hrun
        · exact hne2
        · exact hne2
      | cons e1 tl1 =>
        have hq2 := h.q.advance_cons hpop htl (o + ((e1.Value.length : Int) + 1))
        obtain ⟨out2, hinv2, htag, hne2⟩ := h.step hin hpop htl hq2
        obtain ⟨s1, out1, hrun, hdone, htag1, hne1, _⟩ := ih _ _ _ _ _ _ _ hinv2 (by omega)
        refine ⟨s1, out1, ?_, hdone, htag1.trans htag, fun _ => hne1 ?_, fun _ => hne1 ?_⟩
        · simp only [tableElementFromFileConsecutive_cons]
          exact hrun
        · exact hne2
        · exact hne2

end sstable

namespace sstable

theorem sum_metaFile_length {tables : List SSTable} {rl : List (List TableElement)}
    (hh : List.Forall₂ Holds tables rl) :
    (tables.map (fun t => t.metaFile.length)).sum = (rl.map List.length).sum := by
  induction hh with
  | nil => rfl
  | @cons t r ts rs ht _ ih =>
    simp only [List.map_cons, List.sum_cons, ih, ht.1, metaEntries_length]

/-- Merging non-empty inputs with strictly increasing keys into an empty run succeeds. -/
theorem merge_spec {tables : List SSTable} {rl : List (List TableElement)}
    (hh : List.Forall₂ Holds tables rl) (hne : ∀ r ∈ rl, r ≠ [])
    (hin : ∀ r ∈ rl, StrictKeys r) (s : SSTable) (hs : Holds s []) :
    ∃ s1 out1, s.merge tables = .ok s1 ∧ MergeDone rl s1 out1 ∧ s1.tag = s.tag ∧
      (rl ≠ [] → out1 ≠ []) := by
  obtain ⟨queue, readers, hinit, hq⟩ := mergeInit_spec hh hne [] [] [] QInv.nil
  simp only [List.length_nil, List.nil_append] at hinit hq
  have hinv : MergeInv rl s queue readers [] 0 rl [] :=
    { q := hq
      holds := hs
      filt := fun e he => nomatch he
      off := by simp [dataBytes]
      sorted := List.Pairwise.nil
      last := fun hc => absurd rfl hc
      plen := rfl
      suffix := fun i r hr => ⟨[], by simpa using hr, fun e he => nomatch he⟩
      ge := fun hc => absurd rfl hc
      best := fun e he => nomatch he }
  obtain ⟨s1, out1, hrun, hdone, htag, _, hne1⟩ :=
    mergeLoop_spec hin ((tables.map (fun t => t.metaFile.length)).sum + 1) _ _ _ _ _ _ _ hinv
      (by rw [sum_metaFile_length hh]; omega)
  refine ⟨s1, out1, ?_, hdone, htag, fun hrl => hne1 ?_⟩
  · rw [SSTable.merge, hinit]
    exact hrun
  · cases rl with
    | nil => exact absurd rfl hrl
    | cons r0 rs =>
      cases r0 with
      | nil => exact absurd rfl (hne [] (List.mem_cons_self _ _))
      | cons e tl =>
        have := (hq.mem { value := e, readerIdx := 0 }).mpr ⟨tl, by simp⟩
        exact List.ne_nil_of_mem this

/-- The sizes of one or more runs that each hold a record do not sum to zero. -/
theorem sum_size_ne_zero {tables : List SSTable} {rl : List (List TableElement)}
    (hh : List.Forall₂ Holds tables rl) (hne : ∀ r ∈ rl, r ≠ []) (hpos : 0 < tables.length) :
    (tables.map (fun t => t.size)).sum ≠ 0 := by
  cases hh with
  | nil => simp at hpos
  | @cons t r ts rs ht _ =>
    have hr : r ≠ [] := hne r (List.mem_cons_self _ _)
    have hlen : 0 < r.length := List.length_pos.mpr hr
    simp only [List.map_cons, List.sum_cons, ht.2.2]
    omega

/-- The run that `sstable.New` builds from `MaxLevelSize` non-empty inputs with strictly
increasing keys. -/
theorem New_spec (p : Params) (tag : Nat) {tables : List SSTable}
    {rl : List (List TableElement)} (hh : List.Forall₂ Holds tables rl)
    (hne : ∀ r ∈ rl, r ≠ []) (hin : ∀ r ∈ rl, StrictKeys r)
    (hlen : tables.length = p.MaxLevelSize) (hpos : 0 < p.MaxLevelSize) :
    ∃ s1 out1, New p tag tables = .ok s1 ∧ MergeDone rl s1 out1 ∧ s1.tag = tag ∧
      (rl ≠ [] → out1 ≠ []) := by
  unfold New
  rw [if_neg (by simpa using hlen)]
  dsimp only
  rw [if_neg (sum_size_ne_zero hh hne (by omega))]
  exact merge_spec hh hne hin _ ⟨rfl, rfl, rfl⟩

/-- A merged run answers a key as the newest input that has the key. -/
theorem MergeDone.findKey_eq {inputs : List (List TableElement)} {s : SSTable}
    {out : List TableElement} (h : MergeDone inputs s out) (key : Key) :
    findKey out key = newest inputs key := by
  cases hf : findKey out key with
  | some e =>
    obtain ⟨he, hk⟩ := findKey_some hf
    rw [← hk, h.best e he]
  | none =>
    symm
    apply newest_eq_none
    intro r hr e he heq
    obtain ⟨y, hy, hyk⟩ := List.mem_map.mp (h.cover r hr e he)
    exact findKey_none hf y hy (hyk.trans heq)

end sstable

namespace lsm_tree

open sstable

theorem searchKeyLevel_append (k : Key) (a b : List SSTable) :
    searchKeyLevel k (a ++ b) =
      match searchKeyLevel k a with
      | .ok none => searchKeyLevel k b
      | r => r := by
  induction a with
  | nil => rfl
  | cons t ts ih =>
    simp only [List.cons_append, searchKeyLevel]
    cases h : t.SearchKey k with
    | error e => rfl
    | ok res =>
      cases res with
      | SearchResultNotFound => simpa using ih
      | SearchResultFound => rfl
      | SearchResultRemoved => rfl

theorem RunRecs.searchKey {s : SSTable} {recs : List TableElement} (h : RunRecs s recs)
    (k : Key) : s.SearchKey k = .ok (resultOf (findKey recs k)) :=
  SearchKey_spec h.1 h.2.1 h.2.2 k

/-- One level answers a key as the newest of its runs that has the key. -/
theorem searchKeyLevel_newest (k : Key) {tables : List SSTable}
    {rl : List (List TableElement)} (hh : List.Forall₂ RunRecs tables rl) :
    searchKeyLevel k tables.reverse =
      .ok ((newest rl k).map (fun e => !e.IsTombstone)) := by
  induction hh with
  | nil => rfl
  | @cons t r ts rs ht _ ih =>
    rw [List.reverse_cons, searchKeyLevel_append, ih, newest]
    cases hn : newest rs k with
    | some e => rfl
    | none =>
      simp only [Option.map_none', searchKeyLevel, ht.searchKey k]
      cases hf : findKey r k with
      | none => rfl
      | some e =>
        cases ht : e.IsTombstone <;> simp [resultOf, ht]

theorem exists_recs {tables : List SSTable} (h : ∀ s ∈ tables, RunOK s) :
    ∃ rl, List.Forall₂ RunRecs tables rl ∧ ∀ r ∈ rl, r ≠ [] := by
  induction tables with
  | nil => exact ⟨[], List.Forall₂.nil, fun r hr => nomatch hr⟩
  | cons t ts ih =>
    obtain ⟨rl, hrl, hne⟩ := ih (fun s hs => h s (List.mem_cons_of_mem _ hs))
    obtain ⟨r, hr, hrne⟩ := h t (List.mem_cons_self _ _)
    refine ⟨r :: rl, List.Forall₂.cons hr hrl, fun x hx => ?_⟩
    rcases List.mem_cons.mp hx with rfl | hx
    · exact hrne
    · exact hne x hx

theorem forall₂_strict {tables : List SSTable} {rl : List (List TableElement)}
    (hh : List.Forall₂ RunRecs tables rl) : ∀ r ∈ rl, StrictKeys r := by
  induction hh with
  | nil => exact fun r hr => nomatch hr
  | @cons t r ts rs ht _ ih =>
    intro x hx
    rcases List.mem_cons.mp hx with rfl | hx
    · exact ht.2.1
    · exact ih x hx

/-- Merging all runs of a level into one run, searched before the runs `next` of the level
above, answers as the level followed by `next`. -/
theorem searchKeyLevels_merged (p : Params) (tag : Nat) (k : Key) {tables : List SSTable}
    (hruns : ∀ s ∈ tables, RunOK s) (hlen : tables.length = p.MaxLevelSize)
    (hpos : 0 < p.MaxLevelSize) (next : List SSTable) (rest : List (List SSTable)) :
    ∃ newSSTable, sstable.New p tag tables = .ok newSSTable ∧ RunOK newSSTable ∧
      newSSTable.tag = tag ∧
      searchKeyLevels k ([] :: (next ++ [newSSTable]) :: rest) =
        searchKeyLevels k (tables :: next :: rest) := by
  obtain ⟨rl, hrl, hne⟩ := exists_recs hruns
  have hholds : List.Forall₂ Holds tables rl := hrl.imp (fun _ _ h => h.1)
  obtain ⟨s1, out1, hnew, hdone, htag, hne1⟩ :=
    New_spec p tag hholds hne (forall₂_strict hrl) hlen hpos
  have hrlne : rl ≠ [] := by
    intro hc
    have := hrl.length_eq
    rw [hc, hlen] at this
    simp at this
    omega
  have hrec : RunRecs s1 out1 := ⟨hdone.holds, hdone.sorted, hdone.filt⟩
  refine ⟨s1, hnew, ⟨out1, hrec, hne1 hrlne⟩, htag, ?_⟩
  simp only [searchKeyLevels, List.reverse_nil, searchKeyLevel, List.reverse_append,
    List.reverse_cons, List.nil_append, List.singleton_append, hrec.searchKey k,
    hdone.findKey_eq k, searchKeyLevel_newest k hrl]
  cases hn : newest rl k with
  | none => rfl
  | some e => cases ht : e.IsTombstone <;> simp [resultOf, ht]

end lsm_tree

namespace lsm_tree

open sstable

theorem set_at_length {α : Type} (a : List α) (x y : α) (b : List α) :
    (a ++ x :: b).set a.length y = a ++ y :: b := by
  induction a with
  | nil => rfl
  | cons h t ih => simp [List.set, ih]

theorem getD_at_length {α : Type} (a : List α) (x d : α) (b : List α) :
    (a ++ x :: b).getD a.length d = x := by
  induction a with
  | nil => rfl
  | cons h t ih => simpa using ih

/-- The level array after the turn of `mergeSSTables` that merges the level at position
`pre.length` into `newSSTable`. -/
theorem merged_levels (pre : List (List SSTable)) (level : List SSTable)
    (post : List (List SSTable)) (newSSTable : SSTable) :
    (let t1 := (pre ++ level :: post).set pre.length []
     let t2 := if pre.length = t1.length - 1 then t1.take (pre.length + 1) else t1
     let t3 := if t2.length = pre.length + 1 then t2 ++ [[]] else t2
     t3.set (pre.length + 1) (t3.getD (pre.length + 1) [] ++ [newSSTable])) =
      (pre ++ [[]]) ++ (post.headD [] ++ [newSSTable]) :: post.tail := by
  simp only [set_at_length]
  cases post with
  | nil =>
    have h1 : pre.length = (pre ++ [([] : List SSTable)]).length - 1 := by simp
    have h2 : (pre ++ [([] : List SSTable)]).take (pre.length + 1) = pre ++ [[]] := by
      rw [List.take_of_length_le (by simp)]
    simp only [if_pos h1, h2]
    have h3 : (pre ++ [([] : List SSTable)]).length = pre.length + 1 := by simp
    simp only [if_pos h3]
    have h4 : pre ++ [[]] ++ [([] : List SSTable)] = (pre ++ [[]]) ++ [] :: [] := rfl
    have h5 : pre.length + 1 = (pre ++ [([] : List SSTable)]).length := by simp
    rw [h4, h5, getD_at_length, set_at_length]
    rfl
  | cons next rest =>
    have h1 : ¬ pre.length = (pre ++ ([] : List SSTable) :: next :: rest).length - 1 := by
      simp
    simp only [if_neg h1]
    have h3 : ¬ (pre ++ ([] : List SSTable) :: next :: rest).length = pre.length + 1 := by
      simp
    simp only [if_neg h3]
    have h4 : pre ++ ([] : List SSTable) :: next :: rest = (pre ++ [[]]) ++ next :: rest := by
      simp
    have h5 : pre.length + 1 = (pre ++ [([] : List SSTable)]).length := by simp
    rw [h4, h5, getD_at_length, set_at_length]
    rfl

theorem searchKeyLevels_congr (k : Key) (pre : List (List SSTable))
    {a b : List (List SSTable)} (h : searchKeyLevels k a = searchKeyLevels k b) :
    searchKeyLevels k (pre ++ a) = searchKeyLevels k (pre ++ b) := by
  induction pre with
  | nil => exact h
  | cons level rest ih =>
    rw [List.cons_append, List.cons_append, searchKeyLevels, searchKeyLevels, ih]

theorem searchKeyLevels_headD (k : Key) (post : List (List SSTable)) :
    searchKeyLevels k (post.headD [] :: post.tail) = searchKeyLevels k post := by
  cases post with
  | nil => rfl
  | cons next rest => rfl

end lsm_tree

namespace lsm_tree

open sstable

theorem turnsLeft_pos (m : Nat) (level : List SSTable) (post : List (List SSTable)) :
    0 < turnsLeft m (level :: post) := by
  cases post with
  | nil =>
    simp only [turnsLeft]
    split <;> omega
  | cons next rest => simp [turnsLeft]

/-- The loop of `mergeSSTables`, entered at the level after `pre`, ends within its fuel when
`MaxLevelSize` is at least 2; it keeps every answer of the level array and leaves fewer than
`MaxLevelSize` runs in each level. -/
theorem mergeSSTablesLoop_spec (p : Params) (hM : 2 ≤ p.MaxLevelSize) (fuel : Nat) :
    ∀ (pre post : List (List SSTable)) (ram rem : List Key) (cnt : Nat),
      (∀ lv ∈ pre, lv.length < p.MaxLevelSize) →
      (∀ lv ∈ pre ++ post, ∀ s ∈ lv, RunOK s) →
      (post.headD []).length ≤ p.MaxLevelSize →
      (∀ lv ∈ post.tail, lv.length < p.MaxLevelSize) →
      turnsLeft p.MaxLevelSize post ≤ fuel →
      ∃ l1, mergeSSTablesLoop p fuel pre.length
          { sstables := pre ++ post, ramComponent := ram, ramComponentRemoved := rem,
            fileCnt := cnt } = .ok l1 ∧
        (∀ lv ∈ l1.sstables, lv.length < p.MaxLevelSize) ∧
        (∀ lv ∈ l1.sstables, ∀ s ∈ lv, RunOK s) ∧
        l1.ramComponent = ram ∧ l1.ramComponentRemoved = rem ∧ cnt ≤ l1.fileCnt ∧
        (pre ++ post).length ≤ l1.sstables.length ∧
        ∀ k, searchKeyLevels k l1.sstables = searchKeyLevels k (pre ++ post) := by
  induction fuel with
  | zero =>
    intro pre post ram rem cnt hpre hruns _ _ hfuel
    cases post with
    | cons level rest =>
      have := turnsLeft_pos p.MaxLevelSize level rest
      omega
    | nil =>
      refine ⟨LSMTree.mk (pre ++ []) ram rem cnt, ?_, ?_, ?_, rfl, rfl, le_refl _, le_refl _,
        fun k => rfl⟩
      · simp [mergeSSTablesLoop]
      · simpa using hpre
      · simpa using hruns
  | succ fuel ih =>
    intro pre post ram rem cnt hpre hruns hhead htail hfuel
    cases post with
    | nil =>
      refine ⟨LSMTree.mk (pre ++ []) ram rem cnt, ?_, ?_, ?_, rfl, rfl, le_refl _, le_refl _,
        fun k => rfl⟩
      · simp [mergeSSTablesLoop]
      · simpa using hpre
      · simpa using hruns
    | cons level post1 =>
      have hlt : pre.length < (pre ++ level :: post1).length := by simp
      rw [mergeSSTablesLoop]
      dsimp only
      rw [if_pos hlt, getD_at_length]
      have hlevelruns : ∀ s ∈ level, RunOK s :=
        hruns level (List.mem_append_right _ (List.mem_cons_self _ _))
      by_cases hfull : level.length = p.MaxLevelSize
      · rw [if_pos hfull]
        obtain ⟨newSSTable, hnew, hok, _, _⟩ :=
          searchKeyLevels_merged p cnt [] hlevelruns hfull (by omega) (post1.headD [])
            post1.tail
        rw [hnew]
        dsimp only
        have hshape := merged_levels pre level post1 newSSTable
        dsimp only at hshape
        rw [hshape]
        have hlen : pre.length + 1 = (pre ++ [([] : List SSTable)]).length := by simp
        rw [hlen]
        have hnextlen : (post1.headD []).length < p.MaxLevelSize := by
          cases post1 with
          | nil => simp; omega
          | cons next rest => exact htail next (List.mem_cons_self _ _)
        obtain ⟨l1, hrun, hcard, hr, hram, hrem, hcnt, hlen1, hsearch⟩ :=
          ih (pre ++ [[]]) ((post1.headD [] ++ [newSSTable]) :: post1.tail) ram rem (cnt + 1)
            (by
              intro lv hlv
              rcases List.mem_append.mp hlv with h | h
              · exact hpre lv h
              · rw [List.mem_singleton.mp h]
                simp
                omega)
            (by
              intro lv hlv s hs
              rcases List.mem_append.mp hlv with h | h
              · rcases List.mem_append.mp h with h | h
                · exact hruns lv (List.mem_append_left _ h) s hs
                · rw [List.mem_singleton.mp h] at hs
                  cases hs
              · rcases List.mem_cons.mp h with h | h
                · rw [h] at hs
                  rcases List.mem_append.mp hs with hs | hs
                  · cases post1 with
                    | nil => cases hs
                    | cons next rest =>
                      exact hruns next
                        (List.mem_append_right _
                          (List.mem_cons_of_mem _ (List.mem_cons_self _ _))) s hs
                  · rw [List.mem_singleton.mp hs]
                    exact hok
                · exact hruns lv
                    (List.mem_append_right _
                      (List.mem_cons_of_mem _ (List.mem_of_mem_tail h))) s hs)
            (by
              simp only [List.headD_cons, List.length_append, List.length_singleton]
              omega)
            (by
              intro lv hlv
              simp only [List.tail_cons] at hlv
              exact htail lv (List.mem_of_mem_tail hlv))
            (by
              cases post1 with
              | nil =>
                simp only [turnsLeft, if_pos hfull] at hfuel
                simp only [List.headD_nil, List.nil_append, List.tail_nil, turnsLeft,
                  List.length_singleton]
                rw [if_neg (by omega)]
                omega
              | cons next rest =>
                simp only [turnsLeft, List.length_cons] at hfuel
                simp only [List.headD_cons, List.tail_cons]
                cases rest with
                | nil =>
                  simp only [turnsLeft]
                  split <;> omega
                | cons n2 r2 =>
                  simp only [turnsLeft, List.length_cons]
                  simp only [List.length_cons] at hfuel
                  omega)
        refine ⟨l1, hrun, hcard, hr, hram, hrem, by omega, ?_, fun k => ?_⟩
        · simp only [List.length_append, List.length_cons, List.length_singleton,
            List.length_tail] at hlen1 ⊢
          omega
        · rw [hsearch k]
          obtain ⟨new2, hnew2, _, _, heq⟩ :=
            searchKeyLevels_merged p cnt k hlevelruns hfull (by omega) (post1.headD [])
              post1.tail
          rw [hnew] at hnew2
          cases hnew2
          rw [List.append_assoc]
          apply searchKeyLevels_congr
          simp only [List.singleton_append]
          exact heq.trans (searchKeyLevels_congr k [level] (searchKeyLevels_headD k post1))
      · rw [if_neg hfull]
        have hlen : pre.length + 1 = (pre ++ [level]).length := by simp
        have happ : pre ++ level :: post1 = (pre ++ [level]) ++ post1 := by simp
        rw [hlen, happ]
        have hlevellt : level.length < p.MaxLevelSize := by
          simp only [List.headD_cons] at hhead
          omega
        obtain ⟨l1, hrun, hcard, hr, hram, hrem, hcnt, hlen1, hsearch⟩ :=
          ih (pre ++ [level]) post1 ram rem cnt
            (by
              intro lv hlv
              rcases List.mem_append.mp hlv with h | h
              · exact hpre lv h
              · rw [List.mem_singleton.mp h]
                exact hlevellt)
            (by rw [← happ]; exact hruns)
            (by
              cases post1 with
              | nil => simp
              | cons next rest =>
                exact le_of_lt (htail next (List.mem_cons_self _ _)))
            (by
              intro lv hlv
              exact htail lv (List.mem_of_mem_tail hlv))
            (by
              cases post1 with
              | nil => simp [turnsLeft]
              | cons next rest =>
                simp only [turnsLeft, List.length_cons] at hfuel
                cases rest with
                | nil =>
                  simp only [turnsLeft]
                  simp only [List.length_nil] at hfuel
                  split <;> omega
                | cons n2 r2 =>
                  simp only [turnsLeft, List.length_cons]
                  simp only [List.length_cons] at hfuel
                  omega)
        exact ⟨l1, hrun, hcard, hr, hram, hrem, hcnt, hlen1, hsearch⟩

end lsm_tree

theorem mem_mapSet (m : List Key) (s k : Key) : k ∈ mapSet m s ↔ k = s ∨ k ∈ m := by
  unfold mapSet
  by_cases h : s ∈ m
  · rw [if_pos h]
    constructor
    · exact Or.inr
    · rintro (rfl | hk)
      · exact h
      · exact hk
  · rw [if_neg h]
    simp [or_comm]

theorem nodup_mapSet {m : List Key} (h : m.Nodup) (s : Key) : (mapSet m s).Nodup := by
  unfold mapSet
  by_cases hs : s ∈ m
  · rw [if_pos hs]
    exact h
  · rw [if_neg hs]
    exact List.nodup_append.mpr ⟨h, List.nodup_singleton _, by simpa using hs⟩

theorem length_mapSet_le (m : List Key) (s : Key) : (mapSet m s).length ≤ m.length + 1 := by
  unfold mapSet
  split <;> simp

theorem mem_mapDelete {m : List Key} (h : m.Nodup) (s k : Key) :
    k ∈ mapDelete m s ↔ k ≠ s ∧ k ∈ m :=
  h.mem_erase_iff

theorem nodup_mapDelete {m : List Key} (h : m.Nodup) (s : Key) : (mapDelete m s).Nodup :=
  h.erase s

theorem length_mapDelete_le (m : List Key) (s : Key) : (mapDelete m s).length ≤ m.length :=
  List.length_erase_le s m

namespace lsm_tree

open sstable

theorem turnsLeft_le (m : Nat) (post : List (List SSTable)) :
    turnsLeft m post ≤ 2 * post.length + 1 := by
  cases post with
  | nil => simp [turnsLeft]
  | cons level rest =>
    cases rest with
    | nil =>
      simp only [turnsLeft]
      split <;> simp
    | cons n2 r2 =>
      simp only [turnsLeft, List.length_cons]
      omega

/-- The records of the run that a flush builds. -/
theorem NewFromMap_runRecs (p : Params) (tag : Nat) {live removed : List Key}
    (hl : live.Nodup) (hr : removed.Nodup) (hd : ∀ k, k ∈ live → k ∉ removed) :
    ∃ recs, RunRecs (NewFromMap p tag live removed) recs ∧
      recs.length = live.length + removed.length ∧
      (∀ e, e ∈ recs ↔ (e.IsTombstone = false ∧ e.Value ∈ live) ∨
        (e.IsTombstone = true ∧ e.Value ∈ removed)) := by
  obtain ⟨hh, hf⟩ := NewFromMap_holds p tag live removed
  refine ⟨_, ⟨hh, ?_, hf⟩, ?_, ?_⟩
  · apply strictKeys_insertionSort
    simp only [List.map_append, List.map_map]
    have h1 : (List.map ((fun e : TableElement => e.Value) ∘
        fun value => ({ Value := value, IsTombstone := false } : TableElement)) live) = live := by
      simp [Function.comp_def]
    have h2 : (List.map ((fun e : TableElement => e.Value) ∘
        fun value => ({ Value := value, IsTombstone := true } : TableElement)) removed) =
        removed := by
      simp [Function.comp_def]
    rw [h1, h2]
    exact List.nodup_append.mpr ⟨hl, hr, fun k hk1 hk2 => hd k hk1 hk2⟩
  · rw [(List.perm_insertionSort _ _).length_eq]
    simp
  · intro e
    rw [(List.perm_insertionSort _ _).mem_iff]
    simp only [List.mem_append, List.mem_map]
    constructor
    · rintro (⟨k, hk, rfl⟩ | ⟨k, hk, rfl⟩)
      · exact Or.inl ⟨rfl, hk⟩
      · exact Or.inr ⟨rfl, hk⟩
    · rintro (⟨ht, hk⟩ | ⟨ht, hk⟩)
      · left
        refine ⟨e.Value, hk, ?_⟩
        cases e
        simp only at ht
        subst ht
        rfl
      · right
        refine ⟨e.Value, hk, ?_⟩
        cases e
        simp only at ht
        subst ht
        rfl

/-- A flush of a full memory component succeeds, restores the invariant and keeps every
answer of `SearchKey`. -/
theorem flushRAMComponent_spec (p : Params) (hF : 1 ≤ p.FirstLevelSize)
    (hM : 2 ≤ p.MaxLevelSize) (l : LSMTree) (hlv : l.sstables ≠ [])
    (hruns : ∀ level ∈ l.sstables, ∀ s ∈ level, RunOK s)
    (hcard : ∀ level ∈ l.sstables, level.length < p.MaxLevelSize)
    (hl : l.ramComponent.Nodup) (hr : l.ramComponentRemoved.Nodup)
    (hd : ∀ k, k ∈ l.ramComponent → k ∉ l.ramComponentRemoved)
    (hfull : l.ramComponent.length + l.ramComponentRemoved.length = p.FirstLevelSize) :
    ∃ l2, l.flushRAMComponent p = .ok l2 ∧ TreeInv p l2 ∧ l.fileCnt ≤ l2.fileCnt ∧
      ∀ k, l2.SearchKey k = l.SearchKey k := by
  obtain ⟨recs, hrec, hlen, hmem⟩ :=
    NewFromMap_runRecs p l.fileCnt hl hr hd
  have hne : recs ≠ [] := by
    intro hc
    rw [hc] at hlen
    simp at hlen
    omega
  cases hs : l.sstables with
  | nil => exact absurd hs hlv
  | cons level0 rest =>
    rw [hs] at hruns hcard
    obtain ⟨l2, hrun, hcard2, hruns2, hram, hrem, hcnt, hlen2, hsearch⟩ :=
      mergeSSTablesLoop_spec p hM
        (2 * ((level0 ++ [NewFromMap p l.fileCnt l.ramComponent l.ramComponentRemoved]) ::
          rest).length + 1) []
        ((level0 ++ [NewFromMap p l.fileCnt l.ramComponent l.ramComponentRemoved]) :: rest)
        [] [] (l.fileCnt + 1) (fun lv hlv => nomatch hlv)
        (by
          intro lv hlv s hs
          simp only [List.nil_append] at hlv
          rcases List.mem_cons.mp hlv with h | h
          · rw [h] at hs
            rcases List.mem_append.mp hs with hs | hs
            · exact hruns level0 (List.mem_cons_self _ _) s hs
            · rw [List.mem_singleton.mp hs]
              exact ⟨recs, hrec, hne⟩
          · exact hruns lv (List.mem_cons_of_mem _ h) s hs)
        (by
          have := hcard level0 (List.mem_cons_self _ _)
          simp only [List.headD_cons, List.length_append, List.length_singleton]
          omega)
        (by
          intro lv hlv
          exact hcard lv (List.mem_cons_of_mem _ hlv))
        (turnsLeft_le _ _)
    refine ⟨l2, ?_, ?_, by omega, fun k => ?_⟩
    · simp only [LSMTree.flushRAMComponent, hs, LSMTree.mergeSSTables]
      exact hrun
    · refine
        { levels := ?_, runs := hruns2, card := hcard2, nodupLive := by rw [hram]; simp,
          nodupRemoved := by rw [hrem]; simp, disjoint := by rw [hram]; simp,
          bound := by rw [hram, hrem]; simp; omega }
      intro hc
      rw [hc] at hlen2
      simp at hlen2
    · simp only [LSMTree.SearchKey, hram, hrem, List.not_mem_nil, if_false, hsearch k, hs]
      simp only [List.nil_append, searchKeyLevels, List.reverse_append, List.reverse_cons,
        List.reverse_nil, List.nil_append, List.singleton_append, searchKeyLevel,
        hrec.searchKey k]
      by_cases hk1 : k ∈ l.ramComponent
      · have hin : ({ Value := k, IsTombstone := false } : TableElement) ∈ recs :=
          (hmem _).mpr (Or.inl ⟨rfl, hk1⟩)
        have := hrec.2.1.findKey_mem hin
        simp only at this
        simp [this, resultOf, hk1]
      · by_cases hk2 : k ∈ l.ramComponentRemoved
        · have hin : ({ Value := k, IsTombstone := true } : TableElement) ∈ recs :=
            (hmem _).mpr (Or.inr ⟨rfl, hk2⟩)
          have := hrec.2.1.findKey_mem hin
          simp only at this
          simp [this, resultOf, hk1, hk2]
        · have hnone : findKey recs k = none := by
            apply findKey_eq_none_of
            intro e he heq
            rcases (hmem e).mp he with ⟨_, h⟩ | ⟨_, h⟩
            · exact hk1 (heq ▸ h)
            · exact hk2 (heq ▸ h)
          simp [hnone, resultOf, hk1, hk2]

end lsm_tree

namespace lsm_tree

open sstable

theorem TreeInv.new (p : Params) (hF : 1 ≤ p.FirstLevelSize) (hM : 2 ≤ p.MaxLevelSize) :
    TreeInv p New :=
  { levels := by simp [New]
    runs := by
      intro level hlevel s hs
      simp only [New, List.mem_singleton] at hlevel
      rw [hlevel] at hs
      cases hs
    card := by
      intro level hlevel
      simp only [New, List.mem_singleton] at hlevel
      rw [hlevel]
      simp
      omega
    nodupLive := List.nodup_nil
    nodupRemoved := List.nodup_nil
    disjoint := fun k hk => nomatch hk
    bound := by simp [New]; omega }

/-- A call of `Add` succeeds, keeps the invariant, and changes the answer for its key only. -/
theorem Add_spec (p : Params) (hF : 1 ≤ p.FirstLevelSize) (hM : 2 ≤ p.MaxLevelSize)
    {l : LSMTree} (h : TreeInv p l) (s : Key) :
    ∃ l2, l.Add p s = .ok l2 ∧ TreeInv p l2 ∧ l.fileCnt ≤ l2.fileCnt ∧
      ∀ k, l2.SearchKey k = if k = s then .ok true else l.SearchKey k := by
  have hnl := nodup_mapSet h.nodupLive s
  have hnr := nodup_mapDelete h.nodupRemoved s
  have hdis : ∀ k, k ∈ mapSet l.ramComponent s → k ∉ mapDelete l.ramComponentRemoved s := by
    intro k hk hk2
    rw [mem_mapDelete h.nodupRemoved] at hk2
    rcases (mem_mapSet _ _ _).mp hk with hks | hkm
    · exact hk2.1 hks
    · exact h.disjoint k hkm hk2.2
  have hsearch : ∀ k, LSMTree.SearchKey
      { l with ramComponent := mapSet l.ramComponent s,
               ramComponentRemoved := mapDelete l.ramComponentRemoved s } k =
      if k = s then .ok true else l.SearchKey k := by
    intro k
    simp only [LSMTree.SearchKey, mem_mapSet, mem_mapDelete h.nodupRemoved]
    by_cases hks : k = s
    · simp [hks]
    · simp [hks]
  unfold LSMTree.Add
  dsimp only
  by_cases hfull : (mapSet l.ramComponent s).length +
      (mapDelete l.ramComponentRemoved s).length = p.FirstLevelSize
  · rw [if_pos hfull]
    obtain ⟨l2, hrun, hinv, hcnt, hs2⟩ := flushRAMComponent_spec p hF hM
      { l with ramComponent := mapSet l.ramComponent s,
               ramComponentRemoved := mapDelete l.ramComponentRemoved s }
      h.levels h.runs h.card hnl hnr hdis hfull
    exact ⟨l2, hrun, hinv, hcnt, fun k => (hs2 k).trans (hsearch k)⟩
  · rw [if_neg hfull]
    refine ⟨_, rfl, ?_, le_refl _, hsearch⟩
    have h1 := length_mapSet_le l.ramComponent s
    have h2 := length_mapDelete_le l.ramComponentRemoved s
    have h3 := h.bound
    exact
      { levels := h.levels, runs := h.runs, card := h.card, nodupLive := hnl,
        nodupRemoved := hnr, disjoint := hdis, bound := by simp only; omega }

/-- A call of `Delete` succeeds, keeps the invariant, and changes the answer for its key
only. -/
theorem Delete_spec (p : Params) (hF : 1 ≤ p.FirstLevelSize) (hM : 2 ≤ p.MaxLevelSize)
    {l : LSMTree} (h : TreeInv p l) (s : Key) :
    ∃ l2, l.Delete p s = .ok l2 ∧ TreeInv p l2 ∧ l.fileCnt ≤ l2.fileCnt ∧
      ∀ k, l2.SearchKey k = if k = s then .ok false else l.SearchKey k := by
  have hnl := nodup_mapDelete h.nodupLive s
  have hnr := nodup_mapSet h.nodupRemoved s
  have hdis : ∀ k, k ∈ mapDelete l.ramComponent s → k ∉ mapSet l.ramComponentRemoved s := by
    intro k hk hk2
    rw [mem_mapDelete h.nodupLive] at hk
    rcases (mem_mapSet _ _ _).mp hk2 with hks | hkm
    · exact hk.1 hks
    · exact h.disjoint k hk.2 hkm
  have hsearch : ∀ k, LSMTree.SearchKey
      { l with ramComponentRemoved := mapSet l.ramComponentRemoved s,
               ramComponent := mapDelete l.ramComponent s } k =
      if k = s then .ok false else l.SearchKey k := by
    intro k
    simp only [LSMTree.SearchKey, mem_mapSet, mem_mapDelete h.nodupLive]
    by_cases hks : k = s
    · simp [hks]
    · simp [hks]
  unfold LSMTree.Delete
  dsimp only
  by_cases hfull : (mapDelete l.ramComponent s).length +
      (mapSet l.ramComponentRemoved s).length = p.FirstLevelSize
  · rw [if_pos hfull]
    obtain ⟨l2, hrun, hinv, hcnt, hs2⟩ := flushRAMComponent_spec p hF hM
      { l with ramComponentRemoved := mapSet l.ramComponentRemoved s,
               ramComponent := mapDelete l.ramComponent s }
      h.levels h.runs h.card hnl hnr hdis hfull
    exact ⟨l2, hrun, hinv, hcnt, fun k => (hs2 k).trans (hsearch k)⟩
  · rw [if_neg hfull]
    refine ⟨_, rfl, ?_, le_refl _, hsearch⟩
    have h1 := length_mapSet_le l.ramComponentRemoved s
    have h2 := length_mapDelete_le l.ramComponent s
    have h3 := h.bound
    exact
      { levels := h.levels, runs := h.runs, card := h.card, nodupLive := hnl,
        nodupRemoved := hnr, disjoint := hdis, bound := by simp only; omega }

theorem runOps_append (p : Params) (l : LSMTree) (a b : List Op) :
    runOps p l (a ++ b) =
      match runOps p l a with
      | .error e => .error e
      | .ok l1 => runOps p l1 b := by
  induction a generalizing l with
  | nil => rfl
  | cons op rest ih =>
    simp only [List.cons_append, runOps]
    cases applyOp p l op with
    | error e => rfl
    | ok l1 => exact ih l1

theorem mostRecent_append_singleton (ops : List Op) (op : Op) (k : Key) :
    mostRecent (ops ++ [op]) k = if op.key = k then some op else mostRecent ops k := by
  simp only [mostRecent, List.reverse_append, List.reverse_singleton, List.singleton_append,
    List.find?_cons]
  by_cases h : op.key = k <;> simp [h]

/-- Every sequence of calls from `New` succeeds, ends in a state that satisfies the invariant,
and `SearchKey` answers by the most recent call that mentions the key. -/
theorem runOps_spec (p : Params) (hF : 1 ≤ p.FirstLevelSize) (hM : 2 ≤ p.MaxLevelSize)
    (ops : List Op) :
    ∃ l, runOps p New ops = .ok l ∧ TreeInv p l ∧
      ∀ k, l.SearchKey k = .ok (decide (mostRecent ops k = some (.add k))) := by
  induction ops using List.reverseRecOn with
  | nil =>
    refine ⟨New, rfl, TreeInv.new p hF hM, fun k => ?_⟩
    simp [LSMTree.SearchKey, New, searchKeyLevels, searchKeyLevel, mostRecent]
  | append_singleton ops op ih =>
    obtain ⟨l, hrun, hinv, hsearch⟩ := ih
    cases op with
    | add s =>
      obtain ⟨l2, hadd, hinv2, _, hs2⟩ := Add_spec p hF hM hinv s
      refine ⟨l2, ?_, hinv2, fun k => ?_⟩
      · rw [runOps_append, hrun]
        simp only [runOps, applyOp, hadd]
      · rw [hs2 k, mostRecent_append_singleton, hsearch k]
        by_cases hks : k = s
        · subst hks
          simp [Op.key]
        · have : ¬ s = k := fun hc => hks hc.symm
          simp [Op.key, hks, this]
    | delete s =>
      obtain ⟨l2, hdel, hinv2, _, hs2⟩ := Delete_spec p hF hM hinv s
      refine ⟨l2, ?_, hinv2, fun k => ?_⟩
      · rw [runOps_append, hrun]
        simp only [runOps, applyOp, hdel]
      · rw [hs2 k, mostRecent_append_singleton, hsearch k]
        by_cases hks : k = s
        · subst hks
          simp [Op.key]
        · have : ¬ s = k := fun hc => hks hc.symm
          simp [Op.key, hks, this]

end lsm_tree

namespace sstable

theorem Holds.read_ge {s : SSTable} {recs : List TableElement} (h : Holds s recs) (i : Nat)
    (hi : recs.length ≤ i) :
    tableElementFromFileRandom s.metaFile s.dataFile i = .error .eof := by
  have hdrop : s.metaFile.drop i = [] := by
    rw [h.1, List.drop_eq_nil_iff, metaEntries_length]
    exact hi
  have hneg : ¬ ((i : Int) < 0) := by omega
  simp [tableElementFromFileRandom, setDataFileOffset, setMetaFileOffset, hneg, hdrop,
    metaFromBytes]

/-- A record read by index from a run that holds `recs` is the record of `recs` at that
index. -/
theorem Holds.of_read {s : SSTable} {recs : List TableElement} (h : Holds s recs) {i : Int}
    {e : TableElement} (hr : tableElementFromFileRandom s.metaFile s.dataFile i = .ok e) :
    ∃ n : Nat, i = n ∧ recs[n]? = some e := by
  by_cases hneg : i < 0
  · rw [Holds.read_neg i hneg] at hr
    cases hr
  · refine ⟨i.toNat, by omega, ?_⟩
    have hcast : ((i.toNat : Nat) : Int) = i := Int.toNat_of_nonneg (by omega)
    by_cases hlt : i.toNat < recs.length
    · have := h.read i.toNat _ (List.getElem?_eq_getElem hlt)
      rw [hcast, hr] at this
      cases this
      exact List.getElem?_eq_getElem hlt
    · have := h.read_ge i.toNat (by omega)
      rw [hcast, hr] at this
      cases this

/-- Whatever the inputs, the second loop of `merge` leaves a run whose filter accepts the key
of every record it holds. -/
theorem mergeLoop_holds (fuel : Nat) :
    ∀ (s : SSTable) (queue : List mergeItem) (readers : List (List meta × List Byte))
      (lastInserted : Key) (offset : Int) (r0 : List TableElement) (s1 : SSTable),
      Holds s r0 → FilterHas s r0 → offset = (dataBytes r0).length →
      mergeLoop fuel s queue readers lastInserted offset = .ok s1 →
      ∃ out, Holds s1 out ∧ FilterHas s1 out := by
  induction fuel with
  | zero =>
    intro s queue readers lastInserted offset r0 s1 hh hf _ hrun
    cases queue with
    | nil =>
      simp only [mergeLoop] at hrun
      cases hrun
      exact ⟨r0, hh, hf⟩
    | cons it rest =>
      simp only [mergeLoop] at hrun
      cases hrun
  | succ fuel ih =>
    intro s queue readers lastInserted offset r0 s1 hh hf ho hrun
    rw [mergeLoop] at hrun
    cases hpop : heapPop queue with
    | none =>
      rw [hpop] at hrun
      simp only at hrun
      cases hrun
      exact ⟨r0, hh, hf⟩
    | some res =>
      obtain ⟨element, queue1⟩ := res
      rw [hpop] at hrun
      simp only at hrun
      have hw : ∃ r1,
          Holds (if offset = 0 ∨ lastInserted ≠ element.value.Value then
            s.writeElement element.value offset else (s, offset)).1 r1 ∧
          FilterHas (if offset = 0 ∨ lastInserted ≠ element.value.Value then
            s.writeElement element.value offset else (s, offset)).1 r1 ∧
          (if offset = 0 ∨ lastInserted ≠ element.value.Value then
            s.writeElement element.value offset else (s, offset)).2 = (dataBytes r1).length := by
        by_cases hc : offset = 0 ∨ lastInserted ≠ element.value.Value
        · simp only [if_pos hc]
          exact ⟨_, writeElement_spec element.value hh hf ho⟩
        · simp only [if_neg hc]
          exact ⟨r0, hh, hf, ho⟩
      obtain ⟨r1, hh1, hf1, ho1⟩ := hw
      split at hrun
      · cases hrun
      · split at hrun
        · exact ih _ _ _ _ _ r1 s1 hh1 hf1 ho1 hrun
        · cases hrun
        · exact ih _ _ _ _ _ r1 s1 hh1 hf1 ho1 hrun

/-- Every record that can be read from a run built by `sstable.New` has its key accepted by
the filter of the run. -/
theorem New_filter (p : Params) (tag : Nat) (tables : List SSTable) (s1 : SSTable)
    (h : New p tag tables = .ok s1) (i : Int) (e : TableElement)
    (hr : tableElementFromFileRandom s1.metaFile s1.dataFile i = .ok e) :
    s1.bloomFilter.CheckContains e.Value = true := by
  unfold New at h
  split at h
  · cases h
  · dsimp only at h
    split at h
    · cases h
    · unfold SSTable.merge at h
      split at h
      · cases h
      · obtain ⟨out, hh, hf⟩ := mergeLoop_holds _ _ _ _ _ _ [] s1 ⟨rfl, rfl, rfl⟩
          (fun e he => nomatch he) (by simp [dataBytes]) h
        obtain ⟨n, _, hn⟩ := hh.of_read hr
        exact hf e (List.mem_iff_getElem?.mpr ⟨n, hn⟩)

/-- Every record that can be read from a run built by `NewFromMap` has its key accepted by
the filter of the run. -/
theorem NewFromMap_filter (p : Params) (tag : Nat) (live removed : List Key) (i : Int)
    (e : TableElement)
    (hr : tableElementFromFileRandom (NewFromMap p tag live removed).metaFile
      (NewFromMap p tag live removed).dataFile i = .ok e) :
    (NewFromMap p tag live removed).bloomFilter.CheckContains e.Value = true := by
  obtain ⟨hh, hf⟩ := NewFromMap_holds p tag live removed
  obtain ⟨n, _, hn⟩ := hh.of_read hr
  exact hf e (List.mem_iff_getElem?.mpr ⟨n, hn⟩)

end sstable

namespace lsm_tree

open sstable

/-- The loop of `mergeSSTables` never touches the memory component. -/
theorem mergeSSTablesLoop_ram (p : Params) (fuel : Nat) :
    ∀ (level : Nat) (l l1 : LSMTree), mergeSSTablesLoop p fuel level l = .ok l1 →
      l1.ramComponent = l.ramComponent ∧ l1.ramComponentRemoved = l.ramComponentRemoved := by
  induction fuel with
  | zero =>
    intro level l l1 h
    rw [mergeSSTablesLoop] at h
    split at h
    · cases h
    · cases h
      exact ⟨rfl, rfl⟩
  | succ fuel ih =>
    intro level l l1 h
    rw [mergeSSTablesLoop] at h
    split at h
    · split at h
      · split at h
        · cases h
        · have := ih _ _ _ h
          exact this
      · exact ih _ _ _ h
    · cases h
      exact ⟨rfl, rfl⟩

end lsm_tree

namespace lsm_tree

open sstable

theorem length_mapSet_pos (m : List Key) (s : Key) : 0 < (mapSet m s).length :=
  List.length_pos_of_mem ((mem_mapSet m s s).mpr (Or.inl rfl))

/-- With `FirstLevelSize = 0` no call ever flushes. -/
theorem applyOp_no_flush (p : Params) (hF : p.FirstLevelSize = 0) (l l2 : LSMTree) (op : Op)
    (h : applyOp p l op = .ok l2) : l2.sstables = l.sstables := by
  cases op with
  | add s =>
    simp only [applyOp, LSMTree.Add] at h
    have := length_mapSet_pos l.ramComponent s
    rw [if_neg (by omega)] at h
    cases h
    rfl
  | delete s =>
    simp only [applyOp, LSMTree.Delete] at h
    have := length_mapSet_pos l.ramComponentRemoved s
    rw [if_neg (by omega)] at h
    cases h
    rfl

theorem runOps_no_flush (p : Params) (hF : p.FirstLevelSize = 0) (ops : List Op) :
    ∀ l l2 : LSMTree, runOps p l ops = .ok l2 → l2.sstables = l.sstables := by
  induction ops with
  | nil =>
    intro l l2 h
    cases h
    rfl
  | cons op rest ih =>
    intro l l2 h
    rw [runOps] at h
    cases hop : applyOp p l op with
    | error e =>
      rw [hop] at h
      cases h
    | ok l1 =>
      rw [hop] at h
      rw [ih l1 l2 h, applyOp_no_flush p hF l l1 op hop]

/-- A call that completes leaves the memory component a pair of disjoint sets below the flush
threshold. -/
theorem applyOp_memory (p : Params) (hF : 1 ≤ p.FirstLevelSize) (l l2 : LSMTree) (op : Op)
    (hl : l.ramComponent.Nodup) (hr : l.ramComponentRemoved.Nodup)
    (hd : ∀ k, k ∈ l.ramComponent → k ∉ l.ramComponentRemoved)
    (hb : l.ramComponent.length + l.ramComponentRemoved.length < p.FirstLevelSize)
    (h : applyOp p l op = .ok l2) :
    l2.ramComponent.Nodup ∧ l2.ramComponentRemoved.Nodup ∧
      (∀ k, k ∈ l2.ramComponent → k ∉ l2.ramComponentRemoved) ∧
      l2.ramComponent.length + l2.ramComponentRemoved.length < p.FirstLevelSize := by
  have hflush : ∀ l1 : LSMTree, l1.flushRAMComponent p = .ok l2 →
      l2.ramComponent = [] ∧ l2.ramComponentRemoved = [] := by
    intro l1 hf
    unfold LSMTree.flushRAMComponent at hf
    dsimp only at hf
    split at hf
    · cases hf
    · exact mergeSSTablesLoop_ram p _ _ _ _ hf
  have hempty : l2.ramComponent = [] ∧ l2.ramComponentRemoved = [] →
      l2.ramComponent.Nodup ∧ l2.ramComponentRemoved.Nodup ∧
      (∀ k, k ∈ l2.ramComponent → k ∉ l2.ramComponentRemoved) ∧
      l2.ramComponent.length + l2.ramComponentRemoved.length < p.FirstLevelSize := by
    rintro ⟨h1, h2⟩
    refine ⟨?_, ?_, ?_, ?_⟩
    · rw [h1]
      exact List.nodup_nil
    · rw [h2]
      exact List.nodup_nil
    · intro k hk
      rw [h1] at hk
      cases hk
    · rw [h1, h2]
      simp only [List.length_nil]
      omega
  cases op with
  | add s =>
    simp only [applyOp, LSMTree.Add] at h
    split at h
    · exact hempty (hflush _ h)
    · next hne =>
      cases h
      have h1 := length_mapSet_le l.ramComponent s
      have h2 := length_mapDelete_le l.ramComponentRemoved s
      refine ⟨nodup_mapSet hl s, nodup_mapDelete hr s, fun k hk hk2 => ?_, by simp only; omega⟩
      rw [mem_mapDelete hr] at hk2
      rcases (mem_mapSet _ _ _).mp hk with hks | hkm
      · exact hk2.1 hks
      · exact hd k hkm hk2.2
  | delete s =>
    simp only [applyOp, LSMTree.Delete] at h
    split at h
    · exact hempty (hflush _ h)
    · next hne =>
      cases h
      have h1 := length_mapSet_le l.ramComponentRemoved s
      have h2 := length_mapDelete_le l.ramComponent s
      refine ⟨nodup_mapDelete hl s, nodup_mapSet hr s, fun k hk hk2 => ?_, by simp only; omega⟩
      rw [mem_mapDelete hl] at hk
      rcases (mem_mapSet _ _ _).mp hk2 with hks | hkm
      · exact hk.1 hks
      · exact hd k hk.2 hkm

theorem runOps_memory (p : Params) (hF : 1 ≤ p.FirstLevelSize) (ops : List Op) :
    ∀ l l2 : LSMTree, l.ramComponent.Nodup → l.ramComponentRemoved.Nodup →
      (∀ k, k ∈ l.ramComponent → k ∉ l.ramComponentRemoved) →
      l.ramComponent.length + l.ramComponentRemoved.length < p.FirstLevelSize →
      runOps p l ops = .ok l2 →
      (∀ k, k ∈ l2.ramComponent → k ∉ l2.ramComponentRemoved) ∧
        l2.ramComponent.length + l2.ramComponentRemoved.length < p.FirstLevelSize := by
  induction ops with
  | nil =>
    intro l l2 _ _ hd hb h
    cases h
    exact ⟨hd, hb⟩
  | cons op rest ih =>
    intro l l2 hl hr hd hb h
    rw [runOps] at h
    cases hop : applyOp p l op with
    | error e =>
      rw [hop] at h
      cases h
    | ok l1 =>
      rw [hop] at h
      obtain ⟨h1, h2, h3, h4⟩ := applyOp_memory p hF l l1 op hl hr hd hb hop
      exact ih l1 l2 h1 h2 h3 h4 h

/-- The records of a run in good order, read by index. -/
theorem RunOK.records {s : SSTable} (h : RunOK s) :
    ∃ recs : List TableElement, recs.length = s.size ∧
      (∀ (i : Nat) (hi : i < recs.length),
        tableElementFromFileRandom s.metaFile s.dataFile i = .ok recs[i]) ∧
      recs.Pairwise (fun a b => a.Value < b.Value) := by
  obtain ⟨recs, ⟨hh, hs, _⟩, _⟩ := h
  exact ⟨recs, hh.2.2.symm, fun i hi => hh.read i _ (List.getElem?_eq_getElem hi), hs⟩

end lsm_tree

namespace sstable

/-- The position of the newest input that has the key of a record chosen by `newest`. -/
theorem newest_position {inputs : List (List TableElement)} {key : Key} {e : TableElement}
    (h : newest inputs key = some e) :
    ∃ (i : Nat) (r : List TableElement), inputs[i]? = some r ∧ e ∈ r ∧
      ∀ (j : Nat) (r1 : List TableElement), i < j → inputs[j]? = some r1 →
        key ∉ keysOf r1 := by
  induction inputs with
  | nil => cases h
  | cons r0 rest ih =>
    unfold newest at h
    split at h
    · next e1 h1 =>
      cases h
      obtain ⟨i, r, hi, he, hnew⟩ := ih h1
      refine ⟨i + 1, r, by simpa using hi, he, fun j r1 hj hr1 => ?_⟩
      cases j with
      | zero => omega
      | succ j => exact hnew j r1 (by omega) (by simpa using hr1)
    · next h1 =>
      refine ⟨0, r0, by simp, (findKey_some h).1, fun j r1 hj hr1 => ?_⟩
      cases j with
      | zero => omega
      | succ j =>
        intro hk
        obtain ⟨x, hx, hxk⟩ := List.mem_map.mp hk
        have hr1mem : r1 ∈ rest := List.mem_iff_getElem?.mpr ⟨j, by simpa using hr1⟩
        have hnone : newest rest key = none := h1
        clear ih h hr1 hj
        induction rest with
        | nil => cases hr1mem
        | cons r2 rest2 ih2 =>
          unfold newest at hnone
          split at hnone
          · cases hnone
          · next h2 =>
            rcases List.mem_cons.mp hr1mem with rfl | hmem
            · exact findKey_none hnone x hx hxk
            · exact ih2 h2 hmem h2

end sstable

namespace sstable

/-- The binary-search loops of `SearchRange` end, within their fuel, at the last index whose
key passes the test, when the keys that pass come before the keys that fail. -/
theorem searchBoundLoop_spec {s : SSTable} {recs : List TableElement} (h : Holds s recs)
    (goRight : Key → Bool) (fuel : Nat) :
    ∀ left right : Int, -1 ≤ left → left < right → right ≤ recs.length →
      right - left ≤ fuel + 1 →
      (∀ (i : Nat) (e : TableElement), (i : Int) ≤ left → recs[i]? = some e →
        goRight e.Value = true) →
      (∀ (i : Nat) (e : TableElement), right ≤ (i : Int) → recs[i]? = some e →
        goRight e.Value = false) →
      (∀ (i j : Nat) (a b : TableElement), recs[i]? = some a → recs[j]? = some b → i ≤ j →
        goRight b.Value = true → goRight a.Value = true) →
      ∃ L : Int, searchBoundLoop s goRight fuel left right = .ok L ∧ -1 ≤ L ∧
        L < recs.length ∧
        (∀ (i : Nat) (e : TableElement), (i : Int) ≤ L → recs[i]? = some e →
          goRight e.Value = true) ∧
        (∀ (i : Nat) (e : TableElement), L < (i : Int) → recs[i]? = some e →
          goRight e.Value = false) := by
  induction fuel with
  | zero =>
    intro left right h0 hlr hr hf hlo hhi _
    have hexit : ¬ (right - left > 1) := by omega
    refine ⟨left, by rw [searchBoundLoop, if_neg hexit], h0, by omega, hlo, ?_⟩
    intro i e hi he
    exact hhi i e (by omega) he
  | succ fuel ih =>
    intro left right h0 hlr hr hf hlo hhi hmono
    rw [searchBoundLoop]
    by_cases hgo : right - left > 1
    · rw [if_pos hgo]
      obtain ⟨hm1, hm2, hm3⟩ := mid_bounds left right h0 hgo
      generalize (left + right).tdiv 2 = mid at hm1 hm2 hm3
      have hmn : mid.toNat < recs.length := by omega
      have hcast : ((mid.toNat : Nat) : Int) = mid := Int.toNat_of_nonneg hm3
      have hget : recs[mid.toNat]? = some recs[mid.toNat] := List.getElem?_eq_getElem hmn
      have hread := h.read mid.toNat _ hget
      rw [hcast] at hread
      simp only [hread]
      by_cases hp : goRight recs[mid.toNat].Value = true
      · rw [if_pos hp]
        apply ih mid right (by omega) hm2 hr (by omega) _ hhi hmono
        intro i e hi he
        exact hmono i mid.toNat e _ he hget (by omega) hp
      · rw [if_neg hp]
        apply ih left mid h0 hm1 (by omega) (by omega) hlo _ hmono
        intro i e hi he
        by_contra hc
        exact hp (hmono mid.toNat i _ e hget he (by omega) (by simpa using hc))
    · rw [if_neg hgo]
      refine ⟨left, rfl, h0, by omega, hlo, ?_⟩
      intro i e hi he
      exact hhi i e (by omega) he

/-- The two bounds that `SearchRange` computes on a run with strictly increasing keys: `L` is
the last index whose key is below `keyL` and `R` the last index whose key is at most `keyR`
(`-1` when there is none). -/
theorem searchRange_bounds {s : SSTable} {recs : List TableElement} (h : Holds s recs)
    (hs : StrictKeys recs) (keyL keyR : Key) :
    ∃ L R : Int,
      searchBoundLoop s (fun k => decide (k < keyL)) (s.size + 1) (-1) s.size = .ok L ∧
      searchBoundLoop s (fun k => decide (k ≤ keyR)) (s.size + 1) (-1) s.size = .ok R ∧
      -1 ≤ L ∧ L < recs.length ∧ -1 ≤ R ∧ R < recs.length ∧
      (∀ (i : Nat) (e : TableElement), recs[i]? = some e → ((i : Int) ≤ L ↔ e.Value < keyL)) ∧
      (∀ (i : Nat) (e : TableElement), recs[i]? = some e → ((i : Int) ≤ R ↔ e.Value ≤ keyR)) := by
  have hsize : (s.size : Int) = recs.length := by rw [h.2.2]
  have hbeyond : ∀ (g : Key → Bool) (i : Nat) (e : TableElement), (s.size : Int) ≤ (i : Int) →
      recs[i]? = some e → g e.Value = false := by
    intro g i e hi he
    have := (List.getElem?_eq_some.mp he).1
    omega
  obtain ⟨L, hL, hL0, hL1, hLlo, hLhi⟩ :=
    searchBoundLoop_spec h (fun k => decide (k < keyL)) (s.size + 1) (-1) s.size (le_refl _)
      (by omega) (by omega) (by omega) (fun i e hi _ => by omega)
      (hbeyond (fun k => decide (k < keyL)))
      (fun i j a b ha hb hij hp => by
        simp only [decide_eq_true_eq] at hp ⊢
        exact lt_of_le_of_lt (hs.le_of_le ha hb hij) hp)
  obtain ⟨R, hR, hR0, hR1, hRlo, hRhi⟩ :=
    searchBoundLoop_spec h (fun k => decide (k ≤ keyR)) (s.size + 1) (-1) s.size (le_refl _)
      (by omega) (by omega) (by omega) (fun i e hi _ => by omega)
      (hbeyond (fun k => decide (k ≤ keyR)))
      (fun i j a b ha hb hij hp => by
        simp only [decide_eq_true_eq] at hp ⊢
        exact le_trans (hs.le_of_le ha hb hij) hp)
  refine ⟨L, R, hL, hR, hL0, hL1, hR0, hR1, fun i e he => ⟨fun hi => ?_, fun hk => ?_⟩,
    fun i e he => ⟨fun hi => ?_, fun hk => ?_⟩⟩
  · simpa using hLlo i e hi he
  · by_contra hc
    have := hLhi i e (by omega) he
    simp only [decide_eq_false_iff_not] at this
    exact this hk
  · simpa using hRlo i e hi he
  · by_contra hc
    have := hRhi i e (by omega) he
    simp only [decide_eq_false_iff_not] at this
    exact this hk

/-- On a run with strictly increasing keys none of which is below `keyL`, `SearchRange` fails
with the seek error: the lower bound is `-1`. -/
theorem SearchRange_fails_of_no_key_below {s : SSTable} {recs : List TableElement}
    (h : Holds s recs) (hs : StrictKeys recs) (keyL keyR : Key)
    (hlow : ∀ e ∈ recs, keyL ≤ e.Value) :
    s.SearchRange keyL keyR = .error .fileSeeking := by
  obtain ⟨L, R, hL, hR, hL0, _, _, _, hLiff, _⟩ := searchRange_bounds h hs keyL keyR
  have hLneg : L = -1 := by
    by_contra hc
    have hnn : 0 ≤ L := by omega
    have hlt : L.toNat < recs.length := by omega
    have hget := List.getElem?_eq_getElem hlt
    have := (hLiff L.toNat _ hget).mp (by omega)
    exact absurd this (not_lt.mpr (hlow _ (List.getElem_mem hlt)))
  unfold SSTable.SearchRange
  rw [hL, hR]
  simp only [hLneg, setDataFileOffset_neg _ _ (-1) true (by omega)]

/-- On a run with strictly increasing keys one of which is below `keyL`, `SearchRange keyL keyR`
with `keyL ≤ keyR` returns the records from the last key below `keyL` to the last key that is
at most `keyR`. -/
theorem SearchRange_of_key_below {s : SSTable} {recs : List TableElement}
    (h : Holds s recs) (hs : StrictKeys recs) (keyL keyR : Key) (hle : keyL ≤ keyR)
    (hlow : ∃ e ∈ recs, e.Value < keyL) :
    ∃ L R : Nat, L ≤ R ∧ R < recs.length ∧
      (∀ (i : Nat) (e : TableElement), recs[i]? = some e → (i ≤ L ↔ e.Value < keyL)) ∧
      (∀ (i : Nat) (e : TableElement), recs[i]? = some e → (i ≤ R ↔ e.Value ≤ keyR)) ∧
      s.SearchRange keyL keyR = .ok ((recs.drop L).take (R - L + 1)) := by
  obtain ⟨L, R, hL, hR, hL0, hL1, hR0, hR1, hLiff, hRiff⟩ := searchRange_bounds h hs keyL keyR
  obtain ⟨e0, he0, he0lt⟩ := hlow
  obtain ⟨i0, hi0⟩ := List.mem_iff_getElem?.mp he0
  have hLnn : 0 ≤ L := by
    have := (hLiff i0 e0 hi0).mpr he0lt
    omega
  have hLlt : L.toNat < recs.length := by omega
  have hLR : L ≤ R := by
    have hget := List.getElem?_eq_getElem hLlt
    have h1 := (hLiff L.toNat _ hget).mp (by omega)
    have h2 := (hRiff L.toNat _ hget).mpr (le_trans (le_of_lt h1) hle)
    omega
  refine ⟨L.toNat, R.toNat, by omega, by omega, fun i e he => ?_, fun i e he => ?_, ?_⟩
  · rw [← hLiff i e he]
    omega
  · rw [← hRiff i e he]
    omega
  · unfold SSTable.SearchRange
    rw [hL, hR]
    obtain ⟨m, o, hseek⟩ := h.seek L.toNat hLlt
    have hcast : ((L.toNat : Nat) : Int) = L := Int.toNat_of_nonneg hLnn
    rw [hcast] at hseek
    simp only [hseek]
    rw [if_neg (by omega)]
    have hn : (R - L + 1).toNat = R.toNat - L.toNat + 1 := by omega
    rw [hn]
    apply readConsecutive_take
    rw [List.length_drop]
    omega

end sstable

namespace lsm_tree

open sstable

/-- The run that a flush builds from disjoint sets of live and removed keys answers every range
query whose lower bound is at most its smallest key with the seek error. -/
theorem NewFromMap_SearchRange_fails (p : Params) (tag : Nat) {live removed : List Key}
    (hl : live.Nodup) (hr : removed.Nodup) (hd : ∀ k, k ∈ live → k ∉ removed)
    (keyL keyR : Key) (hmin : ∀ k, k ∈ live ∨ k ∈ removed → keyL ≤ k) :
    (NewFromMap p tag live removed).SearchRange keyL keyR = .error .fileSeeking := by
  obtain ⟨recs, hrec, _, hmem⟩ := NewFromMap_runRecs p tag hl hr hd
  apply SearchRange_fails_of_no_key_below hrec.1 hrec.2.1 keyL keyR
  intro e he
  rcases (hmem e).mp he with ⟨_, h⟩ | ⟨_, h⟩
  · exact hmin _ (Or.inl h)
  · exact hmin _ (Or.inr h)

end lsm_tree

namespace sstable

theorem Less_true_iff (a b : mergeItem) :
    priorityQueue.Less a b = true ↔
      a.value.Value < b.value.Value ∨
        (a.value.Value = b.value.Value ∧ a.readerIdx > b.readerIdx) := by
  unfold priorityQueue.Less
  by_cases h1 : a.value.Value < b.value.Value
  · simp [h1]
  · simp [h1]

theorem Less_trans {a b c : mergeItem} (h1 : priorityQueue.Less a b = true)
    (h2 : priorityQueue.Less b c = true) : priorityQueue.Less a c = true := by
  rw [Less_true_iff] at h1 h2 ⊢
  rcases h1 with h1 | ⟨h1, h1i⟩
  · rcases h2 with h2 | ⟨h2, _⟩
    · exact Or.inl (lt_trans h1 h2)
    · exact Or.inl (h2 ▸ h1)
  · rcases h2 with h2 | ⟨h2, h2i⟩
    · exact Or.inl (h1 ▸ h2)
    · exact Or.inr ⟨h1.trans h2, by omega⟩

theorem Less_total {a b : mergeItem}
    (h : a.value.Value ≠ b.value.Value ∨ a.readerIdx ≠ b.readerIdx) :
    priorityQueue.Less a b = true ∨ priorityQueue.Less b a = true := by
  rw [Less_true_iff, Less_true_iff]
  rcases lt_trichotomy a.value.Value b.value.Value with hlt | heq | hgt
  · exact Or.inl (Or.inl hlt)
  · rcases h with h | h
    · exact absurd heq h
    · rcases Nat.lt_or_gt_of_ne h with hi | hi
      · exact Or.inr (Or.inr ⟨heq.symm, hi⟩)
      · exact Or.inl (Or.inr ⟨heq, hi⟩)
  · exact Or.inr (Or.inl hgt)

/-- The binary-search loops of `SearchRange` return an index within their fuel whatever the
keys of the run are. -/
theorem searchBoundLoop_ok {s : SSTable} {recs : List TableElement} (h : Holds s recs)
    (goRight : Key → Bool) (fuel : Nat) :
    ∀ left right : Int, -1 ≤ left → left < right → right ≤ recs.length →
      right - left ≤ fuel + 1 →
      ∃ L : Int, searchBoundLoop s goRight fuel left right = .ok L ∧ left ≤ L ∧ L < right := by
  induction fuel with
  | zero =>
    intro left right h0 hlr hr hf
    have hexit : ¬ (right - left > 1) := by omega
    exact ⟨left, by rw [searchBoundLoop, if_neg hexit], le_refl _, hlr⟩
  | succ fuel ih =>
    intro left right h0 hlr hr hf
    rw [searchBoundLoop]
    by_cases hgo : right - left > 1
    · rw [if_pos hgo]
      obtain ⟨hm1, hm2, hm3⟩ := mid_bounds left right h0 hgo
      generalize (left + right).tdiv 2 = mid at hm1 hm2 hm3
      have hmn : mid.toNat < recs.length := by omega
      have hcast : ((mid.toNat : Nat) : Int) = mid := Int.toNat_of_nonneg hm3
      have hread := h.read mid.toNat _ (List.getElem?_eq_getElem hmn)
      rw [hcast] at hread
      simp only [hread]
      by_cases hp : goRight recs[mid.toNat].Value = true
      · rw [if_pos hp]
        obtain ⟨L, hL, h1, h2⟩ := ih mid right (by omega) hm2 hr (by omega)
        exact ⟨L, hL, by omega, h2⟩
      · rw [if_neg hp]
        obtain ⟨L, hL, h1, h2⟩ := ih left mid h0 hm1 (by omega) (by omega)
        exact ⟨L, hL, h1, by omega⟩
    · rw [if_neg hgo]
      exact ⟨left, rfl, le_refl _, hlr⟩

/-- With no key below `keyL` the first binary search of `SearchRange` ends at `-1`, whatever
the order of the keys. -/
theorem searchBoundLoop_none_below {s : SSTable} {recs : List TableElement} (h : Holds s recs)
    (keyL : Key) (hlow : ∀ e ∈ recs, ¬ e.Value < keyL) :
    searchBoundLoop s (fun k => decide (k < keyL)) (s.size + 1) (-1) s.size = .ok (-1) := by
  have hsize : (s.size : Int) = recs.length := by rw [h.2.2]
  obtain ⟨L, hL, hL0, _, hLlo, _⟩ :=
    searchBoundLoop_spec h (fun k => decide (k < keyL)) (s.size + 1) (-1) s.size (le_refl _)
      (by omega) (by omega) (by omega) (fun i e hi _ => by omega)
      (fun i e hi he => by
        have := (List.getElem?_eq_some.mp he).1
        omega)
      (fun i j a b _ hb _ hp => by
        simp only [decide_eq_true_eq] at hp
        exact absurd hp (hlow b (List.mem_iff_getElem?.mpr ⟨j, hb⟩)))
  have hLneg : L = -1 := by
    by_contra hc
    have hnn : 0 ≤ L := by omega
    obtain ⟨L2, hL2, _, hr2⟩ := searchBoundLoop_ok h (fun k => decide (k < keyL)) (s.size + 1)
      (-1) s.size (le_refl _) (by omega) (by omega) (by omega)
    rw [hL] at hL2
    cases hL2
    have hlt : L.toNat < recs.length := by omega
    have := hLlo L.toNat _ (by omega) (List.getElem?_eq_getElem hlt)
    simp only [decide_eq_true_eq] at this
    exact hlow _ (List.getElem_mem hlt) this
  rw [hL, hLneg]

end sstable

namespace sstable

theorem int64ToBytes_length (v : Int) : (int64ToBytes v).length = 8 := rfl

theorem meta_toBytes_length (m : meta) : m.toBytes.length = 16 := rfl

theorem byte_val (n : Nat) : (Fin.ofNat n : Byte).val = n % 256 := rfl

theorem bytes_sum (u : Nat) (hu : u < 18446744073709551616) :
    u % 256 + 256 * (u / 256 % 256 + 256 * (u / 65536 % 256 + 256 *
      (u / 16777216 % 256 + 256 * (u / 4294967296 % 256 + 256 * (u / 1099511627776 % 256 +
      256 * (u / 281474976710656 % 256 + 256 * (u / 72057594037927936 % 256 + 256 * 0))))))) =
      u := by
  omega

theorem int64FromBytes_toBytes (v : Int) (h1 : -9223372036854775808 ≤ v)
    (h2 : v < 9223372036854775808) : int64FromBytes (int64ToBytes v) = v := by
  have hpow : (2 : Int) ^ 64 = 18446744073709551616 := by norm_num
  have hpow63 : (2 : Nat) ^ 63 = 9223372036854775808 := by norm_num
  have hnn : 0 ≤ v % 18446744073709551616 := Int.emod_nonneg _ (by omega)
  have hlt : v % 18446744073709551616 < 18446744073709551616 := Int.emod_lt_of_pos _ (by omega)
  have hu : (v % 18446744073709551616).toNat < 18446744073709551616 := by omega
  have hsum := bytes_sum _ hu
  simp only [int64FromBytes, int64ToBytes, List.foldr, byte_val, hpow, hpow63, Nat.reducePow]
  rw [hsum]
  split <;> omega

end sstable

namespace sstable

theorem readInt64_toBytes (v : Int) (h1 : -2 ^ 63 ≤ v) (h2 : v < 2 ^ 63) (rest : List Byte) :
    readInt64 (int64ToBytes v ++ rest) = .ok (v, rest) := by
  unfold readInt64
  have hlen : (int64ToBytes v ++ rest).length = 8 + rest.length := by
    rw [List.length_append, int64ToBytes_length]
  rw [if_neg (by omega), if_neg (by omega)]
  have ht : (int64ToBytes v ++ rest).take 8 = int64ToBytes v := by
    rw [← int64ToBytes_length v, List.take_left]
  have hd : (int64ToBytes v ++ rest).drop 8 = rest := by
    rw [← int64ToBytes_length v, List.drop_left]
  rw [ht, hd, int64FromBytes_toBytes v (by norm_num at h1; exact h1) (by norm_num at h2; exact h2)]

/-- Decoding the sixteen bytes of an entry gives the entry back. -/
theorem raw_metaFromBytes_toBytes (m : meta) (hm : m.InRange) (rest : List Byte) :
    raw.metaFromBytes (m.toBytes ++ rest) = .ok (m, rest) := by
  obtain ⟨h1, h2, h3, h4⟩ := hm
  unfold raw.metaFromBytes meta.toBytes
  rw [List.append_assoc, readInt64_toBytes _ h1 h2]
  simp only [readInt64_toBytes _ h3 h4]

theorem raw_metaFromBytes_nil : raw.metaFromBytes [] = .error .eof := rfl

theorem metaFileBytes_drop (metaFile : List meta) (i : Nat) :
    (metaFileBytes metaFile).drop (16 * i) = metaFileBytes (metaFile.drop i) := by
  induction i generalizing metaFile with
  | zero => simp
  | succ i ih =>
    cases metaFile with
    | nil => simp [metaFileBytes]
    | cons m rest =>
      have h16 : 16 * (i + 1) = m.toBytes.length + 16 * i := by
        rw [meta_toBytes_length]
        omega
      rw [metaFileBytes, h16, List.drop_append, List.drop_succ_cons, ih]

/-- On an index file whose entries are `int64` pairs, `setDataFileOffset` on the bytes does what
`setDataFileOffset` on the entries does. -/
theorem raw_setDataFileOffset_eq (metaFile : List meta) (hm : ∀ m ∈ metaFile, m.InRange)
    (dataFile : List Byte) (elementIdx : Int) (flag : Bool) :
    raw.setDataFileOffset (metaFileBytes metaFile) dataFile elementIdx flag =
      match setDataFileOffset metaFile dataFile elementIdx flag with
      | .error e => .error e
      | .ok (elementMeta, metaReader, dataReader) =>
        .ok (elementMeta, metaFileBytes metaReader, dataReader) := by
  unfold raw.setDataFileOffset raw.setMetaFileOffset setDataFileOffset setMetaFileOffset
  by_cases hneg : elementIdx < 0
  · have h16 : elementIdx * 16 < 0 := by omega
    simp only [h16, hneg, if_true]
  · have h16 : ¬ elementIdx * 16 < 0 := by omega
    have hnat : (elementIdx * 16).toNat = 16 * elementIdx.toNat := by omega
    simp only [h16, hneg, if_false, hnat, metaFileBytes_drop]
    cases hdrop : metaFile.drop elementIdx.toNat with
    | nil => simp only [metaFileBytes, raw_metaFromBytes_nil, metaFromBytes]
    | cons m rest =>
      have hmem : m ∈ metaFile :=
        List.mem_of_mem_drop (by rw [hdrop]; exact List.mem_cons_self _ _)
      simp only [metaFileBytes, raw_metaFromBytes_toBytes m (hm m hmem), metaFromBytes]
      by_cases hoff : m.offset < 0
      · simp only [hoff, if_true]
      · simp only [hoff, if_false]
        cases flag <;> simp [metaFileBytes]

/-- On an index file whose entries are `int64` pairs, reading by index from the bytes gives what
reading by index from the entries gives. -/
theorem raw_tableElementFromFileRandom_eq (metaFile : List meta)
    (hm : ∀ m ∈ metaFile, m.InRange) (dataFile : List Byte) (elementIdx : Int) :
    raw.tableElementFromFileRandom (metaFileBytes metaFile) dataFile elementIdx =
      tableElementFromFileRandom metaFile dataFile elementIdx := by
  unfold raw.tableElementFromFileRandom tableElementFromFileRandom
  rw [raw_setDataFileOffset_eq metaFile hm]
  cases setDataFileOffset metaFile dataFile elementIdx false with
  | error e => rfl
  | ok r => rfl

theorem dataBytes_length (recs : List TableElement) :
    ((dataBytes recs).length : Int) = offsetAfter recs := by
  induction recs with
  | nil => rfl
  | cons e rest ih =>
    simp only [dataBytes, List.length_append, toBytes_length, offsetAfter, List.map_cons,
      List.sum_cons] at ih ⊢
    push_cast
    rw [ih]

theorem offsetAfter_nonneg (recs : List TableElement) : 0 ≤ offsetAfter recs := by
  rw [← dataBytes_length]
  omega

theorem offsetAfter_append (a b : List TableElement) :
    offsetAfter (a ++ b) = offsetAfter a + offsetAfter b := by
  rw [← dataBytes_length, ← dataBytes_length, ← dataBytes_length, dataBytes_append,
    List.length_append]
  push_cast
  rfl

theorem offsetAfter_cons (e : TableElement) (b : List TableElement) :
    offsetAfter (e :: b) = ((e.Value.length : Int) + 1) + offsetAfter b := by
  rw [← dataBytes_length, ← dataBytes_length, dataBytes, List.length_append, toBytes_length]
  push_cast
  rfl

/-- The entry at index `i` of the index file of the records `a ++ e :: b`. -/
theorem metaEntries_getElem? (a : List TableElement) (e : TableElement)
    (b : List TableElement) :
    (metaEntries 0 (a ++ e :: b))[a.length]? =
      some { offset := offsetAfter a, length := e.Value.length } := by
  rw [metaEntries_append, List.getElem?_append_right (by rw [metaEntries_length]),
    metaEntries_length, Nat.sub_self, zero_add, dataBytes_length]
  simp [metaEntries]

/-- The entries of an index file are `int64` pairs when the data file is shorter than `2^63`
bytes. -/
theorem metaEntries_inRange (recs : List TableElement)
    (hsize : ((dataBytes recs).length : Int) < 2 ^ 63) :
    ∀ m ∈ metaEntries 0 recs, m.InRange := by
  intro m hm
  obtain ⟨i, hi⟩ := List.mem_iff_getElem?.mp hm
  have hilt : i < recs.length := by
    have := (List.getElem?_eq_some.mp hi).1
    rwa [metaEntries_length] at this
  have hsplit : recs = recs.take i ++ recs[i] :: recs.drop (i + 1) := by
    rw [← List.drop_eq_getElem_cons hilt, List.take_append_drop]
  have hlen : (recs.take i).length = i := by
    rw [List.length_take]
    omega
  have hentry := metaEntries_getElem? (recs.take i) recs[i] (recs.drop (i + 1))
  rw [← hsplit, hlen, hi] at hentry
  cases hentry
  have htotal : offsetAfter recs =
      offsetAfter (recs.take i) + (((recs[i].Value.length : Int) + 1) +
        offsetAfter (recs.drop (i + 1))) := by
    conv_lhs => rw [hsplit]
    rw [offsetAfter_append, offsetAfter_cons]
  have h1 := offsetAfter_nonneg (recs.take i)
  have h2 := offsetAfter_nonneg (recs.drop (i + 1))
  rw [dataBytes_length] at hsize
  norm_num at hsize
  refine ⟨?_, ?_, ?_, ?_⟩ <;> norm_num <;> omega

end sstable

namespace sstable

theorem mergeLoop_tag (fuel : Nat) :
    ∀ (s : SSTable) (queue : List mergeItem) (readers : List (List meta × List Byte))
      (lastInserted : Key) (offset : Int) (s1 : SSTable),
      mergeLoop fuel s queue readers lastInserted offset = .ok s1 → s1.tag = s.tag := by
  induction fuel with
  | zero =>
    intro s queue readers lastInserted offset s1 hrun
    cases queue with
    | nil =>
      simp only [mergeLoop] at hrun
      cases hrun
      rfl
    | cons it rest =>
      simp only [mergeLoop] at hrun
      cases hrun
  | succ fuel ih =>
    intro s queue readers lastInserted offset s1 hrun
    rw [mergeLoop] at hrun
    cases hpop : heapPop queue with
    | none =>
      rw [hpop] at hrun
      simp only at hrun
      cases hrun
      rfl
    | some res =>
      obtain ⟨element, queue1⟩ := res
      rw [hpop] at hrun
      simp only at hrun
      have hw : (if offset = 0 ∨ lastInserted ≠ element.value.Value then
          s.writeElement element.value offset else (s, offset)).1.tag = s.tag := by
        split <;> rfl
      split at hrun
      · cases hrun
      · split at hrun
        · exact (ih _ _ _ _ _ s1 hrun).trans hw
        · cases hrun
        · exact (ih _ _ _ _ _ s1 hrun).trans hw

/-- A run built by `sstable.New` carries the tag it was given. -/
theorem New_tag (p : Params) (tag : Nat) (tables : List SSTable) (s1 : SSTable)
    (h : New p tag tables = .ok s1) : s1.tag = tag := by
  unfold New at h
  split at h
  · cases h
  · dsimp only at h
    split at h
    · cases h
    · unfold SSTable.merge at h
      split at h
      · cases h
      · exact mergeLoop_tag _ _ _ _ _ _ s1 h

/-- A run built by `NewFromMap` carries the tag it was given. -/
theorem NewFromMap_tag (p : Params) (tag : Nat) (live removed : List Key) :
    (NewFromMap p tag live removed).tag = tag := by
  unfold NewFromMap
  exact writeElements_tag _ _ _

end sstable

namespace lsm_tree

open sstable

/-- Dropping the list of created runs from the instrumented loop gives the loop of
`mergeSSTables`. -/
theorem mergeSSTablesLoopLog_erase (p : Params) (fuel : Nat) :
    ∀ (level : Nat) (l : LSMTree) (created : List SSTable),
      (match mergeSSTablesLoopLog p fuel level l created with
        | .error e => .error e
        | .ok r => .ok r.1) = mergeSSTablesLoop p fuel level l := by
  induction fuel with
  | zero =>
    intro level l created
    rw [mergeSSTablesLoopLog, mergeSSTablesLoop]
    by_cases h1 : level < l.sstables.length
    · rw [if_pos h1, if_pos h1]
    · rw [if_neg h1, if_neg h1]
  | succ fuel ih =>
    intro level l created
    rw [mergeSSTablesLoopLog, mergeSSTablesLoop]
    by_cases h1 : level < l.sstables.length
    · rw [if_pos h1, if_pos h1]
      by_cases h2 : (l.sstables.getD level []).length = p.MaxLevelSize
      · rw [if_pos h2, if_pos h2]
        cases sstable.New p l.fileCnt (l.sstables.getD level []) with
        | error e => rfl
        | ok newSSTable => exact ih _ _ _
      · rw [if_neg h2, if_neg h2]
        exact ih _ _ _
    · rw [if_neg h1, if_neg h1]

/-- The runs created by the loop of `mergeSSTables` get the successive values of `fileCnt`. -/
theorem mergeSSTablesLoopLog_tags (p : Params) (fuel : Nat) :
    ∀ (level : Nat) (l : LSMTree) (created : List SSTable) (l1 : LSMTree)
      (created1 : List SSTable),
      created.map (fun s => s.tag) = List.range l.fileCnt →
      mergeSSTablesLoopLog p fuel level l created = .ok (l1, created1) →
      created1.map (fun s => s.tag) = List.range l1.fileCnt := by
  induction fuel with
  | zero =>
    intro level l created l1 created1 hc h
    rw [mergeSSTablesLoopLog] at h
    split at h
    · cases h
    · cases h
      exact hc
  | succ fuel ih =>
    intro level l created l1 created1 hc h
    rw [mergeSSTablesLoopLog] at h
    split at h
    · split at h
      · cases hnew : sstable.New p l.fileCnt (l.sstables.getD level []) with
        | error e =>
          rw [hnew] at h
          cases h
        | ok newSSTable =>
          rw [hnew] at h
          refine ih _ _ _ l1 created1 ?_ h
          rw [List.map_append, hc, List.map_singleton, New_tag p _ _ _ hnew, List.range_succ]
      · exact ih _ _ _ l1 created1 hc h
    · cases h
      exact hc

theorem flushRAMComponentLog_erase (p : Params) (l : LSMTree) (created : List SSTable) :
    (match l.flushRAMComponentLog p created with
      | .error e => .error e
      | .ok r => .ok r.1) = l.flushRAMComponent p := by
  unfold LSMTree.flushRAMComponentLog LSMTree.flushRAMComponent LSMTree.mergeSSTables
  cases l.sstables with
  | nil => rfl
  | cons level0 rest => exact mergeSSTablesLoopLog_erase p _ _ _ _

theorem applyOpLog_erase (p : Params) (l : LSMTree) (created : List SSTable) (op : Op) :
    (match applyOpLog p l created op with
      | .error e => .error e
      | .ok r => .ok r.1) = applyOp p l op := by
  cases op with
  | add s =>
    simp only [applyOpLog, applyOp, LSMTree.Add]
    by_cases hfull : (mapSet l.ramComponent s).length +
        (mapDelete l.ramComponentRemoved s).length = p.FirstLevelSize
    · rw [if_pos hfull, if_pos hfull]
      exact flushRAMComponentLog_erase p _ created
    · rw [if_neg hfull, if_neg hfull]
  | delete s =>
    simp only [applyOpLog, applyOp, LSMTree.Delete]
    by_cases hfull : (mapDelete l.ramComponent s).length +
        (mapSet l.ramComponentRemoved s).length = p.FirstLevelSize
    · rw [if_pos hfull, if_pos hfull]
      exact flushRAMComponentLog_erase p _ created
    · rw [if_neg hfull, if_neg hfull]

theorem flushRAMComponentLog_tags (p : Params) (l : LSMTree) (created : List SSTable)
    (l1 : LSMTree) (created1 : List SSTable)
    (hc : created.map (fun s => s.tag) = List.range l.fileCnt)
    (h : l.flushRAMComponentLog p created = .ok (l1, created1)) :
    created1.map (fun s => s.tag) = List.range l1.fileCnt := by
  unfold LSMTree.flushRAMComponentLog at h
  dsimp only at h
  split at h
  · cases h
  · refine mergeSSTablesLoopLog_tags p _ _ _ _ l1 created1 ?_ h
    rw [List.map_append, hc, List.map_singleton, NewFromMap_tag, List.range_succ]

theorem applyOpLog_tags (p : Params) (l : LSMTree) (created : List SSTable) (op : Op)
    (l1 : LSMTree) (created1 : List SSTable)
    (hc : created.map (fun s => s.tag) = List.range l.fileCnt)
    (h : applyOpLog p l created op = .ok (l1, created1)) :
    created1.map (fun s => s.tag) = List.range l1.fileCnt := by
  cases op with
  | add s =>
    simp only [applyOpLog] at h
    split at h
    · have := flushRAMComponentLog_tags p _ created l1 created1 (by exact hc) h
      exact this
    · cases h
      exact hc
  | delete s =>
    simp only [applyOpLog] at h
    split at h
    · have := flushRAMComponentLog_tags p _ created l1 created1 (by exact hc) h
      exact this
    · cases h
      exact hc

/-- The instrumented calls reach the tree that the calls reach, and the runs they have created
carry the tags `0, 1, 2, ...` in the order of creation. -/
theorem runOpsLog_spec (p : Params) (ops : List Op) :
    ∀ (l : LSMTree) (created : List SSTable) (l1 : LSMTree),
      created.map (fun s => s.tag) = List.range l.fileCnt →
      runOps p l ops = .ok l1 →
      ∃ created1, runOpsLog p l created ops = .ok (l1, created1) ∧
        created1.map (fun s => s.tag) = List.range l1.fileCnt := by
  induction ops with
  | nil =>
    intro l created l1 hc h
    cases h
    exact ⟨created, rfl, hc⟩
  | cons op rest ih =>
    intro l created l1 hc h
    rw [runOps] at h
    have herase := applyOpLog_erase p l created op
    cases hlog : applyOpLog p l created op with
    | error e =>
      rw [hlog] at herase
      rw [← herase] at h
      cases h
    | ok r =>
      obtain ⟨l2, created2⟩ := r
      rw [hlog] at herase
      rw [← herase] at h
      obtain ⟨created1, hrun, htags⟩ :=
        ih l2 created2 l1 (applyOpLog_tags p l created op l2 created2 hc hlog) h
      exact ⟨created1, by rw [runOpsLog, hlog]; exact hrun, htags⟩

end lsm_tree

namespace bloom_filter

theorem foldl_index_mem_iff (hs : List (List Byte → Nat)) (x : List Byte) (f : List Nat)
    (i : Nat) :
    i ∈ hs.foldl (fun f h => indexFromHash (h x) :: f) f ↔
      i ∈ f ∨ ∃ h ∈ hs, i = indexFromHash (h x) := by
  induction hs generalizing f with
  | nil => simp
  | cons g hs ih =>
    rw [List.foldl_cons, ih]
    simp only [List.mem_cons, exists_eq_or_imp]
    tauto

/-- With `k ≥ 1` copies of the FNV-1a hash, `Add` sets the one bit of the key. -/
theorem Add_filter_replicate (k : Nat) (hk : 1 ≤ k) (b : bloomFilter)
    (hb : b.hashFuncs = List.replicate k fnv64a) (key : List Byte) (i : Nat) :
    i ∈ (b.Add key).filter ↔ i ∈ b.filter ∨ i = indexFromHash (fnv64a key) := by
  simp only [bloomFilter.Add, foldl_index_mem_iff, hb, List.mem_replicate]
  constructor
  · rintro (h | ⟨g, ⟨_, rfl⟩, hg⟩)
    · exact Or.inl h
    · exact Or.inr hg
  · rintro (h | h)
    · exact Or.inl h
    · exact Or.inr ⟨fnv64a, ⟨by omega, rfl⟩, h⟩

/-- With `k ≥ 1` copies of the FNV-1a hash, `CheckContains` tests the one bit of the key. -/
theorem CheckContains_replicate (k : Nat) (hk : 1 ≤ k) (b : bloomFilter)
    (hb : b.hashFuncs = List.replicate k fnv64a) (key : List Byte) :
    b.CheckContains key = true ↔ indexFromHash (fnv64a key) ∈ b.filter := by
  simp only [bloomFilter.CheckContains, List.all_eq_true, decide_eq_true_eq, hb,
    List.mem_replicate]
  constructor
  · intro h
    exact h fnv64a ⟨by omega, rfl⟩
  · rintro h g ⟨_, rfl⟩
    exact h

/-- Two filters with copies of the FNV-1a hash that have the same bits set keep the same bits
set under the same `Add` calls. -/
theorem foldl_Add_same_bits (adds : List (List Byte)) :
    ∀ (k1 k2 : Nat) (b1 b2 : bloomFilter), 1 ≤ k1 → 1 ≤ k2 →
      b1.hashFuncs = List.replicate k1 fnv64a → b2.hashFuncs = List.replicate k2 fnv64a →
      (∀ i, i ∈ b1.filter ↔ i ∈ b2.filter) →
      (adds.foldl bloomFilter.Add b1).hashFuncs = List.replicate k1 fnv64a ∧
        (adds.foldl bloomFilter.Add b2).hashFuncs = List.replicate k2 fnv64a ∧
        ∀ i, i ∈ (adds.foldl bloomFilter.Add b1).filter ↔
          i ∈ (adds.foldl bloomFilter.Add b2).filter := by
  induction adds with
  | nil =>
    intro k1 k2 b1 b2 _ _ h1 h2 hbits
    exact ⟨h1, h2, hbits⟩
  | cons x adds ih =>
    intro k1 k2 b1 b2 hk1 hk2 h1 h2 hbits
    apply ih k1 k2 (b1.Add x) (b2.Add x) hk1 hk2 h1 h2
    intro i
    rw [Add_filter_replicate k1 hk1 b1 h1, Add_filter_replicate k2 hk2 b2 h2, hbits i]

end bloom_filter

namespace lsm_tree

open sstable

theorem findKey_cons (x : TableElement) (rest : List TableElement) (k : Key) :
    findKey (x :: rest) k = if x.Value = k then some x else findKey rest k := by
  unfold findKey
  rw [List.find?_cons]
  by_cases h : x.Value = k <;> simp [h]

theorem findKey_append (a b : List TableElement) (k : Key) :
    findKey (a ++ b) k = (findKey a k).or (findKey b k) := by
  unfold findKey
  exact List.find?_append

theorem findKey_orderedInsert (a : TableElement) (l : List TableElement) (k : Key) :
    findKey (List.orderedInsert (fun x y : TableElement => x.Value ≤ y.Value) a l) k =
      if a.Value = k then some a else findKey l k := by
  induction l with
  | nil => simp [findKey_cons, findKey]
  | cons b rest ih =>
    rw [List.orderedInsert]
    by_cases hle : a.Value ≤ b.Value
    · rw [if_pos hle, findKey_cons]
    · rw [if_neg hle, findKey_cons, ih, findKey_cons]
      by_cases hak : a.Value = k
      · have hbk : b.Value ≠ k := by
          intro hc
          rw [hak, hc] at hle
          exact hle (le_refl _)
        rw [if_neg hbk, if_pos hak, if_pos hak]
      · rw [if_neg hak, if_neg hak]

/-- The stable sort keeps the first record of every key. -/
theorem findKey_insertionSort (l : List TableElement) (k : Key) :
    findKey (l.insertionSort (fun x y => x.Value ≤ y.Value)) k = findKey l k := by
  induction l with
  | nil => rfl
  | cons a rest ih => rw [List.insertionSort, findKey_orderedInsert, ih, findKey_cons]

theorem sorted_insertionSort_keys (l : List TableElement) :
    (l.insertionSort (fun x y => x.Value ≤ y.Value)).Pairwise
      (fun x y => x.Value ≤ y.Value) := by
  have htot : IsTotal TableElement (fun a b => a.Value ≤ b.Value) := ⟨fun a b => le_total _ _⟩
  have htr : IsTrans TableElement (fun a b => a.Value ≤ b.Value) :=
    ⟨fun a b c hab hbc => le_trans hab hbc⟩
  exact List.sorted_insertionSort _ l

theorem mem_emitKeys_cons (prev : Option TableElement) (x : TableElement)
    (rest : List TableElement) (k : Key) :
    k ∈ emitKeys prev (x :: rest) ↔
      (x.IsTombstone = false ∧ (∀ q, prev = some q → q.Value ≠ x.Value) ∧ x.Value = k) ∨
        k ∈ emitKeys (some x) rest := by
  cases prev with
  | none =>
    cases ht : x.IsTombstone
    · simp [emitKeys, ht, eq_comm (a := k)]
    · simp [emitKeys, ht]
  | some q =>
    cases ht : x.IsTombstone
    · by_cases hq : q.Value = x.Value
      · simp [emitKeys, ht, hq]
      · simp [emitKeys, ht, hq, eq_comm (a := k)]
    · simp [emitKeys, ht]

/-- On a sequence sorted by key the last loop of `SearchRange` emits a key exactly when the
first record of the key is no tombstone (and the record before the sequence has another
key). -/
theorem mem_emitKeys (l : List TableElement) :
    ∀ (prev : Option TableElement) (k : Key),
      l.Pairwise (fun x y => x.Value ≤ y.Value) →
      (∀ q, prev = some q → ∀ e ∈ l, q.Value ≤ e.Value) →
      (k ∈ emitKeys prev l ↔
        (∀ q, prev = some q → q.Value ≠ k) ∧
          ∃ e, findKey l k = some e ∧ e.IsTombstone = false) := by
  induction l with
  | nil =>
    intro prev k _ _
    simp [emitKeys, findKey]
  | cons x rest ih =>
    intro prev k hs hprev
    have hx := List.pairwise_cons.mp hs
    rw [mem_emitKeys_cons, ih (some x) k hx.2 (fun q hq e he => by cases hq; exact hx.1 e he),
      findKey_cons]
    by_cases hxk : x.Value = k
    · rw [if_pos hxk]
      subst hxk
      constructor
      · rintro (⟨ht, hq, _⟩ | ⟨hne, _⟩)
        · exact ⟨hq, x, rfl, ht⟩
        · exact absurd rfl (hne x rfl)
      · rintro ⟨hq, e, he, ht⟩
        cases he
        exact Or.inl ⟨ht, hq, rfl⟩
    · rw [if_neg hxk]
      constructor
      · rintro (⟨_, _, hc⟩ | ⟨_, e, he, ht⟩)
        · exact absurd hc hxk
        · refine ⟨fun q hq hqk => ?_, e, he, ht⟩
          obtain ⟨hemem, hek⟩ := findKey_some he
          have h1 : q.Value ≤ x.Value := hprev q hq x (List.mem_cons_self _ _)
          have h2 : x.Value ≤ e.Value := hx.1 e hemem
          rw [hek] at h2
          rw [hqk] at h1
          exact hxk (le_antisymm h2 h1)
      · rintro ⟨_, e, he, ht⟩
        exact Or.inr ⟨fun q hq => by cases hq; exact hxk, e, he, ht⟩

/-- On a sequence sorted by key the last loop of `SearchRange` emits strictly increasing
keys. -/
theorem emitKeys_strict (l : List TableElement) :
    ∀ (prev : Option TableElement), l.Pairwise (fun x y => x.Value ≤ y.Value) →
      (∀ q, prev = some q → ∀ e ∈ l, q.Value ≤ e.Value) →
      (emitKeys prev l).Pairwise (fun a b => a < b) := by
  induction l with
  | nil =>
    intro prev _ _
    simp [emitKeys]
  | cons x rest ih =>
    intro prev hs hprev
    have hx := List.pairwise_cons.mp hs
    have hrest := ih (some x) hx.2 (fun q hq e he => by cases hq; exact hx.1 e he)
    simp only [emitKeys]
    split
    · refine List.pairwise_cons.mpr ⟨fun k hk => ?_, hrest⟩
      obtain ⟨hne, e, he, _⟩ :=
        (mem_emitKeys rest (some x) k hx.2
          (fun q hq e he => by cases hq; exact hx.1 e he)).mp hk
      obtain ⟨hemem, hek⟩ := findKey_some he
      have h2 : x.Value ≤ e.Value := hx.1 e hemem
      rw [hek] at h2
      exact lt_of_le_of_ne h2 (hne x rfl)
    · exact hrest

end lsm_tree

namespace lsm_tree

open sstable

theorem StrictKeys_sublist {a b : List TableElement} (h : List.Sublist a b)
    (hs : StrictKeys b) : StrictKeys a :=
  List.Pairwise.sublist h hs

/-- What a successful range search on a run returns has, for every key of the range, the
record of the run with that key. -/
theorem SearchRange_findKey {s : SSTable} {recs : List TableElement} (h : RunRecs s recs)
    {keyL keyR : Key} (hle : keyL ≤ keyR) {out : List TableElement}
    (hout : s.SearchRange keyL keyR = .ok out) (k : Key) (hk1 : keyL ≤ k) (hk2 : k ≤ keyR) :
    findKey out k = findKey recs k := by
  by_cases hlow : ∃ e ∈ recs, e.Value < keyL
  · obtain ⟨L, R, hLR, hR, hLiff, hRiff, hres⟩ :=
      SearchRange_of_key_below h.1 h.2.1 keyL keyR hle hlow
    rw [hres] at hout
    cases hout
    have hsub : List.Sublist ((recs.drop L).take (R - L + 1)) recs :=
      (List.take_sublist _ _).trans (List.drop_sublist _ _)
    have hstrict := StrictKeys_sublist hsub h.2.1
    cases hf : findKey recs k with
    | none =>
      apply findKey_eq_none_of
      intro e he
      exact findKey_none hf e (hsub.subset he)
    | some e =>
      obtain ⟨hemem, hek⟩ := findKey_some hf
      obtain ⟨i, hi⟩ := List.mem_iff_getElem?.mp hemem
      have hiL : ¬ i ≤ L := by
        intro hc
        have := (hLiff i e hi).mp hc
        rw [hek] at this
        exact absurd this (not_lt.mpr hk1)
      have hiR : i ≤ R := (hRiff i e hi).mpr (by rw [hek]; exact hk2)
      have hin : e ∈ (recs.drop L).take (R - L + 1) := by
        apply List.mem_iff_getElem?.mpr
        refine ⟨i - L, ?_⟩
        rw [List.getElem?_take_of_lt (by omega), List.getElem?_drop]
        have : L + (i - L) = i := by omega
        rw [this]
        exact hi
      have := hstrict.findKey_mem hin
      rw [hek] at this
      exact this
  · have hfail := SearchRange_fails_of_no_key_below h.1 h.2.1 keyL keyR
      (fun e he => not_lt.mp (fun hc => hlow ⟨e, he, hc⟩))
    rw [hfail] at hout
    cases hout

theorem searchRangeLevel_append (keyL keyR : Key) (a b : List SSTable)
    (acc : List TableElement) :
    searchRangeLevel keyL keyR (a ++ b) acc =
      match searchRangeLevel keyL keyR a acc with
      | .error e => .error e
      | .ok acc1 => searchRangeLevel keyL keyR b acc1 := by
  induction a generalizing acc with
  | nil => rfl
  | cons t ts ih =>
    simp only [List.cons_append, searchRangeLevel]
    cases t.SearchRange keyL keyR with
    | error e => rfl
    | ok out => exact ih _

/-- The records that the range search of one level appends have, for every key of the range,
the record of the newest run of the level with that key. -/
theorem searchRangeLevel_newest {keyL keyR : Key} (hle : keyL ≤ keyR) {tables : List SSTable}
    {rl : List (List TableElement)} (hh : List.Forall₂ RunRecs tables rl) :
    ∀ (acc seq : List TableElement),
      searchRangeLevel keyL keyR tables.reverse acc = .ok seq →
      ∃ more, seq = acc ++ more ∧
        ∀ k, keyL ≤ k → k ≤ keyR → findKey more k = newest rl k := by
  induction hh with
  | nil =>
    intro acc seq h
    simp only [List.reverse_nil, searchRangeLevel] at h
    cases h
    exact ⟨[], by simp, fun k _ _ => rfl⟩
  | @cons t r ts rs ht _ ih =>
    intro acc seq h
    rw [List.reverse_cons, searchRangeLevel_append] at h
    cases h1 : searchRangeLevel keyL keyR ts.reverse acc with
    | error e =>
      rw [h1] at h
      cases h
    | ok acc1 =>
      rw [h1] at h
      obtain ⟨more1, hacc1, hfind1⟩ := ih acc acc1 h1
      simp only [searchRangeLevel] at h
      cases hout : t.SearchRange keyL keyR with
      | error e =>
        rw [hout] at h
        cases h
      | ok out =>
        rw [hout] at h
        simp only at h
        cases h
        refine ⟨more1 ++ out, by rw [hacc1, List.append_assoc], fun k hk1 hk2 => ?_⟩
        rw [findKey_append, hfind1 k hk1 hk2, SearchRange_findKey ht hle hout k hk1 hk2, newest]
        cases newest rs k with
        | none => rfl
        | some e => rfl

/-- The records that the range search of the levels appends decide, for every key of the
range, what the point search of the levels answers. -/
theorem searchRangeLevels_searchKey {keyL keyR : Key} (hle : keyL ≤ keyR)
    (levels : List (List SSTable)) (hruns : ∀ level ∈ levels, ∀ s ∈ level, RunOK s) :
    ∀ (acc seq : List TableElement),
      searchRangeLevels keyL keyR levels acc = .ok seq →
      ∃ more, seq = acc ++ more ∧
        ∀ k, keyL ≤ k → k ≤ keyR →
          searchKeyLevels k levels =
            .ok (match findKey more k with
              | some e => !e.IsTombstone
              | none => false) := by
  induction levels with
  | nil =>
    intro acc seq h
    simp only [searchRangeLevels] at h
    cases h
    exact ⟨[], by simp, fun k _ _ => rfl⟩
  | cons level rest ih =>
    intro acc seq h
    rw [searchRangeLevels] at h
    obtain ⟨rl, hrl, _⟩ := exists_recs (hruns level (List.mem_cons_self _ _))
    cases h1 : searchRangeLevel keyL keyR level.reverse acc with
    | error e =>
      rw [h1] at h
      cases h
    | ok acc1 =>
      rw [h1] at h
      simp only at h
      obtain ⟨more1, hacc1, hfind1⟩ := searchRangeLevel_newest hle hrl acc acc1 h1
      obtain ⟨more2, hseq, hfind2⟩ :=
        ih (fun lv hlv => hruns lv (List.mem_cons_of_mem _ hlv)) acc1 seq h
      refine ⟨more1 ++ more2, by rw [hseq, hacc1, List.append_assoc], fun k hk1 hk2 => ?_⟩
      rw [searchKeyLevels, searchKeyLevel_newest k hrl, findKey_append, hfind1 k hk1 hk2]
      cases hn : newest rl k with
      | none =>
        simp only [Option.map_none', Option.none_or]
        exact hfind2 k hk1 hk2
      | some e => rfl

theorem findKey_map_filter (m : List Key) (keyL keyR k : Key) (tomb : Bool)
    (hk1 : keyL ≤ k) (hk2 : k ≤ keyR) :
    findKey ((m.filter (fun key => decide (key ≥ keyL) && decide (key ≤ keyR))).map
        (fun key => ({ Value := key, IsTombstone := tomb } : TableElement))) k =
      if k ∈ m then some { Value := k, IsTombstone := tomb } else none := by
  induction m with
  | nil => rfl
  | cons x rest ih =>
    rw [List.filter_cons]
    by_cases hx : x = k
    · subst hx
      have hin : (decide (x ≥ keyL) && decide (x ≤ keyR)) = true := by simp [hk1, hk2]
      rw [if_pos hin, List.map_cons, findKey_cons, if_pos rfl, if_pos (List.mem_cons_self _ _)]
    · have hmem : k ∈ x :: rest ↔ k ∈ rest := by
        simp [List.mem_cons, Ne.symm hx]
      have hgoal : (if k ∈ x :: rest then some ({ Value := k, IsTombstone := tomb } : TableElement)
          else none) = if k ∈ rest then some { Value := k, IsTombstone := tomb } else none := by
        by_cases hr : k ∈ rest
        · rw [if_pos hr, if_pos (hmem.mpr hr)]
        · rw [if_neg hr, if_neg (fun hc => hr (hmem.mp hc))]
      rw [hgoal, ← ih]
      by_cases hin : (decide (x ≥ keyL) && decide (x ≤ keyR)) = true
      · rw [if_pos hin, List.map_cons, findKey_cons, if_neg hx]
      · rw [if_neg hin]

end lsm_tree

namespace lsm_tree

open sstable

theorem SearchRange_eq_emit (l : LSMTree) (keyL keyR : Key) (hle : keyL ≤ keyR) :
    l.SearchRange keyL keyR =
      match l.resElements keyL keyR with
      | .error e => .error e
      | .ok sorted => .ok (emitKeys none sorted) := by
  unfold LSMTree.SearchRange LSMTree.resElements
  rw [if_neg (not_lt.mpr hle)]
  dsimp only
  cases searchRangeLevels keyL keyR l.sstables _ with
  | error e => rfl
  | ok seq => rfl

/-- On a tree whose runs are in good order, a successful range query returns strictly
increasing keys and decides every key of the range as the point query does. -/
theorem SearchRange_agrees (l : LSMTree)
    (hruns : ∀ level ∈ l.sstables, ∀ s ∈ level, RunOK s) {keyL keyR : Key}
    (hle : keyL ≤ keyR) {res : List Key} (hres : l.SearchRange keyL keyR = .ok res) :
    res.Pairwise (fun a b => a < b) ∧
      ∀ k, keyL ≤ k → k ≤ keyR → (k ∈ res ↔ l.SearchKey k = .ok true) := by
  unfold LSMTree.SearchRange at hres
  rw [if_neg (not_lt.mpr hle)] at hres
  dsimp only at hres
  cases hseq : searchRangeLevels keyL keyR l.sstables
      ((l.ramComponent.filter (fun key => decide (key ≥ keyL) && decide (key ≤ keyR))).map
          (fun key => ({ Value := key, IsTombstone := false } : TableElement)) ++
        (l.ramComponentRemoved.filter
          (fun key => decide (key ≥ keyL) && decide (key ≤ keyR))).map
          (fun key => ({ Value := key, IsTombstone := true } : TableElement))) with
  | error e =>
    rw [hseq] at hres
    cases hres
  | ok seq =>
    rw [hseq] at hres
    simp only at hres
    cases hres
    have hsorted := sorted_insertionSort_keys seq
    refine ⟨emitKeys_strict _ none hsorted (fun q hq => nomatch hq), fun k hk1 hk2 => ?_⟩
    rw [mem_emitKeys _ none k hsorted (fun q hq => nomatch hq), findKey_insertionSort]
    obtain ⟨more, hmore, hsearch⟩ := searchRangeLevels_searchKey hle l.sstables hruns _ _ hseq
    rw [hmore, findKey_append, findKey_append, findKey_map_filter _ _ _ _ _ hk1 hk2,
      findKey_map_filter _ _ _ _ _ hk1 hk2]
    unfold LSMTree.SearchKey
    by_cases h1 : k ∈ l.ramComponent
    · simp [h1]
    · by_cases h2 : k ∈ l.ramComponentRemoved
      · simp [h1, h2]
      · rw [if_neg h1, if_neg h2, if_neg h1, if_neg h2, hsearch k hk1 hk2]
        simp only [Option.none_or]
        cases findKey more k with
        | none => simp
        | some e => cases e.IsTombstone <;> simp

end lsm_tree

namespace sstable

/-- Dropping the list of indices from the instrumented loop gives the loop of `SearchKey`. -/
theorem searchKeyLoopProbes_erase (s : SSTable) (key : Key) (fuel : Nat) :
    ∀ (left right : Int) (probes : List Int),
      (searchKeyLoopProbes s key fuel left right probes).1 =
        searchKeyLoop s key fuel left right := by
  induction fuel with
  | zero =>
    intro left right probes
    rw [searchKeyLoopProbes, searchKeyLoop]
  | succ fuel ih =>
    intro left right probes
    rw [searchKeyLoopProbes, searchKeyLoop]
    dsimp only
    by_cases hgo : right - left > 1
    · rw [if_pos hgo, if_pos hgo]
      cases tableElementFromFileRandom s.metaFile s.dataFile ((left + right).tdiv 2) with
      | error e => rfl
      | ok midKey =>
        dsimp only
        by_cases h1 : midKey.Value = key
        · rw [if_pos h1, if_pos h1]
        · rw [if_neg h1, if_neg h1]
          by_cases h2 : midKey.Value < key
          · rw [if_pos h2, if_pos h2]
            exact ih _ _ _
          · rw [if_neg h2, if_neg h2]
            exact ih _ _ _
    · rw [if_neg hgo, if_neg hgo]

/-- Dropping the list of indices from the instrumented loop gives the loop of `SearchRange`. -/
theorem searchBoundLoopProbes_erase (s : SSTable) (goRight : Key → Bool) (fuel : Nat) :
    ∀ (left right : Int) (probes : List Int),
      (searchBoundLoopProbes s goRight fuel left right probes).1 =
        searchBoundLoop s goRight fuel left right := by
  induction fuel with
  | zero =>
    intro left right probes
    rw [searchBoundLoopProbes, searchBoundLoop]
  | succ fuel ih =>
    intro left right probes
    rw [searchBoundLoopProbes, searchBoundLoop]
    dsimp only
    by_cases hgo : right - left > 1
    · rw [if_pos hgo, if_pos hgo]
      cases tableElementFromFileRandom s.metaFile s.dataFile ((left + right).tdiv 2) with
      | error e => rfl
      | ok midKey =>
        dsimp only
        by_cases h1 : goRight midKey.Value = true
        · rw [if_pos h1, if_pos h1]
          exact ih _ _ _
        · rw [if_neg h1, if_neg h1]
          exact ih _ _ _
    · rw [if_neg hgo, if_neg hgo]

/-- Every index the loop of `SearchKey` reads lies between its bounds `left` and `right`,
whatever the files of the run hold. -/
theorem searchKeyLoopProbes_bounds (s : SSTable) (key : Key) (n : Int) (fuel : Nat) :
    ∀ (left right : Int) (probes : List Int), -1 ≤ left → right ≤ n →
      (∀ m ∈ probes, 0 ≤ m ∧ m < n) →
      ∀ m ∈ (searchKeyLoopProbes s key fuel left right probes).2, 0 ≤ m ∧ m < n := by
  induction fuel with
  | zero =>
    intro left right probes _ _ hp
    rw [searchKeyLoopProbes]
    exact hp
  | succ fuel ih =>
    intro left right probes h0 hr hp
    rw [searchKeyLoopProbes]
    dsimp only
    by_cases hgo : right - left > 1
    · rw [if_pos hgo]
      obtain ⟨hm1, hm2, hm3⟩ := mid_bounds left right h0 hgo
      have hp1 : ∀ m ∈ probes ++ [(left + right).tdiv 2], 0 ≤ m ∧ m < n := by
        intro m hm
        rcases List.mem_append.mp hm with h | h
        · exact hp m h
        · rw [List.mem_singleton.mp h]
          exact ⟨hm3, by omega⟩
      cases tableElementFromFileRandom s.metaFile s.dataFile ((left + right).tdiv 2) with
      | error e => exact hp1
      | ok midKey =>
        dsimp only
        by_cases h1 : midKey.Value = key
        · rw [if_pos h1]
          exact hp1
        · rw [if_neg h1]
          by_cases h2 : midKey.Value < key
          · rw [if_pos h2]
            exact ih _ _ _ (by omega) hr hp1
          · rw [if_neg h2]
            exact ih _ _ _ h0 (by omega) hp1
    · rw [if_neg hgo]
      exact hp

/-- Every index a binary-search loop of `SearchRange` reads lies between its bounds `left` and
`right`, whatever the files of the run hold. -/
theorem searchBoundLoopProbes_bounds (s : SSTable) (goRight : Key → Bool) (n : Int)
    (fuel : Nat) :
    ∀ (left right : Int) (probes : List Int), -1 ≤ left → right ≤ n →
      (∀ m ∈ probes, 0 ≤ m ∧ m < n) →
      ∀ m ∈ (searchBoundLoopProbes s goRight fuel left right probes).2, 0 ≤ m ∧ m < n := by
  induction fuel with
  | zero =>
    intro left right probes _ _ hp
    rw [searchBoundLoopProbes]
    exact hp
  | succ fuel ih =>
    intro left right probes h0 hr hp
    rw [searchBoundLoopProbes]
    dsimp only
    by_cases hgo : right - left > 1
    · rw [if_pos hgo]
      obtain ⟨hm1, hm2, hm3⟩ := mid_bounds left right h0 hgo
      have hp1 : ∀ m ∈ probes ++ [(left + right).tdiv 2], 0 ≤ m ∧ m < n := by
        intro m hm
        rcases List.mem_append.mp hm with h | h
        · exact hp m h
        · rw [List.mem_singleton.mp h]
          exact ⟨hm3, by omega⟩
      cases tableElementFromFileRandom s.metaFile s.dataFile ((left + right).tdiv 2) with
      | error e => exact hp1
      | ok midKey =>
        dsimp only
        by_cases h1 : goRight midKey.Value = true
        · rw [if_pos h1]
          exact ih _ _ _ (by omega) hr hp1
        · rw [if_neg h1]
          exact ih _ _ _ h0 (by omega) hp1
    · rw [if_neg hgo]
      exact hp

/-- The loop of `SearchKey` returns a result within its fuel whatever the keys of the run
are. -/
theorem searchKeyLoop_ok {s : SSTable} {recs : List TableElement} (h : Holds s recs)
    (key : Key) (fuel : Nat) :
    ∀ left right : Int, -1 ≤ left → left < right → right ≤ recs.length →
      right - left ≤ fuel + 1 →
      ∃ r : SearchResult, searchKeyLoop s key fuel left right = .ok r := by
  induction fuel with
  | zero =>
    intro left right h0 hlr hr hf
    have hexit : ¬ (right - left > 1) := by omega
    exact ⟨_, by rw [searchKeyLoop, if_neg hexit]⟩
  | succ fuel ih =>
    intro left right h0 hlr hr hf
    rw [searchKeyLoop]
    by_cases hgo : right - left > 1
    · rw [if_pos hgo]
      obtain ⟨hm1, hm2, hm3⟩ := mid_bounds left right h0 hgo
      generalize (left + right).tdiv 2 = mid at hm1 hm2 hm3
      have hmn : mid.toNat < recs.length := by omega
      have hcast : ((mid.toNat : Nat) : Int) = mid := Int.toNat_of_nonneg hm3
      have hread := h.read mid.toNat _ (List.getElem?_eq_getElem hmn)
      rw [hcast] at hread
      simp only [hread]
      by_cases h1 : recs[mid.toNat].Value = key
      · rw [if_pos h1]
        split
        · exact ⟨_, rfl⟩
        · exact ⟨_, rfl⟩
      · rw [if_neg h1]
        by_cases h2 : recs[mid.toNat].Value < key
        · rw [if_pos h2]
          exact ih mid right (by omega) hm2 hr (by omega)
        · rw [if_neg h2]
          exact ih left mid h0 hm1 (by omega) (by omega)
    · rw [if_neg hgo]
      exact ⟨_, rfl⟩

/-- A read at an index between `0` and the size of a run returns the record at that index. -/
theorem Holds.read_in_bounds {s : SSTable} {recs : List TableElement} (h : Holds s recs)
    (m : Int) (h0 : 0 ≤ m) (h1 : m < s.size) :
    ∃ e, tableElementFromFileRandom s.metaFile s.dataFile m = .ok e ∧
      recs[m.toNat]? = some e := by
  have hsize : (s.size : Int) = recs.length := by rw [h.2.2]
  have hmn : m.toNat < recs.length := by omega
  have hcast : ((m.toNat : Nat) : Int) = m := Int.toNat_of_nonneg h0
  have hread := h.read m.toNat _ (List.getElem?_eq_getElem hmn)
  rw [hcast] at hread
  exact ⟨_, hread, List.getElem?_eq_getElem hmn⟩

end sstable

namespace lsm_tree

open sstable

/-- Dropping the list of visited levels from the instrumented loop gives the loop of
`mergeSSTables`. -/
theorem mergeSSTablesLoopVisits_erase (p : Params) (fuel : Nat) :
    ∀ (level : Nat) (l : LSMTree) (visited : List Nat),
      (mergeSSTablesLoopVisits p fuel level l visited).1 = mergeSSTablesLoop p fuel level l := by
  induction fuel with
  | zero =>
    intro level l visited
    rw [mergeSSTablesLoopVisits, mergeSSTablesLoop]
  | succ fuel ih =>
    intro level l visited
    rw [mergeSSTablesLoopVisits, mergeSSTablesLoop]
    by_cases h1 : level < l.sstables.length
    · rw [if_pos h1, if_pos h1]
      by_cases h2 : (l.sstables.getD level []).length = p.MaxLevelSize
      · rw [if_pos h2, if_pos h2]
        cases sstable.New p l.fileCnt (l.sstables.getD level []) with
        | error e => rfl
        | ok newSSTable => exact ih _ _ _
      · rw [if_neg h2, if_neg h2]
        exact ih _ _ _
    · rw [if_neg h1, if_neg h1]

/-- The bound on the turns is at most the number of levels left plus one. -/
theorem turnsLeft_le_succ (m : Nat) (post : List (List SSTable)) :
    turnsLeft m post ≤ post.length + 1 := by
  cases post with
  | nil => simp [turnsLeft]
  | cons level rest =>
    cases rest with
    | nil =>
      simp only [turnsLeft]
      split <;> simp
    | cons n2 r2 => simp only [turnsLeft, List.length_cons, le_refl]

/-- The successive levels from `a` on, the first of them put in front. -/
theorem range_visit (visited : List Nat) (a n : Nat) (h : a + 1 ≤ n) :
    (visited ++ [a]) ++ List.range' (a + 1) (n - (a + 1)) =
      visited ++ List.range' a (n - a) := by
  have hn : n - a = (n - (a + 1)) + 1 := by omega
  rw [hn, List.range'_succ, List.append_assoc]
  rfl

end lsm_tree

namespace lsm_tree

open sstable

/-- A turn of the loop that merges a level lowers the bound on the turns. -/
theorem turnsLeft_step_merge (m : Nat) (hm : 2 ≤ m) (level : List SSTable)
    (hfull : level.length = m) (post1 : List (List SSTable)) (newSSTable : SSTable) :
    turnsLeft m ((post1.headD [] ++ [newSSTable]) :: post1.tail) + 1 ≤
      turnsLeft m (level :: post1) := by
  cases post1 with
  | nil =>
    simp only [List.headD_nil, List.nil_append, List.tail_nil, turnsLeft, List.length_singleton,
      if_pos hfull]
    rw [if_neg (by omega)]
  | cons next rest =>
    have := turnsLeft_le_succ m ((next ++ [newSSTable]) :: rest)
    simp only [List.headD_cons, List.tail_cons, turnsLeft, List.length_cons] at this ⊢
    omega

/-- A turn of the loop that leaves a level as it is lowers the bound on the turns. -/
theorem turnsLeft_step_skip (m : Nat) (level : List SSTable)
    (post1 : List (List SSTable)) :
    turnsLeft m post1 + 1 ≤ turnsLeft m (level :: post1) := by
  cases post1 with
  | nil =>
    simp only [turnsLeft]
    split <;> omega
  | cons next rest =>
    have := turnsLeft_le_succ m (next :: rest)
    simp only [turnsLeft, List.length_cons] at this ⊢
    omega

/-- The bound on the turns is at least two at a level that is merged. -/
theorem turnsLeft_full (m : Nat) (level : List SSTable) (hfull : level.length = m)
    (post1 : List (List SSTable)) : 2 ≤ turnsLeft m (level :: post1) := by
  cases post1 with
  | nil => simp only [turnsLeft, if_pos hfull, le_refl]
  | cons next rest =>
    simp only [turnsLeft, List.length_cons]
    omega

/-- The loop of `mergeSSTables`, entered at the level after `pre` with any runs in any number
in the levels, ends within its fuel when `MaxLevelSize` is at least 2: either it returns a tree,
having visited the levels from the current one to the last of that tree once each, in order, and
added at most one level; or a call of `sstable.New` has failed at a level of the array. -/
theorem mergeSSTablesLoopVisits_spec (p : Params) (hM : 2 ≤ p.MaxLevelSize) (fuel : Nat) :
    ∀ (pre post : List (List SSTable)) (ram rem : List Key) (cnt : Nat) (visited : List Nat),
      turnsLeft p.MaxLevelSize post ≤ fuel →
      (∃ l1, mergeSSTablesLoopVisits p fuel pre.length
          { sstables := pre ++ post, ramComponent := ram, ramComponentRemoved := rem,
            fileCnt := cnt } visited =
          (.ok l1, visited ++ List.range' pre.length (l1.sstables.length - pre.length)) ∧
        (pre ++ post).length ≤ l1.sstables.length ∧
        l1.sstables.length ≤ pre.length + turnsLeft p.MaxLevelSize post) ∨
      (∃ (e : Err) (level : Nat) (tables : List SSTable) (tag : Nat),
        mergeSSTablesLoopVisits p fuel pre.length
          { sstables := pre ++ post, ramComponent := ram, ramComponentRemoved := rem,
            fileCnt := cnt } visited =
          (.error e, visited ++ List.range' pre.length (level + 1 - pre.length)) ∧
        pre.length ≤ level ∧ level + 2 ≤ pre.length + turnsLeft p.MaxLevelSize post ∧
        tables.length = p.MaxLevelSize ∧ sstable.New p tag tables = .error e ∧
        ((∀ lv ∈ pre ++ post, ∀ s ∈ lv, RunOK s) → ∀ s ∈ tables, RunOK s)) := by
  have hdone : ∀ (pre : List (List SSTable)) (ram rem : List Key) (cnt : Nat)
      (visited : List Nat) (fuel : Nat),
      ∃ l1, mergeSSTablesLoopVisits p fuel pre.length
          { sstables := pre ++ [], ramComponent := ram, ramComponentRemoved := rem,
            fileCnt := cnt } visited =
          (.ok l1, visited ++ List.range' pre.length (l1.sstables.length - pre.length)) ∧
        (pre ++ []).length ≤ l1.sstables.length ∧
        l1.sstables.length ≤ pre.length + turnsLeft p.MaxLevelSize [] := by
    intro pre ram rem cnt visited fuel
    refine ⟨LSMTree.mk (pre ++ []) ram rem cnt, ?_, le_refl _, by simp [turnsLeft]⟩
    cases fuel with
    | zero => simp [mergeSSTablesLoopVisits]
    | succ fuel => simp [mergeSSTablesLoopVisits]
  induction fuel with
  | zero =>
    intro pre post ram rem cnt visited hfuel
    cases post with
    | cons level rest =>
      have := turnsLeft_pos p.MaxLevelSize level rest
      omega
    | nil => exact Or.inl (hdone pre ram rem cnt visited 0)
  | succ fuel ih =>
    intro pre post ram rem cnt visited hfuel
    cases post with
    | nil => exact Or.inl (hdone pre ram rem cnt visited (fuel + 1))
    | cons level post1 =>
      have hlt : pre.length < (pre ++ level :: post1).length := by simp
      have hlenpost : (pre ++ level :: post1).length = pre.length + post1.length + 1 := by
        simp
        omega
      rw [mergeSSTablesLoopVisits]
      dsimp only
      rw [if_pos hlt, getD_at_length]
      by_cases hfull : level.length = p.MaxLevelSize
      · rw [if_pos hfull]
        have hturns := turnsLeft_step_merge p.MaxLevelSize hM level hfull post1
        cases hnew : sstable.New p cnt level with
        | error e =>
          refine Or.inr ⟨e, pre.length, level, cnt, ?_, le_refl _, ?_, hfull, hnew, ?_⟩
          · have h1 : pre.length + 1 - pre.length = 1 := by omega
            rw [h1]
            rfl
          · have := turnsLeft_full p.MaxLevelSize level hfull post1
            omega
          · intro hruns
            exact hruns level (List.mem_append_right _ (List.mem_cons_self _ _))
        | ok newSSTable =>
          dsimp only
          have hshape := merged_levels pre level post1 newSSTable
          dsimp only at hshape
          rw [hshape]
          have hlen : pre.length + 1 = (pre ++ [([] : List SSTable)]).length := by simp
          have hruns1 : (∀ lv ∈ pre ++ level :: post1, ∀ s ∈ lv, RunOK s) →
              ∀ lv ∈ (pre ++ [[]]) ++ (post1.headD [] ++ [newSSTable]) :: post1.tail,
                ∀ s ∈ lv, RunOK s := by
            intro hruns lv hlv s hs
            have hlevelruns : ∀ s ∈ level, RunOK s :=
              hruns level (List.mem_append_right _ (List.mem_cons_self _ _))
            obtain ⟨new2, hnew2, hok, _, _⟩ :=
              searchKeyLevels_merged p cnt [] hlevelruns hfull (by omega) [] []
            rw [hnew] at hnew2
            cases hnew2
            rcases List.mem_append.mp hlv with h | h
            · rcases List.mem_append.mp h with h | h
              · exact hruns lv (List.mem_append_left _ h) s hs
              · rw [List.mem_singleton.mp h] at hs
                cases hs
            · rcases List.mem_cons.mp h with h | h
              · rw [h] at hs
                rcases List.mem_append.mp hs with hs | hs
                · cases post1 with
                  | nil => cases hs
                  | cons next rest =>
                    exact hruns next
                      (List.mem_append_right _
                        (List.mem_cons_of_mem _ (List.mem_cons_self _ _))) s hs
                · rw [List.mem_singleton.mp hs]
                  exact hok
              · exact hruns lv
                  (List.mem_append_right _
                    (List.mem_cons_of_mem _ (List.mem_of_mem_tail h))) s hs
          rw [hlen]
          rcases ih (pre ++ [[]]) ((post1.headD [] ++ [newSSTable]) :: post1.tail) ram rem
              (cnt + 1) (visited ++ [pre.length]) (by have := hturns newSSTable; omega) with
            ⟨l1, hrun, hlen1, hlen2⟩ | ⟨e, lvl, tables, tag, hrun, hlvl1, hlvl2, ht, hfail, hr⟩
          · have hturns1 := hturns newSSTable
            simp only [List.length_append, List.length_cons, List.length_singleton,
              List.length_nil, List.length_tail] at hlen1 hlen2 hrun ⊢
            refine Or.inl ⟨l1, ?_, by omega, by omega⟩
            rw [hrun, range_visit visited pre.length l1.sstables.length (by omega)]
          · have hturns1 := hturns newSSTable
            simp only [List.length_append, List.length_cons, List.length_singleton,
              List.length_nil] at hlvl1 hlvl2 hrun ⊢
            refine Or.inr ⟨e, lvl, tables, tag, ?_, by omega, by omega, ht, hfail,
              fun hruns => hr (hruns1 hruns)⟩
            rw [hrun, range_visit visited pre.length (lvl + 1) (by omega)]
      · rw [if_neg hfull]
        have hturns := turnsLeft_step_skip p.MaxLevelSize level post1
        have hlen : pre.length + 1 = (pre ++ [level]).length := by simp
        have happ : pre ++ level :: post1 = (pre ++ [level]) ++ post1 := by simp
        rw [hlen, happ]
        rcases ih (pre ++ [level]) post1 ram rem cnt (visited ++ [pre.length]) (by omega) with
          ⟨l1, hrun, hlen1, hlen2⟩ | ⟨e, lvl, tables, tag, hrun, hlvl1, hlvl2, ht, hfail, hr⟩
        · simp only [List.length_append, List.length_cons, List.length_singleton,
            List.length_nil] at hlen1 hlen2 hrun ⊢
          refine Or.inl ⟨l1, ?_, by omega, by omega⟩
          rw [hrun, range_visit visited pre.length l1.sstables.length (by omega)]
        · simp only [List.length_append, List.length_cons, List.length_singleton,
            List.length_nil] at hlvl1 hlvl2 hrun ⊢
          refine Or.inr ⟨e, lvl, tables, tag, ?_, by omega, by omega, ht, hfail, hr⟩
          rw [hrun, range_visit visited pre.length (lvl + 1) (by omega)]

end lsm_tree

namespace sstable

/-- A record read from a byte reader never reports the loop bound of the embedding. -/
theorem tableElementFromBytes_ne_fuel (reader : List Byte) (valueLength : Int) :
    tableElementFromBytes reader valueLength ≠ .error .outOfFuel := by
  unfold tableElementFromBytes
  split
  · exact fun h => nomatch h
  · split
    · exact fun h => nomatch h
    · split
      · exact fun h => nomatch h
      · exact fun h => nomatch h

/-- A consecutive read either fails, with an error of the files, or takes one entry from the
index reader. -/
theorem tableElementFromFileConsecutive_cases (metaReader : List meta)
    (dataReader : List Byte) :
    (∃ e, tableElementFromFileConsecutive metaReader dataReader = .error e ∧
        e ≠ .outOfFuel) ∨
      ∃ element metaRest dataRest,
        tableElementFromFileConsecutive metaReader dataReader =
          .ok (element, metaRest, dataRest) ∧
        metaRest.length + 1 = metaReader.length := by
  unfold tableElementFromFileConsecutive metaFromBytes
  cases metaReader with
  | nil => exact Or.inl ⟨.eof, rfl, fun h => nomatch h⟩
  | cons m rest =>
    dsimp only
    cases hb : tableElementFromBytes dataReader m.length with
    | error e =>
      refine Or.inl ⟨e, rfl, ?_⟩
      intro hc
      rw [hc] at hb
      exact tableElementFromBytes_ne_fuel _ _ hb
    | ok r => exact Or.inr ⟨r.1, rest, r.2, rfl, rfl⟩

/-- Taking one entry from the index reader at position `i` lowers the number of entries left to
read by one. -/
theorem readers_sum_set {readers : List (List meta × List Byte)} {i : Nat}
    {metaReader metaRest : List meta} {dataReader dataRest : List Byte}
    (h : readers[i]? = some (metaReader, dataReader))
    (hlen : metaRest.length + 1 = metaReader.length) :
    ((readers.set i (metaRest, dataRest)).map (fun r => r.1.length)).sum + 1 =
      (readers.map (fun r => r.1.length)).sum := by
  induction readers generalizing i with
  | nil => simp at h
  | cons r rest ih =>
    cases i with
    | zero =>
      simp only [List.getElem?_cons_zero, Option.some.injEq] at h
      subst h
      simp only [List.set, List.map_cons, List.sum_cons]
      omega
    | succ i =>
      have := ih (i := i) (by simpa using h)
      simp only [List.set, List.map_cons, List.sum_cons]
      omega

/-- The item that `heap.Pop` returns leaves the queue. -/
theorem heapPop_length {q : List mergeItem} {m : mergeItem} {rest : List mergeItem}
    (h : heapPop q = some (m, rest)) : rest.length + 1 = q.length := by
  have := (heapPop_some h).1.length_eq
  simpa using this.symm

/-- The second loop of `merge` ends within its fuel when the fuel exceeds the items queued plus
the index entries left to read, whatever the files hold. -/
theorem mergeLoop_ne_fuel (fuel : Nat) :
    ∀ (s : SSTable) (queue : List mergeItem) (readers : List (List meta × List Byte))
      (lastInserted : Key) (offset : Int),
      queue.length + (readers.map (fun r => r.1.length)).sum < fuel →
      mergeLoop fuel s queue readers lastInserted offset ≠ .error .outOfFuel := by
  induction fuel with
  | zero =>
    intro s queue readers lastInserted offset h
    omega
  | succ fuel ih =>
    intro s queue readers lastInserted offset h
    rw [mergeLoop]
    cases hpop : heapPop queue with
    | none => exact fun hc => nomatch hc
    | some r =>
      obtain ⟨element, queue1⟩ := r
      have hq := heapPop_length hpop
      dsimp only
      cases hget : readers.get? element.readerIdx with
      | none => exact fun hc => nomatch hc
      | some rd =>
        obtain ⟨metaReader, dataReader⟩ := rd
        dsimp only
        rcases tableElementFromFileConsecutive_cases metaReader dataReader with
          ⟨e, he, hne⟩ | ⟨newElement, metaRest, dataRest, hok, hlen⟩
        · rw [he]
          cases e with
          | eof =>
            dsimp only
            exact ih _ _ _ _ _ (by omega)
          | outOfFuel => exact absurd rfl hne
          | fileSeeking => exact fun hc => nomatch hc
          | readingFromFile => exact fun hc => nomatch hc
          | invalidKeyRange => exact fun hc => nomatch hc
          | tablesNumber => exact fun hc => nomatch hc
          | runtimePanic => exact fun hc => nomatch hc
        · rw [hok]
          dsimp only
          have hsum := @readers_sum_set readers element.readerIdx metaReader metaRest
            dataReader dataRest (by rw [← List.get?_eq_getElem?]; exact hget) hlen
          apply ih
          simp only [heapPush, List.length_cons]
          omega

/-- The first loop of `merge` fails only with an error of the files, and it queues one item
per table and leaves the other index entries to read. -/
theorem mergeInit_measure (tables : List SSTable) :
    ∀ (i : Nat) (queue : List mergeItem) (readers : List (List meta × List Byte)),
      (∃ e, mergeInit tables i queue readers = .error e ∧ e ≠ .outOfFuel) ∨
      ∃ queue1 readers1, mergeInit tables i queue readers = .ok (queue1, readers1) ∧
        queue1.length + (readers1.map (fun r => r.1.length)).sum =
          queue.length + (readers.map (fun r => r.1.length)).sum +
            (tables.map (fun t => t.metaFile.length)).sum := by
  induction tables with
  | nil =>
    intro i queue readers
    exact Or.inr ⟨queue, readers, rfl, by simp⟩
  | cons table rest ih =>
    intro i queue readers
    rw [mergeInit]
    unfold setDataFileOffset setMetaFileOffset metaFromBytes
    rw [if_neg (by decide)]
    simp only [Int.toNat_zero, List.drop_zero]
    cases hmf : table.metaFile with
    | nil => exact Or.inl ⟨.eof, rfl, fun h => nomatch h⟩
    | cons m mrest =>
      dsimp only
      by_cases hoff : m.offset < 0
      · rw [if_pos hoff]
        exact Or.inl ⟨.fileSeeking, rfl, fun h => nomatch h⟩
      · rw [if_neg hoff]
        simp only [if_true]
        rcases tableElementFromFileConsecutive_cases (m :: mrest)
            (table.dataFile.drop m.offset.toNat) with
          ⟨e, he, hne⟩ | ⟨element, metaRest, dataRest, hok, hlen⟩
        · rw [he]
          exact Or.inl ⟨e, rfl, hne⟩
        · rw [hok]
          dsimp only
          rcases ih (i + 1) (heapPush queue { value := element, readerIdx := i })
              (readers ++ [(metaRest, dataRest)]) with
            ⟨e, he, hne⟩ | ⟨queue1, readers1, hrun, hsum⟩
          · exact Or.inl ⟨e, he, hne⟩
          · refine Or.inr ⟨queue1, readers1, hrun, ?_⟩
            simp only [heapPush, List.length_cons, List.map_append, List.map_cons, List.map_nil,
              List.sum_append, List.sum_cons, List.sum_nil, hmf] at hsum hlen ⊢
            omega

/-- Go `sstable.New` ends within the fuel of its loops, whatever tables it is given. -/
theorem New_ne_fuel (p : Params) (tag : Nat) (tables : List SSTable) :
    sstable.New p tag tables ≠ .error .outOfFuel := by
  unfold sstable.New
  split
  · exact fun h => nomatch h
  · dsimp only
    split
    · exact fun h => nomatch h
    · unfold SSTable.merge
      rcases mergeInit_measure tables 0 [] [] with ⟨e, he, hne⟩ | ⟨queue, readers, hrun, hsum⟩
      · rw [he]
        intro hc
        cases hc
        exact hne rfl
      · rw [hrun]
        dsimp only
        apply mergeLoop_ne_fuel
        simp only [List.length_nil, List.map_nil, List.sum_nil, Nat.zero_add] at hsum
        omega

/-- Go `sstable.New` on `MaxLevelSize` tables whose sizes sum to zero, no table at all when
`MaxLevelSize` is 0, panics in `bloom_filter.New`. -/
theorem New_of_size_zero (p : Params) (tag : Nat) (tables : List SSTable)
    (hlen : tables.length = p.MaxLevelSize)
    (hsize : (tables.map (fun t => t.size)).sum = 0) :
    sstable.New p tag tables = .error .runtimePanic := by
  unfold sstable.New
  rw [if_neg (by simpa using hlen)]
  dsimp only
  rw [if_pos hsize]

end sstable

/-! ## The claims -/

/-- C1. Point-query correctness: with `FirstLevelSize ≥ 1` and `MaxLevelSize ≥ 2`, for every
sequence `ops` of `Add` / `Delete` calls from `New` and every prefix `ops.take n` of it, all
the calls of the prefix succeed, and `SearchKey k` then returns `true` exactly when the most
recent call of the prefix that mentions `k` is `Add k`; it returns `false` otherwise, also when
no call mentions `k`. Flushes and merges happen inside the calls. -/
theorem C1_point_query_correctness (p : Params) (hF : 1 ≤ p.FirstLevelSize)
    (hM : 2 ≤ p.MaxLevelSize) (ops : List lsm_tree.Op) (n : Nat) (k : Key) :
    ∃ l, lsm_tree.runOps p lsm_tree.New (ops.take n) = .ok l ∧
      l.SearchKey k = .ok (decide (lsm_tree.mostRecent (ops.take n) k = some (.add k))) := by
  obtain ⟨l, hrun, _, hsearch⟩ := lsm_tree.runOps_spec p hF hM (ops.take n)
  exact ⟨l, hrun, hsearch k⟩

/-- Scenario S4 satisfies the hypotheses of C1: after its eight calls the key `"a"`, deleted
after the first flush and merged as a tombstone, is answered by the most recent call. -/
theorem C1_point_query_correctness_witness :
    1 ≤ lsm_tree.scenarioParams.FirstLevelSize ∧ 2 ≤ lsm_tree.scenarioParams.MaxLevelSize ∧
      ∃ l, lsm_tree.runOps lsm_tree.scenarioParams lsm_tree.New (lsm_tree.scenarioS4.take 8) =
          .ok l ∧
        l.SearchKey lsm_tree.keyA =
          .ok (decide (lsm_tree.mostRecent (lsm_tree.scenarioS4.take 8) lsm_tree.keyA =
            some (.add lsm_tree.keyA))) :=
  ⟨by decide, by decide,
    C1_point_query_correctness lsm_tree.scenarioParams (by decide) (by decide)
      lsm_tree.scenarioS4 8 lsm_tree.keyA⟩

/-- C2. Range correctness fails on the code: with `FirstLevelSize = 4` and `MaxLevelSize = 2`,
after `Add` of `"a"`, `"b"`, `"c"`, `"d"` (one flush), `SearchRange "c" "d"` returns `"b"`,
`"c"`, `"d"`, and `"b"` lies below the lower bound `"c"`. -/
theorem C2_range_result_holds_key_below_lower_bound :
    lsm_tree.searchRangeAfter lsm_tree.scenarioParams lsm_tree.scenarioS3 lsm_tree.keyC
        lsm_tree.keyD = .ok [lsm_tree.keyB, lsm_tree.keyC, lsm_tree.keyD] ∧
      lsm_tree.keyB < lsm_tree.keyC :=
  ⟨rfl, by decide⟩

/-- C3. The flush round trip fails on the code: the run that `NewFromMap` builds from the live
keys `"a"`, `"b"`, `"c"`, `"d"` and no removed key answers `SearchRange "a" "d"`, the range from
its smallest to its largest key, with the seek error. -/
theorem C3_round_trip_range_query_fails :
    lsm_tree.runS3.SearchRange lsm_tree.keyA lsm_tree.keyD = .error .fileSeeking :=
  rfl

/-- C4. Merge is last-writer-wins and keeps tombstones: with `MaxLevelSize ≥ 1`, for
`MaxLevelSize` input runs, listed oldest first, each holding at least one record and strictly
increasing keys, `sstable.New` succeeds and the run it builds holds records `out` with strictly
increasing keys; the keys of `out` are exactly the keys that occur in some input; and each
record of `out` is, flag included, a record of the input with the largest position among the
inputs that hold its key. With `MaxLevelSize = 0` there is no input and `sstable.New` panics in
`bloom_filter.New(0)`. -/
theorem C4_merge_last_writer_wins (p : Params) (hpos : 1 ≤ p.MaxLevelSize) (tag : Nat)
    (tables : List sstable.SSTable)
    (rl : List (List sstable.TableElement)) (hh : List.Forall₂ sstable.Holds tables rl)
    (hlen : tables.length = p.MaxLevelSize) (hne : ∀ r ∈ rl, r ≠ [])
    (hin : ∀ r ∈ rl, sstable.StrictKeys r) :
    ∃ s out, sstable.New p tag tables = .ok s ∧ sstable.Holds s out ∧ sstable.StrictKeys out ∧
      (∀ k, k ∈ sstable.keysOf out ↔ ∃ r ∈ rl, k ∈ sstable.keysOf r) ∧
      (∀ e ∈ out, ∃ (i : Nat) (r : List sstable.TableElement), rl[i]? = some r ∧ e ∈ r ∧
        ∀ (j : Nat) (r1 : List sstable.TableElement), i < j → rl[j]? = some r1 →
          e.Value ∉ sstable.keysOf r1) := by
  obtain ⟨s, out, hnew, hdone, _, _⟩ := sstable.New_spec p tag hh hne hin hlen hpos
  refine ⟨s, out, hnew, hdone.holds, hdone.sorted, fun k => ⟨fun hk => ?_, fun hk => ?_⟩,
    fun e he => sstable.newest_position (hdone.best e he)⟩
  · obtain ⟨e, he, hek⟩ := List.mem_map.mp hk
    obtain ⟨r, hr, her, _⟩ := sstable.newest_some (hdone.best e he)
    exact ⟨r, hr, List.mem_map.mpr ⟨e, her, hek⟩⟩
  · obtain ⟨r, hr, hkr⟩ := hk
    obtain ⟨e, he, hek⟩ := List.mem_map.mp hkr
    rw [← hek]
    exact hdone.cover r hr e he

/-- Scenario S4 satisfies the hypotheses of C4: the two runs of level 0 hold `a, b, c, d` and
`a (tombstone), e, f, g`. -/
theorem C4_merge_last_writer_wins_witness :
    1 ≤ lsm_tree.scenarioParams.MaxLevelSize ∧
      List.Forall₂ sstable.Holds [lsm_tree.runS3, lsm_tree.runS4]
        [lsm_tree.recordsS3, lsm_tree.recordsS4] ∧
      [lsm_tree.runS3, lsm_tree.runS4].length = lsm_tree.scenarioParams.MaxLevelSize ∧
      (∀ r ∈ [lsm_tree.recordsS3, lsm_tree.recordsS4], r ≠ []) ∧
      (∀ r ∈ [lsm_tree.recordsS3, lsm_tree.recordsS4], sstable.StrictKeys r) ∧
      ∃ s out, sstable.New lsm_tree.scenarioParams 2 [lsm_tree.runS3, lsm_tree.runS4] = .ok s ∧
        sstable.Holds s out ∧ sstable.StrictKeys out ∧
        (∀ k, k ∈ sstable.keysOf out ↔
          ∃ r ∈ [lsm_tree.recordsS3, lsm_tree.recordsS4], k ∈ sstable.keysOf r) ∧
        (∀ e ∈ out, ∃ (i : Nat) (r : List sstable.TableElement),
          [lsm_tree.recordsS3, lsm_tree.recordsS4][i]? = some r ∧ e ∈ r ∧
          ∀ (j : Nat) (r1 : List sstable.TableElement), i < j →
            [lsm_tree.recordsS3, lsm_tree.recordsS4][j]? = some r1 →
            e.Value ∉ sstable.keysOf r1) :=
  have hh : List.Forall₂ sstable.Holds [lsm_tree.runS3, lsm_tree.runS4]
      [lsm_tree.recordsS3, lsm_tree.recordsS4] :=
    List.Forall₂.cons ⟨rfl, rfl, rfl⟩ (List.Forall₂.cons ⟨rfl, rfl, rfl⟩ List.Forall₂.nil)
  have hne : ∀ r ∈ [lsm_tree.recordsS3, lsm_tree.recordsS4], r ≠ [] := by decide
  have hin : ∀ r ∈ [lsm_tree.recordsS3, lsm_tree.recordsS4], sstable.StrictKeys r := by
    unfold sstable.StrictKeys
    decide
  ⟨by decide, hh, rfl, hne, hin,
    C4_merge_last_writer_wins lsm_tree.scenarioParams (by decide) 2
      [lsm_tree.runS3, lsm_tree.runS4] [lsm_tree.recordsS3, lsm_tree.recordsS4] hh rfl hne
      hin⟩

/-- Scenario S4, the merge itself: `sstable.New` on the two runs of level 0 builds the run that
holds `a (tombstone), b, c, d, e, f, g`. -/
theorem scenarioS4_merged_run :
    ∃ s, sstable.New lsm_tree.scenarioParams 2 [lsm_tree.runS3, lsm_tree.runS4] = .ok s ∧
      sstable.Holds s
        [{ Value := lsm_tree.keyA, IsTombstone := true },
          { Value := lsm_tree.keyB, IsTombstone := false },
          { Value := lsm_tree.keyC, IsTombstone := false },
          { Value := lsm_tree.keyD, IsTombstone := false },
          { Value := lsm_tree.keyE, IsTombstone := false },
          { Value := lsm_tree.keyF, IsTombstone := false },
          { Value := lsm_tree.keyG, IsTombstone := false }] :=
  ⟨_, rfl, rfl, rfl, rfl⟩

/-- C5. Filter soundness: a filter made by `bloom_filter.New` for `n ≥ 1` elements answers
`true` for every key of every sequence of `Add` calls made on it; and every record that can be
read from a run built by `NewFromMap` or by `sstable.New` (the merge) has a key for which the
filter of the run answers `true`, so a key for which it answers `false` is no key of the
run. -/
theorem C5_filter_no_false_negatives (g : Nat → Nat) (n : Nat) (hn : 1 ≤ n)
    (adds : List Key) :
    (∀ key ∈ adds,
      (adds.foldl bloom_filter.bloomFilter.Add (bloom_filter.New g n)).CheckContains key =
        true) ∧
    (∀ (p : Params) (tag : Nat) (live removed : List Key) (i : Int)
      (e : sstable.TableElement),
      sstable.tableElementFromFileRandom (sstable.NewFromMap p tag live removed).metaFile
        (sstable.NewFromMap p tag live removed).dataFile i = .ok e →
      (sstable.NewFromMap p tag live removed).bloomFilter.CheckContains e.Value = true) ∧
    (∀ (p : Params) (tag : Nat) (tables : List sstable.SSTable) (s : sstable.SSTable),
      sstable.New p tag tables = .ok s →
      ∀ (i : Int) (e : sstable.TableElement),
        sstable.tableElementFromFileRandom s.metaFile s.dataFile i = .ok e →
        s.bloomFilter.CheckContains e.Value = true) := by
  have _ := hn
  exact ⟨fun key hkey => bloom_filter.CheckContains_foldl_mem adds _ key hkey,
    fun p tag live removed i e hr => sstable.NewFromMap_filter p tag live removed i e hr,
    fun p tag tables s hs i e hr => sstable.New_filter p tag tables s hs i e hr⟩

/-- A filter for four elements with the keys `"a"` and `"b"` added satisfies the hypothesis of
C5. -/
theorem C5_filter_no_false_negatives_witness :
    1 ≤ 4 ∧
    (∀ key ∈ [lsm_tree.keyA, lsm_tree.keyB],
      ([lsm_tree.keyA, lsm_tree.keyB].foldl bloom_filter.bloomFilter.Add
        (bloom_filter.New lsm_tree.scenarioParams.getOptimalHashFuncsNumber 4)).CheckContains
          key = true) ∧
    (∀ (p : Params) (tag : Nat) (live removed : List Key) (i : Int)
      (e : sstable.TableElement),
      sstable.tableElementFromFileRandom (sstable.NewFromMap p tag live removed).metaFile
        (sstable.NewFromMap p tag live removed).dataFile i = .ok e →
      (sstable.NewFromMap p tag live removed).bloomFilter.CheckContains e.Value = true) ∧
    (∀ (p : Params) (tag : Nat) (tables : List sstable.SSTable) (s : sstable.SSTable),
      sstable.New p tag tables = .ok s →
      ∀ (i : Int) (e : sstable.TableElement),
        sstable.tableElementFromFileRandom s.metaFile s.dataFile i = .ok e →
        s.bloomFilter.CheckContains e.Value = true) :=
  ⟨by decide,
    C5_filter_no_false_negatives lsm_tree.scenarioParams.getOptimalHashFuncsNumber 4
      (by decide) [lsm_tree.keyA, lsm_tree.keyB]⟩

/-- C6. Run sortedness: with `FirstLevelSize ≥ 1` and `MaxLevelSize ≥ 2`, every sequence of
`Add` / `Delete` calls from `New` succeeds, and every run of every level of the tree it leaves
yields, read by index `0 .. size - 1`, records with strictly increasing keys. -/
theorem C6_run_sortedness (p : Params) (hF : 1 ≤ p.FirstLevelSize) (hM : 2 ≤ p.MaxLevelSize)
    (ops : List lsm_tree.Op) :
    ∃ l, lsm_tree.runOps p lsm_tree.New ops = .ok l ∧
      ∀ level ∈ l.sstables, ∀ s ∈ level,
        ∃ recs : List sstable.TableElement, recs.length = s.size ∧
          (∀ (i : Nat) (hi : i < recs.length),
            sstable.tableElementFromFileRandom s.metaFile s.dataFile i = .ok recs[i]) ∧
          recs.Pairwise (fun a b => a.Value < b.Value) := by
  obtain ⟨l, hrun, hinv, _⟩ := lsm_tree.runOps_spec p hF hM ops
  exact ⟨l, hrun, fun level hlevel s hs => (hinv.runs level hlevel s hs).records⟩

/-- Scenario S4 satisfies the hypotheses of C6. -/
theorem C6_run_sortedness_witness :
    1 ≤ lsm_tree.scenarioParams.FirstLevelSize ∧ 2 ≤ lsm_tree.scenarioParams.MaxLevelSize ∧
      ∃ l, lsm_tree.runOps lsm_tree.scenarioParams lsm_tree.New lsm_tree.scenarioS4 = .ok l ∧
        ∀ level ∈ l.sstables, ∀ s ∈ level,
          ∃ recs : List sstable.TableElement, recs.length = s.size ∧
            (∀ (i : Nat) (hi : i < recs.length),
              sstable.tableElementFromFileRandom s.metaFile s.dataFile i = .ok recs[i]) ∧
            recs.Pairwise (fun a b => a.Value < b.Value) :=
  ⟨by decide, by decide,
    C6_run_sortedness lsm_tree.scenarioParams (by decide) (by decide) lsm_tree.scenarioS4⟩

/-- C7. Level cardinality bound: with `MaxLevelSize ≥ 2`, in the tree left by any sequence of
completed `Add` / `Delete` calls from `New`, every level but the last holds fewer than
`MaxLevelSize` runs. -/
theorem C7_level_cardinality_bound (p : Params) (hM : 2 ≤ p.MaxLevelSize)
    (ops : List lsm_tree.Op) (l : lsm_tree.LSMTree)
    (h : lsm_tree.runOps p lsm_tree.New ops = .ok l) (i : Nat)
    (hi : i + 1 < l.sstables.length) :
    (l.sstables.getD i []).length < p.MaxLevelSize := by
  by_cases hF : 1 ≤ p.FirstLevelSize
  · obtain ⟨l1, hrun, hinv, _⟩ := lsm_tree.runOps_spec p hF hM ops
    rw [h] at hrun
    cases hrun
    have hlt : i < l.sstables.length := by omega
    rw [List.getD_eq_getElem _ _ hlt]
    exact hinv.card _ (List.getElem_mem hlt)
  · have := lsm_tree.runOps_no_flush p (by omega) ops _ _ h
    rw [this] at hi
    simp [lsm_tree.New] at hi

/-- Scenario S4 satisfies the hypotheses of C7: its tree has two levels, and level 0 is empty
after the merge. -/
theorem C7_level_cardinality_bound_witness :
    2 ≤ lsm_tree.scenarioParams.MaxLevelSize ∧
      lsm_tree.runOps lsm_tree.scenarioParams lsm_tree.New lsm_tree.scenarioS4 =
        .ok (lsm_tree.treeAfter lsm_tree.scenarioParams lsm_tree.scenarioS4) ∧
      0 + 1 < (lsm_tree.treeAfter lsm_tree.scenarioParams lsm_tree.scenarioS4).sstables.length ∧
      ((lsm_tree.treeAfter lsm_tree.scenarioParams lsm_tree.scenarioS4).sstables.getD 0
        []).length < lsm_tree.scenarioParams.MaxLevelSize :=
  ⟨by decide, rfl, by decide,
    C7_level_cardinality_bound lsm_tree.scenarioParams (by decide) lsm_tree.scenarioS4
      (lsm_tree.treeAfter lsm_tree.scenarioParams lsm_tree.scenarioS4) rfl 0 (by decide)⟩

/-- C8. Memory-component invariant: with `FirstLevelSize ≥ 1`, in the tree left by any
sequence of completed `Add` / `Delete` calls from `New`, no key is both in `ramComponent` and
in `ramComponentRemoved`, and the two together hold fewer than `FirstLevelSize` keys. -/
theorem C8_memory_component_invariant (p : Params) (hF : 1 ≤ p.FirstLevelSize)
    (ops : List lsm_tree.Op) (l : lsm_tree.LSMTree)
    (h : lsm_tree.runOps p lsm_tree.New ops = .ok l) :
    (∀ k, k ∈ l.ramComponent → k ∉ l.ramComponentRemoved) ∧
      l.ramComponent.length + l.ramComponentRemoved.length < p.FirstLevelSize :=
  lsm_tree.runOps_memory p hF ops lsm_tree.New l List.nodup_nil List.nodup_nil
    (fun k hk => nomatch hk) (by simp [lsm_tree.New]; omega) h

/-- The first six calls of scenario S4 satisfy the hypotheses of C8: one flush, then `"a"`
removed and `"e"` live in the memory component. -/
theorem C8_memory_component_invariant_witness :
    1 ≤ lsm_tree.scenarioParams.FirstLevelSize ∧
      lsm_tree.runOps lsm_tree.scenarioParams lsm_tree.New (lsm_tree.scenarioS4.take 6) =
        .ok (lsm_tree.treeAfter lsm_tree.scenarioParams (lsm_tree.scenarioS4.take 6)) ∧
      (∀ k, k ∈ (lsm_tree.treeAfter lsm_tree.scenarioParams
            (lsm_tree.scenarioS4.take 6)).ramComponent →
          k ∉ (lsm_tree.treeAfter lsm_tree.scenarioParams
            (lsm_tree.scenarioS4.take 6)).ramComponentRemoved) ∧
        (lsm_tree.treeAfter lsm_tree.scenarioParams
            (lsm_tree.scenarioS4.take 6)).ramComponent.length +
          (lsm_tree.treeAfter lsm_tree.scenarioParams
            (lsm_tree.scenarioS4.take 6)).ramComponentRemoved.length <
          lsm_tree.scenarioParams.FirstLevelSize :=
  ⟨by decide, rfl,
    C8_memory_component_invariant lsm_tree.scenarioParams (by decide)
      (lsm_tree.scenarioS4.take 6)
      (lsm_tree.treeAfter lsm_tree.scenarioParams (lsm_tree.scenarioS4.take 6)) rfl⟩

/-- C9. Point search on a single run: for a run that holds records with strictly increasing
keys, all accepted by its filter, `SearchKey k` returns `SearchResultFound` exactly when the
run holds a record with key `k` that is no tombstone, `SearchResultRemoved` exactly when it
holds a tombstone with key `k`, and `SearchResultNotFound` exactly when no record of the run
has key `k`. -/
theorem C9_run_point_search (s : sstable.SSTable) (recs : List sstable.TableElement)
    (h : sstable.Holds s recs) (hs : sstable.StrictKeys recs) (hf : sstable.FilterHas s recs)
    (k : Key) :
    (s.SearchKey k = .ok .SearchResultFound ↔
        ∃ e ∈ recs, e.Value = k ∧ e.IsTombstone = false) ∧
      (s.SearchKey k = .ok .SearchResultRemoved ↔
        ∃ e ∈ recs, e.Value = k ∧ e.IsTombstone = true) ∧
      (s.SearchKey k = .ok .SearchResultNotFound ↔ ∀ e ∈ recs, e.Value ≠ k) := by
  rw [sstable.SearchKey_spec h hs hf k]
  cases hfind : sstable.findKey recs k with
  | none =>
    have hnone := sstable.findKey_none hfind
    refine ⟨⟨fun hc => ?_, fun ⟨e, he, hk, _⟩ => absurd hk (hnone e he)⟩,
      ⟨fun hc => ?_, fun ⟨e, he, hk, _⟩ => absurd hk (hnone e he)⟩, ⟨fun _ => hnone, fun _ => rfl⟩⟩
    · simp [sstable.resultOf] at hc
    · simp [sstable.resultOf] at hc
  | some e =>
    obtain ⟨he, hk⟩ := sstable.findKey_some hfind
    have huniq : ∀ x ∈ recs, x.Value = k → x = e := by
      intro x hx hxk
      have := hs.findKey_mem hx
      rw [hxk, hfind] at this
      exact (Option.some.inj this).symm
    cases ht : e.IsTombstone with
    | false =>
      simp only [sstable.resultOf, ht]
      refine ⟨⟨fun _ => ⟨e, he, hk, ht⟩, fun _ => rfl⟩, ⟨fun hc => ?_, fun ⟨x, hx, hxk, hxt⟩ => ?_⟩,
        ⟨fun hc => ?_, fun hall => absurd hk (hall e he)⟩⟩
      · simp at hc
      · rw [huniq x hx hxk, ht] at hxt
        cases hxt
      · simp at hc
    | true =>
      simp only [sstable.resultOf, ht]
      refine ⟨⟨fun hc => ?_, fun ⟨x, hx, hxk, hxt⟩ => ?_⟩, ⟨fun _ => ⟨e, he, hk, ht⟩, fun _ => rfl⟩,
        ⟨fun hc => ?_, fun hall => absurd hk (hall e he)⟩⟩
      · simp at hc
      · rw [huniq x hx hxk, ht] at hxt
        cases hxt
      · simp at hc

/-- The first run of scenario S4 and the key `"c"` satisfy the hypotheses of C9. -/
theorem C9_run_point_search_witness :
    sstable.Holds lsm_tree.runS3 lsm_tree.recordsS3 ∧ sstable.StrictKeys lsm_tree.recordsS3 ∧
      sstable.FilterHas lsm_tree.runS3 lsm_tree.recordsS3 ∧
      (lsm_tree.runS3.SearchKey lsm_tree.keyC = .ok .SearchResultFound ↔
        ∃ e ∈ lsm_tree.recordsS3, e.Value = lsm_tree.keyC ∧ e.IsTombstone = false) ∧
      (lsm_tree.runS3.SearchKey lsm_tree.keyC = .ok .SearchResultRemoved ↔
        ∃ e ∈ lsm_tree.recordsS3, e.Value = lsm_tree.keyC ∧ e.IsTombstone = true) ∧
      (lsm_tree.runS3.SearchKey lsm_tree.keyC = .ok .SearchResultNotFound ↔
        ∀ e ∈ lsm_tree.recordsS3, e.Value ≠ lsm_tree.keyC) :=
  have hh : sstable.Holds lsm_tree.runS3 lsm_tree.recordsS3 := ⟨rfl, rfl, rfl⟩
  have hs : sstable.StrictKeys lsm_tree.recordsS3 := by
    unfold sstable.StrictKeys
    decide
  have hf : sstable.FilterHas lsm_tree.runS3 lsm_tree.recordsS3 :=
    (sstable.NewFromMap_holds lsm_tree.scenarioParams 0
      [lsm_tree.keyA, lsm_tree.keyB, lsm_tree.keyC, lsm_tree.keyD] []).2
  ⟨hh, hs, hf, C9_run_point_search lsm_tree.runS3 lsm_tree.recordsS3 hh hs hf lsm_tree.keyC⟩

/-- C10. The range query between two present keys fails on the code: with
`FirstLevelSize = 4` and `MaxLevelSize = 2`, after `Add` of `"a"`, `"b"`, `"c"`, `"d"`,
`SearchRange "a" "b"` returns the seek error and no result. -/
theorem C10_range_between_present_keys_fails :
    lsm_tree.searchRangeAfter lsm_tree.scenarioParams lsm_tree.scenarioS3 lsm_tree.keyA
      lsm_tree.keyB = .error .fileSeeking :=
  rfl

/-- C11. Invalid range is rejected: for every tree and every pair of keys with `keyL > keyR`
in the byte-wise order, `SearchRange keyL keyR` returns the invalid-range error and no result.
The Go method returns before it reads a file or assigns a field, and its embedding is a
function of the tree that returns no tree: the tree is the same after the call. -/
theorem C11_invalid_range_rejected (l : lsm_tree.LSMTree) (keyL keyR : Key)
    (h : keyL > keyR) : l.SearchRange keyL keyR = .error .invalidKeyRange := by
  unfold lsm_tree.LSMTree.SearchRange
  rw [if_pos h]

/-- The tree of scenario S4 and the keys `"z"`, `"a"` satisfy the hypothesis of C11. -/
theorem C11_invalid_range_rejected_witness :
    lsm_tree.keyZ > lsm_tree.keyA ∧
      (lsm_tree.treeAfter lsm_tree.scenarioParams lsm_tree.scenarioS4).SearchRange
        lsm_tree.keyZ lsm_tree.keyA = .error .invalidKeyRange :=
  ⟨by decide,
    C11_invalid_range_rejected (lsm_tree.treeAfter lsm_tree.scenarioParams lsm_tree.scenarioS4)
      lsm_tree.keyZ lsm_tree.keyA (by decide)⟩

/-- C12. Monotone file tags: for every sequence of `Add` / `Delete` calls from `New` that
succeeds, the runs created along the way, by flush or by merge and whether or not a later merge
removed them, carry in the order of their creation the tags `0, 1, .., fileCnt - 1`; so each
tag is strictly greater than the tag of every run created before, and no two runs share a
tag. -/
theorem C12_monotone_file_tags (p : Params) (ops : List lsm_tree.Op) (l : lsm_tree.LSMTree)
    (h : lsm_tree.runOps p lsm_tree.New ops = .ok l) :
    ∃ created, lsm_tree.runOpsLog p lsm_tree.New [] ops = .ok (l, created) ∧
      created.map (fun s => s.tag) = List.range l.fileCnt ∧
      created.Pairwise (fun a b => a.tag < b.tag) := by
  obtain ⟨created, hrun, htags⟩ := lsm_tree.runOpsLog_spec p ops lsm_tree.New [] l rfl h
  refine ⟨created, hrun, htags, ?_⟩
  have hp : (created.map (fun s => s.tag)).Pairwise (fun a b => a < b) := by
    rw [htags]
    exact List.pairwise_lt_range _
  exact List.pairwise_map.mp hp

/-- Scenario S4 satisfies the hypothesis of C12: its calls succeed, and create three runs. -/
theorem C12_monotone_file_tags_witness :
    lsm_tree.runOps lsm_tree.scenarioParams lsm_tree.New lsm_tree.scenarioS4 =
        .ok (lsm_tree.treeAfter lsm_tree.scenarioParams lsm_tree.scenarioS4) ∧
      ∃ created, lsm_tree.runOpsLog lsm_tree.scenarioParams lsm_tree.New [] lsm_tree.scenarioS4 =
          .ok (lsm_tree.treeAfter lsm_tree.scenarioParams lsm_tree.scenarioS4, created) ∧
        created.map (fun s => s.tag) =
          List.range (lsm_tree.treeAfter lsm_tree.scenarioParams lsm_tree.scenarioS4).fileCnt ∧
        created.Pairwise (fun a b => a.tag < b.tag) :=
  ⟨rfl,
    C12_monotone_file_tags lsm_tree.scenarioParams lsm_tree.scenarioS4
      (lsm_tree.treeAfter lsm_tree.scenarioParams lsm_tree.scenarioS4) rfl⟩

/-- C13. Record codec round trip: for every record `e`, `e.toBytes` is the bytes of `e.Value`
followed by one byte, `1` for a tombstone and `0` otherwise, and `tableElementFromBytes` on a
reader over those bytes (followed by any bytes `rest`) with `valueLength = len(e.Value)`
returns `e` and leaves the reader at `rest`; the empty key is included. -/
theorem C13_record_codec_round_trip (e : sstable.TableElement) :
    e.toBytes = e.Value ++ [if e.IsTombstone then (1 : Byte) else 0] ∧
      e.toBytes.length = e.Value.length + 1 ∧
      (∀ rest : List Byte,
        sstable.tableElementFromBytes (e.toBytes ++ rest) e.Value.length = .ok (e, rest)) ∧
      sstable.tableElementFromBytes e.toBytes e.Value.length = .ok (e, []) := by
  refine ⟨rfl, sstable.toBytes_length e, fun rest => sstable.tableElementFromBytes_toBytes e rest,
    ?_⟩
  have := sstable.tableElementFromBytes_toBytes e []
  rwa [List.append_nil] at this

/-- C14. Merge-queue order: `priorityQueue.Less a b` holds exactly when the key of `a` is below
the key of `b`, or the keys are equal and `a` has the larger `readerIdx`; the relation is
irreflexive and transitive, and it compares any two items that differ in key or `readerIdx`; so
an item of a queue below which the queue has no item has the smallest key and, among the items
of that key, the largest `readerIdx`; and `heap.Pop` returns such an item. -/
theorem C14_merge_queue_order :
    (∀ a b : sstable.mergeItem, sstable.priorityQueue.Less a b = true ↔
      a.value.Value < b.value.Value ∨
        (a.value.Value = b.value.Value ∧ a.readerIdx > b.readerIdx)) ∧
    (∀ a : sstable.mergeItem, sstable.priorityQueue.Less a a = false) ∧
    (∀ a b c : sstable.mergeItem, sstable.priorityQueue.Less a b = true →
      sstable.priorityQueue.Less b c = true → sstable.priorityQueue.Less a c = true) ∧
    (∀ a b : sstable.mergeItem,
      a.value.Value ≠ b.value.Value ∨ a.readerIdx ≠ b.readerIdx →
      sstable.priorityQueue.Less a b = true ∨ sstable.priorityQueue.Less b a = true) ∧
    (∀ (queue : List sstable.mergeItem) (m : sstable.mergeItem), m ∈ queue →
      (∀ x ∈ queue, sstable.priorityQueue.Less x m = false) →
      ∀ x ∈ queue, m.value.Value ≤ x.value.Value ∧
        (x.value.Value = m.value.Value → x.readerIdx ≤ m.readerIdx)) ∧
    (∀ (queue rest : List sstable.mergeItem) (m : sstable.mergeItem),
      sstable.heapPop queue = some (m, rest) →
      m ∈ queue ∧ ∀ x ∈ queue, sstable.priorityQueue.Less x m = false) := by
  refine ⟨sstable.Less_true_iff, sstable.Less_false_self,
    fun a b c h1 h2 => sstable.Less_trans h1 h2, fun a b h => sstable.Less_total h,
    fun queue m _ hmin x hx => (sstable.Less_false_iff x m).mp (hmin x hx),
    fun queue rest m hpop => ?_⟩
  obtain ⟨hperm, hmin⟩ := sstable.heapPop_some hpop
  exact ⟨hperm.mem_iff.mpr (List.mem_cons_self _ _), hmin⟩

/-- C15. Range lower bound in a run: for a run that holds records `recs` with strictly
increasing keys, `keyL ≤ keyR`, and a key of the run below `keyL`, `SearchRange keyL keyR`
returns the records at the indices `L .. R`, where `L` is the largest index whose key is below
`keyL` and `R` the largest index whose key is at most `keyR`; so the first record returned has
a key below `keyL`, outside the range. -/
theorem C15_range_lower_bound (s : sstable.SSTable) (recs : List sstable.TableElement)
    (h : sstable.Holds s recs) (hs : sstable.StrictKeys recs) (keyL keyR : Key)
    (hle : keyL ≤ keyR) (hlow : ∃ e ∈ recs, e.Value < keyL) :
    ∃ (L R : Nat) (eL eR : sstable.TableElement), L ≤ R ∧
      recs[L]? = some eL ∧ eL.Value < keyL ∧
      (∀ (i : Nat) (e : sstable.TableElement), recs[i]? = some e → e.Value < keyL → i ≤ L) ∧
      recs[R]? = some eR ∧ eR.Value ≤ keyR ∧
      (∀ (i : Nat) (e : sstable.TableElement), recs[i]? = some e → e.Value ≤ keyR → i ≤ R) ∧
      s.SearchRange keyL keyR = .ok ((recs.drop L).take (R - L + 1)) ∧
      ((recs.drop L).take (R - L + 1)).head? = some eL := by
  obtain ⟨L, R, hLR, hR, hLiff, hRiff, hres⟩ :=
    sstable.SearchRange_of_key_below h hs keyL keyR hle hlow
  have hLlt : L < recs.length := by omega
  have hgL := List.getElem?_eq_getElem hLlt
  have hgR := List.getElem?_eq_getElem hR
  refine ⟨L, R, recs[L], recs[R], hLR, hgL, (hLiff L _ hgL).mp (le_refl _),
    fun i e he hk => (hLiff i e he).mpr hk, hgR, (hRiff R _ hgR).mp (le_refl _),
    fun i e he hk => (hRiff i e he).mpr hk, hres, ?_⟩
  rw [List.drop_eq_getElem_cons hLlt, List.take_succ_cons, List.head?_cons]

/-- The first run of scenario S4 and the range from `"c"` to `"d"` satisfy the hypotheses of
C15. -/
theorem C15_range_lower_bound_witness :
    sstable.Holds lsm_tree.runS3 lsm_tree.recordsS3 ∧ sstable.StrictKeys lsm_tree.recordsS3 ∧
      lsm_tree.keyC ≤ lsm_tree.keyD ∧ (∃ e ∈ lsm_tree.recordsS3, e.Value < lsm_tree.keyC) ∧
      ∃ (L R : Nat) (eL eR : sstable.TableElement), L ≤ R ∧
        lsm_tree.recordsS3[L]? = some eL ∧ eL.Value < lsm_tree.keyC ∧
        (∀ (i : Nat) (e : sstable.TableElement), lsm_tree.recordsS3[i]? = some e →
          e.Value < lsm_tree.keyC → i ≤ L) ∧
        lsm_tree.recordsS3[R]? = some eR ∧ eR.Value ≤ lsm_tree.keyD ∧
        (∀ (i : Nat) (e : sstable.TableElement), lsm_tree.recordsS3[i]? = some e →
          e.Value ≤ lsm_tree.keyD → i ≤ R) ∧
        lsm_tree.runS3.SearchRange lsm_tree.keyC lsm_tree.keyD =
          .ok ((lsm_tree.recordsS3.drop L).take (R - L + 1)) ∧
        ((lsm_tree.recordsS3.drop L).take (R - L + 1)).head? = some eL :=
  have hh : sstable.Holds lsm_tree.runS3 lsm_tree.recordsS3 := ⟨rfl, rfl, rfl⟩
  have hs : sstable.StrictKeys lsm_tree.recordsS3 := by
    unfold sstable.StrictKeys
    decide
  have hlow : ∃ e ∈ lsm_tree.recordsS3, e.Value < lsm_tree.keyC := by decide
  ⟨hh, hs, by decide, hlow,
    C15_range_lower_bound lsm_tree.runS3 lsm_tree.recordsS3 hh hs lsm_tree.keyC lsm_tree.keyD
      (by decide) hlow⟩

/-- C16. The newest record does not always sort first, on the code: with `FirstLevelSize = 2`
and `MaxLevelSize = 3`, after `Add "b"`, `Add "c"`, `Delete "b"`, `Add "bb"` (two flushes, no
merge), the sorted sequence of `SearchRange "c" "c"` is `b`, `bb`, `c`, none a tombstone: the
newer run returns only `bb`, the record before its first key of the range, and the older run
returns `b`, `c`. So the first record of the key `"b"` is the live one of the older run, while
the most recent call on `"b"` is the `Delete` and `SearchKey "b"` answers false; the query
returns `"b"`, `"bb"`, `"c"`. -/
theorem C16_first_record_is_not_the_newest :
    lsm_tree.runOps lsm_tree.rangeParams lsm_tree.New lsm_tree.rangeScenario =
        .ok (lsm_tree.treeAfter lsm_tree.rangeParams lsm_tree.rangeScenario) ∧
      (lsm_tree.treeAfter lsm_tree.rangeParams lsm_tree.rangeScenario).resElements
          lsm_tree.keyC lsm_tree.keyC =
        .ok [{ Value := lsm_tree.keyB, IsTombstone := false },
          { Value := lsm_tree.keyBB, IsTombstone := false },
          { Value := lsm_tree.keyC, IsTombstone := false }] ∧
      (lsm_tree.treeAfter lsm_tree.rangeParams lsm_tree.rangeScenario).SearchRange
          lsm_tree.keyC lsm_tree.keyC =
        .ok [lsm_tree.keyB, lsm_tree.keyBB, lsm_tree.keyC] ∧
      lsm_tree.mostRecent lsm_tree.rangeScenario lsm_tree.keyB =
        some (.delete lsm_tree.keyB) ∧
      (lsm_tree.treeAfter lsm_tree.rangeParams lsm_tree.rangeScenario).SearchKey
        lsm_tree.keyB = .ok false := by
  have hrun : lsm_tree.runOps lsm_tree.rangeParams lsm_tree.New lsm_tree.rangeScenario =
      .ok (lsm_tree.treeAfter lsm_tree.rangeParams lsm_tree.rangeScenario) := rfl
  refine ⟨hrun, rfl, rfl, by decide, ?_⟩
  obtain ⟨l, hl, _, hsearch⟩ :=
    lsm_tree.runOps_spec lsm_tree.rangeParams (by decide) (by decide) lsm_tree.rangeScenario
  rw [hrun] at hl
  cases hl
  rw [hsearch lsm_tree.keyB]
  rfl

/-- C17. Read by index returns the i-th record written: for records `es` written to a fresh
run by successive `writeElement` calls, the data file staying below `2^63` bytes as every
file whose offsets are `int64` does, the entry at index `i` of the index file is the pair of the offset, the sum of `len(Value) + 1` over the
records before `i`, and the length of the key of record `i`; its sixteen bytes, two `int64` in
little-endian order, stand at byte `16 * i` of the index file; and `tableElementFromFileRandom`
at index `i`, on the bytes of the index file as on its entries, returns record `i`. -/
theorem C17_read_by_index (tag : Nat) (b : bloom_filter.bloomFilter)
    (es : List sstable.TableElement) (hsize : sstable.offsetAfter es < 2 ^ 63) (i : Nat)
    (e : sstable.TableElement) (hi : es[i]? = some e) :
    (sstable.writeElements es (sstable.freshRun tag b) 0).1.metaFile[i]? =
        some { offset := sstable.offsetAfter (es.take i), length := e.Value.length } ∧
      ((sstable.metaFileBytes
          (sstable.writeElements es (sstable.freshRun tag b) 0).1.metaFile).drop (16 * i)).take
          16 =
        sstable.int64ToBytes (sstable.offsetAfter (es.take i)) ++
          sstable.int64ToBytes e.Value.length ∧
      sstable.raw.tableElementFromFileRandom
          (sstable.metaFileBytes (sstable.writeElements es (sstable.freshRun tag b) 0).1.metaFile)
          (sstable.writeElements es (sstable.freshRun tag b) 0).1.dataFile i = .ok e ∧
      sstable.tableElementFromFileRandom
          (sstable.writeElements es (sstable.freshRun tag b) 0).1.metaFile
          (sstable.writeElements es (sstable.freshRun tag b) 0).1.dataFile i = .ok e := by
  have h0 : sstable.Holds (sstable.freshRun tag b) [] := ⟨rfl, rfl, rfl⟩
  obtain ⟨hh, _⟩ := sstable.writeElements_spec es (sstable.freshRun tag b) [] 0 h0
    (fun x hx => nomatch hx) (by simp [sstable.dataBytes])
  rw [List.nil_append] at hh
  have hilt : i < es.length := (List.getElem?_eq_some.mp hi).1
  have hget : es[i] = e := by
    rw [List.getElem?_eq_getElem hilt] at hi
    exact Option.some.inj hi
  have hsplit : es = es.take i ++ e :: es.drop (i + 1) := by
    rw [← hget, ← List.drop_eq_getElem_cons hilt, List.take_append_drop]
  have hlen : (es.take i).length = i := by
    rw [List.length_take]
    omega
  have hentry : (sstable.writeElements es (sstable.freshRun tag b) 0).1.metaFile[i]? =
      some { offset := sstable.offsetAfter (es.take i), length := e.Value.length } := by
    have := sstable.metaEntries_getElem? (es.take i) e (es.drop (i + 1))
    rw [← hsplit, hlen] at this
    rw [hh.1]
    exact this
  have hrange : ∀ m ∈ (sstable.writeElements es (sstable.freshRun tag b) 0).1.metaFile,
      m.InRange := by
    rw [hh.1]
    apply sstable.metaEntries_inRange
    rw [sstable.dataBytes_length]
    exact hsize
  have hread := hh.read i e hi
  refine ⟨hentry, ?_, ?_, hread⟩
  · obtain ⟨hmlt, hmget⟩ := List.getElem?_eq_some.mp hentry
    rw [sstable.metaFileBytes_drop, List.drop_eq_getElem_cons hmlt, hmget,
      sstable.metaFileBytes]
    have h16 : (16 : Nat) = (sstable.meta.mk (sstable.offsetAfter (es.take i))
        (e.Value.length : Int)).toBytes.length := rfl
    rw [h16, List.take_left]
    rfl
  · rw [sstable.raw_tableElementFromFileRandom_eq _ hrange]
    exact hread

/-- The records of the first run of scenario S4 and the index 2 satisfy the hypotheses of
C17. -/
theorem C17_read_by_index_witness :
    sstable.offsetAfter lsm_tree.recordsS3 < 2 ^ 63 ∧
      lsm_tree.recordsS3[2]? = some { Value := lsm_tree.keyC, IsTombstone := false } ∧
      (sstable.writeElements lsm_tree.recordsS3
          (sstable.freshRun 0 (bloom_filter.New (fun _ => 1) 4)) 0).1.metaFile[2]? =
        some { offset := sstable.offsetAfter (lsm_tree.recordsS3.take 2),
               length := (lsm_tree.keyC.length : Int) } ∧
      ((sstable.metaFileBytes
          (sstable.writeElements lsm_tree.recordsS3
            (sstable.freshRun 0 (bloom_filter.New (fun _ => 1) 4)) 0).1.metaFile).drop
            (16 * 2)).take 16 =
        sstable.int64ToBytes (sstable.offsetAfter (lsm_tree.recordsS3.take 2)) ++
          sstable.int64ToBytes lsm_tree.keyC.length ∧
      sstable.raw.tableElementFromFileRandom
          (sstable.metaFileBytes
            (sstable.writeElements lsm_tree.recordsS3
              (sstable.freshRun 0 (bloom_filter.New (fun _ => 1) 4)) 0).1.metaFile)
          (sstable.writeElements lsm_tree.recordsS3
            (sstable.freshRun 0 (bloom_filter.New (fun _ => 1) 4)) 0).1.dataFile 2 =
        .ok { Value := lsm_tree.keyC, IsTombstone := false } ∧
      sstable.tableElementFromFileRandom
          (sstable.writeElements lsm_tree.recordsS3
            (sstable.freshRun 0 (bloom_filter.New (fun _ => 1) 4)) 0).1.metaFile
          (sstable.writeElements lsm_tree.recordsS3
            (sstable.freshRun 0 (bloom_filter.New (fun _ => 1) 4)) 0).1.dataFile 2 =
        .ok { Value := lsm_tree.keyC, IsTombstone := false } :=
  ⟨by decide, rfl,
    C17_read_by_index 0 (bloom_filter.New (fun _ => 1) 4) lsm_tree.recordsS3 (by decide) 2
      { Value := lsm_tree.keyC, IsTombstone := false } rfl⟩

/-- C18. All hash functions of a filter coincide: for a filter with `k ≥ 1` hash functions,
all of them FNV-1a, `Add key` sets the one bit `fnv64a key mod 500000` whatever `k` is, and
`CheckContains key` answers true exactly when that bit is set; so after the same `Add` calls a
filter made with `k` hash functions and a filter made with one answer every `CheckContains`
alike. -/
theorem C18_hash_functions_coincide (k : Nat) (hk : 1 ≤ k) (b : bloom_filter.bloomFilter)
    (hb : b.hashFuncs = List.replicate k bloom_filter.fnv64a) (key : Key) :
    (∀ i, i ∈ (b.Add key).filter ↔ i ∈ b.filter ∨ i = bloom_filter.fnv64a key % 500000) ∧
      (b.CheckContains key = true ↔ bloom_filter.fnv64a key % 500000 ∈ b.filter) ∧
      (∀ (n : Nat) (adds : List Key) (other : Key),
        ((adds.foldl bloom_filter.bloomFilter.Add
            (bloom_filter.New (fun _ => k) n)).CheckContains other) =
          ((adds.foldl bloom_filter.bloomFilter.Add
            (bloom_filter.New (fun _ => 1) n)).CheckContains other)) := by
  refine ⟨fun i => bloom_filter.Add_filter_replicate k hk b hb key i,
    bloom_filter.CheckContains_replicate k hk b hb key, fun n adds other => ?_⟩
  obtain ⟨h1, h2, hbits⟩ := bloom_filter.foldl_Add_same_bits adds k 1
    (bloom_filter.New (fun _ => k) n) (bloom_filter.New (fun _ => 1) n) hk (le_refl _) rfl rfl
    (fun i => Iff.rfl)
  have e1 := bloom_filter.CheckContains_replicate k hk _ h1 other
  have e2 := bloom_filter.CheckContains_replicate 1 (le_refl _) _ h2 other
  rw [Bool.eq_iff_iff, e1, e2, hbits]

/-- A filter made with three hash functions and the key `"a"` satisfy the hypotheses of
C18. -/
theorem C18_hash_functions_coincide_witness :
    1 ≤ 3 ∧
      (bloom_filter.New (fun _ => 3) 4).hashFuncs = List.replicate 3 bloom_filter.fnv64a ∧
      (∀ i, i ∈ ((bloom_filter.New (fun _ => 3) 4).Add lsm_tree.keyA).filter ↔
        i ∈ (bloom_filter.New (fun _ => 3) 4).filter ∨
          i = bloom_filter.fnv64a lsm_tree.keyA % 500000) ∧
      ((bloom_filter.New (fun _ => 3) 4).CheckContains lsm_tree.keyA = true ↔
        bloom_filter.fnv64a lsm_tree.keyA % 500000 ∈
          (bloom_filter.New (fun _ => 3) 4).filter) ∧
      (∀ (n : Nat) (adds : List Key) (other : Key),
        ((adds.foldl bloom_filter.bloomFilter.Add
            (bloom_filter.New (fun _ => 3) n)).CheckContains other) =
          ((adds.foldl bloom_filter.bloomFilter.Add
            (bloom_filter.New (fun _ => 1) n)).CheckContains other)) :=
  ⟨by decide, rfl,
    C18_hash_functions_coincide 3 (by decide) (bloom_filter.New (fun _ => 3) 4) rfl
      lsm_tree.keyA⟩

/-- C19. In-range agreement of range and point queries: with `FirstLevelSize ≥ 1` and
`MaxLevelSize ≥ 2`, on the tree left by any sequence of `Add` / `Delete` calls from `New`, for
`keyL ≤ keyR` and a call `SearchRange keyL keyR` that returns a result, the result is strictly
increasing, and a key `k` with `keyL ≤ k ≤ keyR` occurs in it exactly when `SearchKey k`
answers true. -/
theorem C19_in_range_agreement (p : Params) (hF : 1 ≤ p.FirstLevelSize)
    (hM : 2 ≤ p.MaxLevelSize) (ops : List lsm_tree.Op) (l : lsm_tree.LSMTree)
    (hrun : lsm_tree.runOps p lsm_tree.New ops = .ok l) (keyL keyR : Key) (hle : keyL ≤ keyR)
    (res : List Key) (hres : l.SearchRange keyL keyR = .ok res) :
    res.Pairwise (fun a b => a < b) ∧
      ∀ k, keyL ≤ k → k ≤ keyR → (k ∈ res ↔ l.SearchKey k = .ok true) := by
  obtain ⟨l1, hl1, hinv, _⟩ := lsm_tree.runOps_spec p hF hM ops
  rw [hrun] at hl1
  cases hl1
  exact lsm_tree.SearchRange_agrees l hinv.runs hle hres

/-- Scenario S3 and the range from `"c"` to `"d"` satisfy the hypotheses of C19: the call
returns `b`, `c`, `d`. -/
theorem C19_in_range_agreement_witness :
    1 ≤ lsm_tree.scenarioParams.FirstLevelSize ∧ 2 ≤ lsm_tree.scenarioParams.MaxLevelSize ∧
      lsm_tree.runOps lsm_tree.scenarioParams lsm_tree.New lsm_tree.scenarioS3 =
        .ok (lsm_tree.treeAfter lsm_tree.scenarioParams lsm_tree.scenarioS3) ∧
      lsm_tree.keyC ≤ lsm_tree.keyD ∧
      (lsm_tree.treeAfter lsm_tree.scenarioParams lsm_tree.scenarioS3).SearchRange
          lsm_tree.keyC lsm_tree.keyD =
        .ok [lsm_tree.keyB, lsm_tree.keyC, lsm_tree.keyD] ∧
      [lsm_tree.keyB, lsm_tree.keyC, lsm_tree.keyD].Pairwise (fun a b => a < b) ∧
      ∀ k, lsm_tree.keyC ≤ k → k ≤ lsm_tree.keyD →
        (k ∈ [lsm_tree.keyB, lsm_tree.keyC, lsm_tree.keyD] ↔
          (lsm_tree.treeAfter lsm_tree.scenarioParams lsm_tree.scenarioS3).SearchKey k =
            .ok true) :=
  ⟨by decide, by decide, rfl, by decide, rfl,
    C19_in_range_agreement lsm_tree.scenarioParams (by decide) (by decide) lsm_tree.scenarioS3
      (lsm_tree.treeAfter lsm_tree.scenarioParams lsm_tree.scenarioS3) rfl lsm_tree.keyC
      lsm_tree.keyD (by decide) [lsm_tree.keyB, lsm_tree.keyC, lsm_tree.keyD] rfl⟩

/-- C20. Range search on a run fails when nothing lies below `keyL`: for a run, the empty run
included, that holds records none of whose keys is below `keyL`, the first binary search of
`SearchRange` ends with `L = -1`; `setDataFileOffset` at index `-1` fails on the seek of the
index file, on its entries as on its bytes, where the offset asked for is `-16`; and
`SearchRange` returns the seek error. -/
theorem C20_range_search_fails_without_key_below (s : sstable.SSTable)
    (recs : List sstable.TableElement) (h : sstable.Holds s recs) (keyL keyR : Key)
    (hlow : ∀ e ∈ recs, ¬ e.Value < keyL) :
    sstable.searchBoundLoop s (fun k => decide (k < keyL)) (s.size + 1) (-1) s.size =
        .ok (-1) ∧
      sstable.setMetaFileOffset s.metaFile (-1) = .error .fileSeeking ∧
      sstable.raw.setMetaFileOffset (sstable.metaFileBytes s.metaFile) (-1) =
        .error .fileSeeking ∧
      sstable.setDataFileOffset s.metaFile s.dataFile (-1) true = .error .fileSeeking ∧
      s.SearchRange keyL keyR = .error .fileSeeking := by
  have hL := sstable.searchBoundLoop_none_below h keyL hlow
  refine ⟨hL, rfl, rfl, sstable.setDataFileOffset_neg _ _ (-1) true (by omega), ?_⟩
  have hsize : (s.size : Int) = recs.length := by rw [h.2.2]
  obtain ⟨R, hR, _, _⟩ := sstable.searchBoundLoop_ok h (fun k => decide (k ≤ keyR)) (s.size + 1)
    (-1) s.size (le_refl _) (by omega) (by omega) (by omega)
  unfold sstable.SSTable.SearchRange
  rw [hL, hR]
  simp only [sstable.setDataFileOffset_neg _ _ (-1) true (by omega)]

/-- The first run of scenario S4 and the lower bound `"a"` satisfy the hypotheses of C20. -/
theorem C20_range_search_fails_without_key_below_witness :
    sstable.Holds lsm_tree.runS3 lsm_tree.recordsS3 ∧
      (∀ e ∈ lsm_tree.recordsS3, ¬ e.Value < lsm_tree.keyA) ∧
      sstable.searchBoundLoop lsm_tree.runS3 (fun k => decide (k < lsm_tree.keyA))
          (lsm_tree.runS3.size + 1) (-1) lsm_tree.runS3.size = .ok (-1) ∧
      sstable.setMetaFileOffset lsm_tree.runS3.metaFile (-1) = .error .fileSeeking ∧
      sstable.raw.setMetaFileOffset (sstable.metaFileBytes lsm_tree.runS3.metaFile) (-1) =
        .error .fileSeeking ∧
      sstable.setDataFileOffset lsm_tree.runS3.metaFile lsm_tree.runS3.dataFile (-1) true =
        .error .fileSeeking ∧
      lsm_tree.runS3.SearchRange lsm_tree.keyA lsm_tree.keyB = .error .fileSeeking :=
  have hh : sstable.Holds lsm_tree.runS3 lsm_tree.recordsS3 := ⟨rfl, rfl, rfl⟩
  have hlow : ∀ e ∈ lsm_tree.recordsS3, ¬ e.Value < lsm_tree.keyA := by decide
  ⟨hh, hlow,
    C20_range_search_fails_without_key_below lsm_tree.runS3 lsm_tree.recordsS3 hh
      lsm_tree.keyA lsm_tree.keyB hlow⟩

/-- C21. Level promotion terminates: with `MaxLevelSize ≥ 2`, for every tree, whatever the
number of its levels and the runs in them, the loop of `mergeSSTables` ends within the fuel of
the entry point, the loops of the merges included. Either it returns a tree, and then it has
visited the levels `0, 1, ..` up to the last level of that tree once each, in this order, and
the tree has the levels of the start or one more; or a call of `sstable.New` on `MaxLevelSize`
tables has failed with an error of the files at a level of the start array, the last one
visited, and the loop returns that error. When every run is in good order no merge fails, and
the loop returns a tree. -/
theorem C21_level_promotion_terminates (p : Params) (hM : 2 ≤ p.MaxLevelSize)
    (l : lsm_tree.LSMTree) :
    (lsm_tree.mergeSSTablesLoopVisits p (2 * l.sstables.length + 1) 0 l []).1 =
        l.mergeSSTables p ∧
      ((∃ l1, l.mergeSSTables p = .ok l1 ∧
          (lsm_tree.mergeSSTablesLoopVisits p (2 * l.sstables.length + 1) 0 l []).2 =
            List.range l1.sstables.length ∧
          l.sstables.length ≤ l1.sstables.length ∧
          l1.sstables.length ≤ l.sstables.length + 1) ∨
        (∃ (e : Err) (level : Nat) (tables : List sstable.SSTable) (tag : Nat),
          l.mergeSSTables p = .error e ∧
          (lsm_tree.mergeSSTablesLoopVisits p (2 * l.sstables.length + 1) 0 l []).2 =
            List.range (level + 1) ∧
          level < l.sstables.length ∧ tables.length = p.MaxLevelSize ∧
          sstable.New p tag tables = .error e ∧ e ≠ .outOfFuel)) ∧
      l.mergeSSTables p ≠ .error .outOfFuel ∧
      ((∀ lv ∈ l.sstables, ∀ s ∈ lv, lsm_tree.RunOK s) →
        ∃ l1, l.mergeSSTables p = .ok l1 ∧
          (lsm_tree.mergeSSTablesLoopVisits p (2 * l.sstables.length + 1) 0 l []).2 =
            List.range l1.sstables.length ∧
          l.sstables.length ≤ l1.sstables.length ∧
          l1.sstables.length ≤ l.sstables.length + 1) := by
  have herase := lsm_tree.mergeSSTablesLoopVisits_erase p (2 * l.sstables.length + 1) 0 l []
  have hle := lsm_tree.turnsLeft_le_succ p.MaxLevelSize l.sstables
  have hspec := lsm_tree.mergeSSTablesLoopVisits_spec p hM (2 * l.sstables.length + 1) []
    l.sstables l.ramComponent l.ramComponentRemoved l.fileCnt []
    (lsm_tree.turnsLeft_le p.MaxLevelSize l.sstables)
  simp only [List.nil_append, List.length_nil, Nat.sub_zero, Nat.zero_add, Nat.zero_le,
    true_and, ← List.range_eq_range'] at hspec
  unfold lsm_tree.LSMTree.mergeSSTables
  rw [← herase]
  have hne : ∀ (e : Err) (tag : Nat) (tables : List sstable.SSTable),
      sstable.New p tag tables = .error e → e ≠ .outOfFuel := by
    intro e tag tables hfail hc
    rw [hc] at hfail
    exact sstable.New_ne_fuel p tag tables hfail
  refine ⟨rfl, ?_, ?_, ?_⟩
  · rcases hspec with ⟨l1, hrun, h1, h2⟩ | ⟨e, level, tables, tag, hrun, h1, ht, hfail, _⟩
    · exact Or.inl ⟨l1, by rw [hrun], by rw [hrun], h1, by omega⟩
    · exact Or.inr ⟨e, level, tables, tag, by rw [hrun], by rw [hrun], by omega, ht, hfail,
        hne e tag tables hfail⟩
  · rcases hspec with ⟨l1, hrun, h1, h2⟩ | ⟨e, level, tables, tag, hrun, h1, ht, hfail, _⟩
    · rw [hrun]
      exact fun hc => nomatch hc
    · rw [hrun]
      intro hc
      cases hc
      exact hne _ tag tables hfail rfl
  · intro hruns
    rcases hspec with ⟨l1, hrun, h1, h2⟩ | ⟨e, level, tables, tag, hrun, h1, ht, hfail, hr⟩
    · exact ⟨l1, by rw [hrun], by rw [hrun], h1, by omega⟩
    · obtain ⟨s, hs, _⟩ := lsm_tree.searchKeyLevels_merged p tag [] (hr hruns) ht (by omega)
        [] []
      rw [hfail] at hs
      cases hs

/-- The tree of scenario S4 at its second flush satisfies the hypothesis of C21: the loop
visits level 0, merges its two runs into a new level 1, visits level 1 and ends. -/
theorem C21_level_promotion_terminates_witness :
    2 ≤ lsm_tree.scenarioParams.MaxLevelSize ∧
      (lsm_tree.mergeSSTablesLoopVisits lsm_tree.scenarioParams
        (2 * lsm_tree.scenarioFullLevel.sstables.length + 1) 0 lsm_tree.scenarioFullLevel
        []).2 = [0, 1] ∧
      (∃ l1, lsm_tree.scenarioFullLevel.mergeSSTables lsm_tree.scenarioParams = .ok l1 ∧
        l1.sstables.length = 2) ∧
      ((lsm_tree.mergeSSTablesLoopVisits lsm_tree.scenarioParams
          (2 * lsm_tree.scenarioFullLevel.sstables.length + 1) 0 lsm_tree.scenarioFullLevel
          []).1 = lsm_tree.scenarioFullLevel.mergeSSTables lsm_tree.scenarioParams ∧
        ((∃ l1, lsm_tree.scenarioFullLevel.mergeSSTables lsm_tree.scenarioParams = .ok l1 ∧
            (lsm_tree.mergeSSTablesLoopVisits lsm_tree.scenarioParams
              (2 * lsm_tree.scenarioFullLevel.sstables.length + 1) 0
              lsm_tree.scenarioFullLevel []).2 = List.range l1.sstables.length ∧
            lsm_tree.scenarioFullLevel.sstables.length ≤ l1.sstables.length ∧
            l1.sstables.length ≤ lsm_tree.scenarioFullLevel.sstables.length + 1) ∨
          (∃ (e : Err) (level : Nat) (tables : List sstable.SSTable) (tag : Nat),
            lsm_tree.scenarioFullLevel.mergeSSTables lsm_tree.scenarioParams = .error e ∧
            (lsm_tree.mergeSSTablesLoopVisits lsm_tree.scenarioParams
              (2 * lsm_tree.scenarioFullLevel.sstables.length + 1) 0
              lsm_tree.scenarioFullLevel []).2 = List.range (level + 1) ∧
            level < lsm_tree.scenarioFullLevel.sstables.length ∧
            tables.length = lsm_tree.scenarioParams.MaxLevelSize ∧
            sstable.New lsm_tree.scenarioParams tag tables = .error e ∧ e ≠ .outOfFuel)) ∧
        lsm_tree.scenarioFullLevel.mergeSSTables lsm_tree.scenarioParams ≠
          .error .outOfFuel ∧
        ((∀ lv ∈ lsm_tree.scenarioFullLevel.sstables, ∀ s ∈ lv, lsm_tree.RunOK s) →
          ∃ l1, lsm_tree.scenarioFullLevel.mergeSSTables lsm_tree.scenarioParams = .ok l1 ∧
            (lsm_tree.mergeSSTablesLoopVisits lsm_tree.scenarioParams
              (2 * lsm_tree.scenarioFullLevel.sstables.length + 1) 0
              lsm_tree.scenarioFullLevel []).2 = List.range l1.sstables.length ∧
            lsm_tree.scenarioFullLevel.sstables.length ≤ l1.sstables.length ∧
            l1.sstables.length ≤ lsm_tree.scenarioFullLevel.sstables.length + 1)) :=
  ⟨by decide, rfl, ⟨_, rfl, rfl⟩,
    C21_level_promotion_terminates lsm_tree.scenarioParams (by decide)
      lsm_tree.scenarioFullLevel⟩

/-- C22. Binary-search probes stay in bounds: for every run `s`, of any size, and all keys,
every index `mid` that the loop of `SearchKey` and the two loops of `SearchRange`, entered with
`left = -1` and `right = s.size`, pass to `tableElementFromFileRandom` satisfies
`0 ≤ mid < s.size`, whatever the files hold. When the files hold the records `recs` of the run,
every such read returns the record at index `mid` and so no end of file, and each of the three
loops returns a result. -/
theorem C22_probes_in_bounds (s : sstable.SSTable) (key keyL keyR : Key) :
    ((sstable.searchKeyLoopProbes s key (s.size + 1) (-1) s.size []).1 =
        sstable.searchKeyLoop s key (s.size + 1) (-1) s.size ∧
      (sstable.searchBoundLoopProbes s (fun k => decide (k < keyL)) (s.size + 1) (-1) s.size
        []).1 = sstable.searchBoundLoop s (fun k => decide (k < keyL)) (s.size + 1) (-1)
          s.size ∧
      (sstable.searchBoundLoopProbes s (fun k => decide (k ≤ keyR)) (s.size + 1) (-1) s.size
        []).1 = sstable.searchBoundLoop s (fun k => decide (k ≤ keyR)) (s.size + 1) (-1)
          s.size) ∧
      (∀ mid : Int,
        mid ∈ (sstable.searchKeyLoopProbes s key (s.size + 1) (-1) s.size []).2 ∨
          mid ∈ (sstable.searchBoundLoopProbes s (fun k => decide (k < keyL)) (s.size + 1)
            (-1) s.size []).2 ∨
          mid ∈ (sstable.searchBoundLoopProbes s (fun k => decide (k ≤ keyR)) (s.size + 1)
            (-1) s.size []).2 →
        0 ≤ mid ∧ mid < s.size) ∧
      (∀ recs : List sstable.TableElement, sstable.Holds s recs →
        (∀ mid : Int,
          mid ∈ (sstable.searchKeyLoopProbes s key (s.size + 1) (-1) s.size []).2 ∨
            mid ∈ (sstable.searchBoundLoopProbes s (fun k => decide (k < keyL)) (s.size + 1)
              (-1) s.size []).2 ∨
            mid ∈ (sstable.searchBoundLoopProbes s (fun k => decide (k ≤ keyR)) (s.size + 1)
              (-1) s.size []).2 →
          ∃ e, sstable.tableElementFromFileRandom s.metaFile s.dataFile mid = .ok e ∧
            recs[mid.toNat]? = some e) ∧
        (∃ r, sstable.searchKeyLoop s key (s.size + 1) (-1) s.size = .ok r) ∧
        (∃ L, sstable.searchBoundLoop s (fun k => decide (k < keyL)) (s.size + 1) (-1)
          s.size = .ok L) ∧
        (∃ R, sstable.searchBoundLoop s (fun k => decide (k ≤ keyR)) (s.size + 1) (-1)
          s.size = .ok R)) := by
  have hbounds : ∀ mid : Int,
      mid ∈ (sstable.searchKeyLoopProbes s key (s.size + 1) (-1) s.size []).2 ∨
        mid ∈ (sstable.searchBoundLoopProbes s (fun k => decide (k < keyL)) (s.size + 1)
          (-1) s.size []).2 ∨
        mid ∈ (sstable.searchBoundLoopProbes s (fun k => decide (k ≤ keyR)) (s.size + 1)
          (-1) s.size []).2 →
      0 ≤ mid ∧ mid < s.size := by
    intro mid hmid
    rcases hmid with h | h | h
    · exact sstable.searchKeyLoopProbes_bounds s key s.size (s.size + 1) (-1) s.size []
        (le_refl _) (le_refl _) (fun m hm => nomatch hm) mid h
    · exact sstable.searchBoundLoopProbes_bounds s (fun k => decide (k < keyL)) s.size
        (s.size + 1) (-1) s.size [] (le_refl _) (le_refl _) (fun m hm => nomatch hm) mid h
    · exact sstable.searchBoundLoopProbes_bounds s (fun k => decide (k ≤ keyR)) s.size
        (s.size + 1) (-1) s.size [] (le_refl _) (le_refl _) (fun m hm => nomatch hm) mid h
  refine ⟨⟨sstable.searchKeyLoopProbes_erase s key _ _ _ _,
    sstable.searchBoundLoopProbes_erase s _ _ _ _ _,
    sstable.searchBoundLoopProbes_erase s _ _ _ _ _⟩, hbounds, ?_⟩
  intro recs h
  have hsize : (s.size : Int) = recs.length := by rw [h.2.2]
  refine ⟨fun mid hmid => ?_, ?_, ?_, ?_⟩
  · obtain ⟨h0, h1⟩ := hbounds mid hmid
    exact h.read_in_bounds mid h0 h1
  · exact sstable.searchKeyLoop_ok h key (s.size + 1) (-1) s.size (le_refl _) (by omega)
      (by omega) (by omega)
  · obtain ⟨L, hL, _⟩ := sstable.searchBoundLoop_ok h (fun k => decide (k < keyL))
      (s.size + 1) (-1) s.size (le_refl _) (by omega) (by omega) (by omega)
    exact ⟨L, hL⟩
  · obtain ⟨R, hR, _⟩ := sstable.searchBoundLoop_ok h (fun k => decide (k ≤ keyR))
      (s.size + 1) (-1) s.size (le_refl _) (by omega) (by omega) (by omega)
    exact ⟨R, hR⟩

/-- The first run of scenario S4, which holds `a`, `b`, `c`, `d`, searched for `"c"` and for
the range from `"c"` to `"d"`: the searches read the indices 1, 2, then 1, 2, then 1, 2, 3, and
every read returns the record at its index. -/
theorem C22_probes_in_bounds_witness :
    sstable.Holds lsm_tree.runS3 lsm_tree.recordsS3 ∧
      (sstable.searchKeyLoopProbes lsm_tree.runS3 lsm_tree.keyC (lsm_tree.runS3.size + 1) (-1)
        lsm_tree.runS3.size []).2 = [1, 2] ∧
      (sstable.searchBoundLoopProbes lsm_tree.runS3 (fun k => decide (k < lsm_tree.keyC))
        (lsm_tree.runS3.size + 1) (-1) lsm_tree.runS3.size []).2 = [1, 2] ∧
      (sstable.searchBoundLoopProbes lsm_tree.runS3 (fun k => decide (k ≤ lsm_tree.keyD))
        (lsm_tree.runS3.size + 1) (-1) lsm_tree.runS3.size []).2 = [1, 2, 3] ∧
      (∀ mid : Int,
        mid ∈ (sstable.searchKeyLoopProbes lsm_tree.runS3 lsm_tree.keyC
            (lsm_tree.runS3.size + 1) (-1) lsm_tree.runS3.size []).2 ∨
          mid ∈ (sstable.searchBoundLoopProbes lsm_tree.runS3
            (fun k => decide (k < lsm_tree.keyC)) (lsm_tree.runS3.size + 1) (-1)
            lsm_tree.runS3.size []).2 ∨
          mid ∈ (sstable.searchBoundLoopProbes lsm_tree.runS3
            (fun k => decide (k ≤ lsm_tree.keyD)) (lsm_tree.runS3.size + 1) (-1)
            lsm_tree.runS3.size []).2 →
        0 ≤ mid ∧ mid < lsm_tree.runS3.size) ∧
      (∀ mid : Int,
        mid ∈ (sstable.searchKeyLoopProbes lsm_tree.runS3 lsm_tree.keyC
            (lsm_tree.runS3.size + 1) (-1) lsm_tree.runS3.size []).2 ∨
          mid ∈ (sstable.searchBoundLoopProbes lsm_tree.runS3
            (fun k => decide (k < lsm_tree.keyC)) (lsm_tree.runS3.size + 1) (-1)
            lsm_tree.runS3.size []).2 ∨
          mid ∈ (sstable.searchBoundLoopProbes lsm_tree.runS3
            (fun k => decide (k ≤ lsm_tree.keyD)) (lsm_tree.runS3.size + 1) (-1)
            lsm_tree.runS3.size []).2 →
        ∃ e, sstable.tableElementFromFileRandom lsm_tree.runS3.metaFile
            lsm_tree.runS3.dataFile mid = .ok e ∧
          lsm_tree.recordsS3[mid.toNat]? = some e) :=
  have hh : sstable.Holds lsm_tree.runS3 lsm_tree.recordsS3 := ⟨rfl, rfl, rfl⟩
  ⟨hh, rfl, rfl, rfl,
    (C22_probes_in_bounds lsm_tree.runS3 lsm_tree.keyC lsm_tree.keyC lsm_tree.keyD).2.1,
    ((C22_probes_in_bounds lsm_tree.runS3 lsm_tree.keyC lsm_tree.keyC lsm_tree.keyD).2.2
      lsm_tree.recordsS3 hh).1⟩
